import Mathlib

/-!
Verification of the storage-engine core of the CMU15445-2022fall repository:
LRU-K replacer, extendible hash table, buffer pool manager instance, and the
B+ tree index.  Each C++ source file is shallowly embedded as executable Lean
definitions; the theorems at the end of the file settle the specification
claims against those definitions.
-/

set_option maxRecDepth 10000

/-! # LRU-K replacer (src/buffer/lru_k_replacer.cpp) -/

namespace LRUK

/-- One tracked frame record: frame id, number of recorded accesses
(`times_`), and the evictable flag.  Mirrors `LRUKReplacer::FrameInfo`. -/
structure FrameInfo where
  frameId : Nat
  times : Nat
  evictable : Bool
deriving DecidableEq

/-- `FrameInfo::FrameInfo(frame_id)`: `times_ = 0`, `evictable_ = true`. -/
def FrameInfo.init (fid : Nat) : FrameInfo :=
  { frameId := fid, times := 0, evictable := true }

/-- Replacer state: the *history* list `temp_pool_` and the *cache* list
`cache_pool_` (front = oldest, back = newest), plus the configuration
parameters.  The C++ `temp_map_`/`cache_map_` are lookup accelerators over
the same lists and carry no extra state. -/
structure Replacer where
  replacerSize : Nat
  k : Nat
  tempPool : List FrameInfo
  cachePool : List FrameInfo
deriving DecidableEq

/-- Scan a pool from the oldest end; return the first evictable record's id
together with the pool with that record erased (the iterator-erase in
`LRUKReplacer::Evict`). -/
def evictFrom : List FrameInfo → Option (Nat × List FrameInfo)
  | [] => none
  | f :: rest =>
    if f.evictable then some (f.frameId, rest)
    else (evictFrom rest).map (fun p => (p.1, f :: p.2))

/-- `LRUKReplacer::Evict`: history pool first, then cache pool; returns the
chosen frame id (or `none`) and the updated state. -/
def Replacer.evict (s : Replacer) : Option Nat × Replacer :=
  match evictFrom s.tempPool with
  | some (fid, l) => (some fid, { s with tempPool := l })
  | none =>
    match evictFrom s.cachePool with
    | some (fid, l) => (some fid, { s with cachePool := l })
    | none => (none, s)

/-- Membership of a frame id in a pool (the `temp_map_.count` /
`cache_map_.count` tests). -/
def inPool (fid : Nat) (l : List FrameInfo) : Bool :=
  l.any (fun e => e.frameId == fid)

/-- Erase the first record with the given id from a pool. -/
def eraseId (fid : Nat) : List FrameInfo → List FrameInfo
  | [] => []
  | f :: rest => if f.frameId == fid then rest else f :: eraseId fid rest

/-- Look up the first record with the given id. -/
def lookupId (fid : Nat) (l : List FrameInfo) : Option FrameInfo :=
  l.find? (fun e => e.frameId == fid)

/-- Update (in place) the first record with the given id. -/
def updateId (fid : Nat) (g : FrameInfo → FrameInfo) :
    List FrameInfo → List FrameInfo
  | [] => []
  | f :: rest =>
    if f.frameId == fid then g f :: rest else f :: updateId fid g rest

/-- `LRUKReplacer::RecordAccess`:
* already in cache: move the record to the back of the cache pool;
* already in history: increment `times_`; if it reached `k`, move the
  record to the back of the cache pool, else leave it in place;
* otherwise: construct a fresh `FrameInfo`, increment `times_` once, and
  append it to the back of the history pool. -/
def Replacer.recordAccess (s : Replacer) (fid : Nat) : Replacer :=
  if inPool fid s.cachePool then
    match lookupId fid s.cachePool with
    | some e => { s with cachePool := eraseId fid s.cachePool ++ [e] }
    | none => s
  else if inPool fid s.tempPool then
    match lookupId fid s.tempPool with
    | some e =>
      let e' := { e with times := e.times + 1 }
      if s.k ≤ e'.times then
        { s with tempPool := eraseId fid s.tempPool,
                 cachePool := s.cachePool ++ [e'] }
      else
        { s with tempPool := updateId fid (fun f => { f with times := f.times + 1 }) s.tempPool }
    | none => s
  else
    let fr := FrameInfo.init fid
    let fr := { fr with times := fr.times + 1 }
    { s with tempPool := s.tempPool ++ [fr] }

/-- `LRUKReplacer::SetEvictable`: flip the flag of the record wherever it
lives; no-op for an untracked frame. -/
def Replacer.setEvictable (s : Replacer) (fid : Nat) (b : Bool) : Replacer :=
  if inPool fid s.tempPool then
    { s with tempPool := updateId fid (fun f => { f with evictable := b }) s.tempPool }
  else if inPool fid s.cachePool then
    { s with cachePool := updateId fid (fun f => { f with evictable := b }) s.cachePool }
  else s

/-- `LRUKReplacer::Remove`: erase the record; `none` models the
`BUSTUB_ASSERT` firing on an attempt to remove a non-evictable record. -/
def Replacer.remove (s : Replacer) (fid : Nat) : Option Replacer :=
  if inPool fid s.tempPool then
    match lookupId fid s.tempPool with
    | some e =>
      if e.evictable then some { s with tempPool := eraseId fid s.tempPool } else none
    | none => none
  else if inPool fid s.cachePool then
    match lookupId fid s.cachePool with
    | some e =>
      if e.evictable then some { s with cachePool := eraseId fid s.cachePool } else none
    | none => none
  else some s

/-- `LRUKReplacer::Size`: count of evictable records over both pools. -/
def Replacer.size (s : Replacer) : Nat :=
  (s.cachePool.filter (fun e => e.evictable)).length
    + (s.tempPool.filter (fun e => e.evictable)).length

/-- `LRUKReplacer::LRUKReplacer(num_frames, k)`. -/
def Replacer.init (numFrames k : Nat) : Replacer :=
  { replacerSize := numFrames, k := k, tempPool := [], cachePool := [] }

/-- A frame is tracked when it lives in one of the two pools. -/
def Replacer.tracked (s : Replacer) (fid : Nat) : Bool :=
  inPool fid s.tempPool || inPool fid s.cachePool

/-- The evictable flag of a tracked frame (`none` when untracked). -/
def Replacer.flagOf (s : Replacer) (fid : Nat) : Option Bool :=
  match lookupId fid s.tempPool with
  | some e => some e.evictable
  | none =>
    match lookupId fid s.cachePool with
    | some e => some e.evictable
    | none => none

/-- Class invariant of the two pools: every history record has between 1 and
`k − 1` recorded accesses, every cache record has at least `k`. -/
def ClassOk (k : Nat) (s : Replacer) : Prop :=
  (∀ e ∈ s.tempPool, 1 ≤ e.times ∧ e.times < k) ∧ (∀ e ∈ s.cachePool, k ≤ e.times)

instance (k : Nat) (s : Replacer) : Decidable (ClassOk k s) := by
  unfold ClassOk; infer_instance

/-- First evictable frame id of a pool (selection only, no removal). -/
def firstEvictable (l : List FrameInfo) : Option Nat :=
  (l.find? (fun e => e.evictable)).map (fun e => e.frameId)

/-- No frame id is tracked twice (the `temp_map_`/`cache_map_` indices make
this structural in the source). -/
def IdsOk (s : Replacer) : Prop :=
  ((s.tempPool ++ s.cachePool).map FrameInfo.frameId).Nodup

instance (s : Replacer) : Decidable (IdsOk s) := by
  unfold IdsOk; infer_instance

/-- Record a sequence of accesses, oldest first. -/
def Replacer.recordAll (s : Replacer) : List Nat → Replacer
  | [] => s
  | f :: rest => (s.recordAccess f).recordAll rest

end LRUK

/-! # Extendible hash table (src/container/hash/extendible_hash_table.cpp)

Buckets are shared between directory slots through `shared_ptr` in the
source; the embedding keeps an explicit store from bucket id to bucket
so that slot sharing is observable.  The C++ bit mask `x & ((1 << d) - 1)`
is written `x % 2 ^ d`. -/

namespace EHT

/-- `ExtendibleHashTable::Bucket`: local depth plus an ordered list of
key/value pairs. -/
structure Bucket (K V : Type) where
  depth : Nat
  items : List (K × V)
deriving DecidableEq

/-- Whole-table state.  `dir` holds bucket ids into `store`; `nextId` is the
allocator for fresh bucket ids (a fresh `shared_ptr` in the source). -/
structure Table (K V : Type) where
  globalDepth : Nat
  bucketSize : Nat
  numBuckets : Nat
  store : List (Nat × Bucket K V)
  dir : List Nat
  nextId : Nat
deriving DecidableEq

variable {K V : Type} [DecidableEq K]

/-- `ExtendibleHashTable::IndexOf`: hash folded with the global-depth mask. -/
def indexOf (hash : K → Nat) (gd : Nat) (k : K) : Nat :=
  hash k % 2 ^ gd

/-- Dereference a bucket id (first matching store entry). -/
def lookupB (t : Table K V) (bid : Nat) : Option (Bucket K V) :=
  (t.store.find? (fun p => p.1 == bid)).map Prod.snd

/-- Replace the first store entry with the given id. -/
def storeUpdate (bid : Nat) (b : Bucket K V) :
    List (Nat × Bucket K V) → List (Nat × Bucket K V)
  | [] => []
  | p :: rest =>
    if p.1 == bid then (bid, b) :: rest else p :: storeUpdate bid b rest

/-- Write back the (mutated) bucket behind a bucket id. -/
def updateB (t : Table K V) (bid : Nat) (b : Bucket K V) : Table K V :=
  { t with store := storeUpdate bid b t.store }

/-- The bucket a directory slot points at. -/
def bucketAt (t : Table K V) (i : Nat) : Option (Bucket K V) :=
  lookupB t (t.dir.getD i 0)

/-- `Bucket::Find`: linear scan for the key. -/
def Bucket.find (b : Bucket K V) (k : K) : Option V :=
  (b.items.find? (fun kv => kv.1 == k)).map Prod.snd

/-- Overwrite the value of the first entry carrying the key
(the overwrite loop of `Bucket::Insert`). -/
def overwriteKey (k : K) (v : V) : List (K × V) → List (K × V)
  | [] => []
  | kv :: rest =>
    if kv.1 == k then (kv.1, v) :: rest else kv :: overwriteKey k v rest

/-- `Bucket::Insert`: overwrite if the key exists (even in a full bucket);
append if not full; `none` models the `false` return on a full bucket. -/
def bucketInsert (sz : Nat) (b : Bucket K V) (k : K) (v : V) :
    Option (Bucket K V) :=
  if b.items.any (fun kv => kv.1 == k) then
    some { b with items := overwriteKey k v b.items }
  else if sz ≤ b.items.length then none
  else some { b with items := b.items ++ [(k, v)] }

/-- Erase the first entry carrying the key (`Bucket::Remove`); `none` when
the key is absent. -/
def removeKey (k : K) : List (K × V) → Option (List (K × V))
  | [] => none
  | kv :: rest =>
    if kv.1 == k then some rest
    else (removeKey k rest).map (fun l => kv :: l)

/-- Build a directory of length `n` by tabulating slot contents. -/
def dirMap (n : Nat) (f : Nat → Nat) : List Nat :=
  (List.range n).map f

/-- The split pivot of `RedistributeBucket`:
`IndexOf(items.begin()->first) & base_mask`, i.e. the low `local_depth`
bits of the first item's masked hash (the source dereferences `begin()` of
a bucket that is never empty when split). -/
def lowOf (hash : K → Nat) (gd : Nat) (b : Bucket K V) : Nat :=
  match b.items with
  | [] => 0
  | kv :: _ => indexOf hash gd kv.1 % 2 ^ b.depth

/-- `ExtendibleHashTable::RedistributeBucket`: split the bucket behind
`bid` into two fresh buckets of depth `old + 1`, partition its items by the
low `old + 1` bits of their hash against the low bits of the first item,
and repoint every directory slot whose low `old` bits match. -/
def redistribute (hash : K → Nat) (t : Table K V) (bid : Nat) : Table K V :=
  match lookupB t bid with
  | none => t
  | some b =>
    let d := b.depth
    let low : Nat := lowOf hash t.globalDepth b
    let items1 := b.items.filter
      (fun kv => indexOf hash t.globalDepth kv.1 % 2 ^ (d + 1) == low)
    let items2 := b.items.filter
      (fun kv => !(indexOf hash t.globalDepth kv.1 % 2 ^ (d + 1) == low))
    let id1 := t.nextId
    let id2 := t.nextId + 1
    { t with
      store := (id1, ⟨d + 1, items1⟩) :: (id2, ⟨d + 1, items2⟩) :: t.store,
      dir := dirMap t.dir.length (fun i =>
        if i % 2 ^ d == low then
          (if i % 2 ^ (d + 1) == low then id1 else id2)
        else t.dir.getD i 0),
      numBuckets := t.numBuckets + 1,
      nextId := t.nextId + 2 }

/-- Directory doubling inside `InsertInternal`: each new slot copies the
slot at its index masked by the old global depth. -/
def doubleDir (t : Table K V) : Table K V :=
  { t with
    globalDepth := t.globalDepth + 1,
    dir := dirMap (2 ^ (t.globalDepth + 1))
      (fun i => t.dir.getD (i % 2 ^ t.globalDepth) 0) }

/-- `ExtendibleHashTable::InsertInternal`, with explicit fuel for the
split-and-retry recursion; `none` means the fuel ran out (the source may
retry an unbounded number of times) or an unreachable broken lookup. -/
def insertInternal (hash : K → Nat) :
    Nat → Table K V → K → V → Option (Table K V)
  | 0, _, _, _ => none
  | fuel + 1, t, k, v =>
    let i := indexOf hash t.globalDepth k
    let bid := t.dir.getD i 0
    match lookupB t bid with
    | none => none
    | some b =>
      match bucketInsert t.bucketSize b k v with
      | some b' => some (updateB t bid b')
      | none =>
        if b.depth < t.globalDepth then
          insertInternal hash fuel (redistribute hash t bid) k v
        else
          insertInternal hash fuel (redistribute hash (doubleDir t) bid) k v

/-- `ExtendibleHashTable::Find`. -/
def find (hash : K → Nat) (t : Table K V) (k : K) : Option V :=
  (bucketAt t (indexOf hash t.globalDepth k)).bind (fun b => b.find k)

/-- `ExtendibleHashTable::Remove`: returns whether a removal occurred. -/
def remove (hash : K → Nat) (t : Table K V) (k : K) : Bool × Table K V :=
  let i := indexOf hash t.globalDepth k
  let bid := t.dir.getD i 0
  match lookupB t bid with
  | none => (false, t)
  | some b =>
    match removeKey k b.items with
    | none => (false, t)
    | some items' => (true, updateB t bid { b with items := items' })

/-- `ExtendibleHashTable::ExtendibleHashTable(bucket_size)`: global depth 0,
one empty bucket of depth 0. -/
def Table.init (bucketSize : Nat) : Table K V :=
  { globalDepth := 0, bucketSize := bucketSize, numBuckets := 1,
    store := [(0, ⟨0, []⟩)], dir := [0], nextId := 1 }

/-- Local depth of the bucket a slot points at (0 when broken). -/
def depthAt (t : Table K V) (i : Nat) : Nat :=
  ((bucketAt t i).map Bucket.depth).getD 0

/-- Items of the bucket a slot points at. -/
def itemsAt (t : Table K V) (i : Nat) : List (K × V) :=
  ((bucketAt t i).map Bucket.items).getD []

/-- Table invariant: the directory length is `2 ^ global_depth`; every slot
points at a live bucket whose local depth is at most the global depth, whose
items all hash into that slot's low `local_depth` bits, and whose keys are
distinct; two slots share a bucket exactly when their low `local_depth` bits
agree; all bucket ids in use are below the allocator. -/
def Inv (hash : K → Nat) (t : Table K V) : Prop :=
  t.dir.length = 2 ^ t.globalDepth
  ∧ (∀ i < t.dir.length, (bucketAt t i).isSome = true
      ∧ depthAt t i ≤ t.globalDepth
      ∧ (∀ kv ∈ itemsAt t i,
          indexOf hash t.globalDepth kv.1 % 2 ^ depthAt t i = i % 2 ^ depthAt t i)
      ∧ ((itemsAt t i).map Prod.fst).Nodup)
  ∧ (∀ i < t.dir.length, ∀ j < t.dir.length,
      (t.dir.getD i 0 = t.dir.getD j 0 ↔ i % 2 ^ depthAt t i = j % 2 ^ depthAt t i))
  ∧ (∀ id ∈ t.dir, id < t.nextId)
  ∧ (∀ p ∈ t.store, p.1 < t.nextId)

instance (hash : K → Nat) (t : Table K V) : Decidable (Inv hash t) := by
  unfold Inv; infer_instance

end EHT

/-! # Buffer pool manager instance (src/buffer/buffer_pool_manager_instance.cpp)

Frames are modelled as a list of `Page` records indexed by frame id; the
`page_id → frame_id` directory is the extendible hash table above; the
replacer is the LRU-K replacer above.  Page payloads are abstracted to a
single `Nat`.  `INVALID_PAGE_ID` becomes `none` in an `Option Nat` page id. -/

namespace BPM

/-- An in-memory page frame: owning page id (`none` = `INVALID_PAGE_ID`),
pin count, dirty flag, and abstracted data bytes. -/
structure Page where
  pageId : Option Nat
  pinCount : Nat
  isDirty : Bool
  data : Nat
deriving DecidableEq

instance : Inhabited Page :=
  ⟨{ pageId := none, pinCount := 0, isDirty := false, data := 0 }⟩

/-- Modelled from the spec: `Page::ResetMemory` is declared in
include/storage/page/page.h, which is not among the provided sources.  The
spec's `delete_page` step says to "clear the frame" and its frame model
requires `page_id = INVALID` for a free frame, so clearing resets the data
bytes and the metadata. -/
def resetFrame (_p : Page) : Page :=
  { pageId := none, pinCount := 0, isDirty := false, data := 0 }

/-- The disk manager: an association of page ids to written bytes.
Reading an unwritten page yields zero bytes (the spec assumes a reliable
device and zero-filled fresh pages). -/
structure Disk where
  blocks : List (Nat × Nat)
deriving DecidableEq

/-- `DiskManager::WritePage`. -/
def Disk.write (d : Disk) (pid : Nat) (bytes : Nat) : Disk :=
  ⟨(pid, bytes) :: d.blocks.filter (fun p => !(p.1 == pid))⟩

/-- `DiskManager::ReadPage`. -/
def Disk.read (d : Disk) (pid : Nat) : Nat :=
  ((d.blocks.find? (fun p => p.1 == pid)).map Prod.snd).getD 0

/-- `std::hash` over integer page ids, modelled as the identity. -/
def pageHash : Nat → Nat := fun n => n

/-- `BufferPoolManagerInstance` state. -/
structure BPMState where
  poolSize : Nat
  pages : List Page
  pageTable : EHT.Table Nat Nat
  replacer : LRUK.Replacer
  freeList : List Nat
  nextPageId : Nat
  disk : Disk
deriving DecidableEq

/-- The constructor: empty frames, every frame on the free list. -/
def BPMState.init (poolSize replacerK bucketSize : Nat) : BPMState :=
  { poolSize := poolSize,
    pages := List.replicate poolSize default,
    pageTable := EHT.Table.init bucketSize,
    replacer := LRUK.Replacer.init poolSize replacerK,
    freeList := List.range poolSize,
    nextPageId := 0,
    disk := ⟨[]⟩ }

/-- Frame at a frame id. -/
def frameAt (s : BPMState) (f : Nat) : Page :=
  s.pages.getD f default

/-- Obtain a victim frame: pop the free list if non-empty, else evict; on
eviction write back a dirty victim and remove its directory mapping.  This
is the shared prologue of `NewPgImp` and `FetchPgImp`; `none` models the
`nullptr` return when no frame is available. -/
def getVictim (s : BPMState) : Option (Nat × BPMState) :=
  match s.freeList with
  | f :: rest => some (f, { s with freeList := rest })
  | [] =>
    match s.replacer.evict with
    | (none, _) => none
    | (some f, rep') =>
      let pg := frameAt s f
      let disk' := if pg.isDirty then s.disk.write (pg.pageId.getD 0) pg.data else s.disk
      let tbl' := (EHT.remove pageHash s.pageTable (pg.pageId.getD 0)).2
      some (f, { s with replacer := rep', pageTable := tbl', disk := disk' })

/-- `BufferPoolManagerInstance::NewPgImp`.  The outer `none` models the
page-table insert running out of fuel; `some none` is the `nullptr` return;
`some (some (pid, s'))` returns the allocated page id. -/
def newPg (fuel : Nat) (s : BPMState) : Option (Option (Nat × BPMState)) :=
  match getVictim s with
  | none => some none
  | some (f, s1) =>
    let newPid := s1.nextPageId
    let pg := { resetFrame (frameAt s1 f) with
                pageId := some newPid, pinCount := 1, isDirty := false }
    let rep' := ((s1.replacer.recordAccess f).setEvictable f false)
    match EHT.insertInternal pageHash fuel s1.pageTable newPid f with
    | none => none
    | some tbl' =>
      some (some (newPid,
        { s1 with pages := s1.pages.set f pg, replacer := rep',
                  pageTable := tbl', nextPageId := s1.nextPageId + 1 }))

/-- `BufferPoolManagerInstance::FetchPgImp`; result conventions as in
`newPg`, returning the frame id holding the page. -/
def fetchPg (fuel : Nat) (s : BPMState) (pid : Nat) :
    Option (Option (Nat × BPMState)) :=
  match EHT.find pageHash s.pageTable pid with
  | some f =>
    let pg := frameAt s f
    let pg' := { pg with pinCount := pg.pinCount + 1 }
    let rep' := ((s.replacer.recordAccess f).setEvictable f false)
    some (some (f, { s with pages := s.pages.set f pg', replacer := rep' }))
  | none =>
    match getVictim s with
    | none => some none
    | some (f, s1) =>
      let pg := { resetFrame (frameAt s1 f) with
                  pageId := some pid, pinCount := 1, isDirty := false,
                  data := s1.disk.read pid }
      let rep' := ((s1.replacer.recordAccess f).setEvictable f false)
      match EHT.insertInternal pageHash fuel s1.pageTable pid f with
      | none => none
      | some tbl' =>
        some (some (f,
          { s1 with pages := s1.pages.set f pg, replacer := rep',
                    pageTable := tbl' }))

/-- `BufferPoolManagerInstance::UnpinPgImp`. -/
def unpinPg (s : BPMState) (pid : Nat) (dirty : Bool) : Bool × BPMState :=
  match EHT.find pageHash s.pageTable pid with
  | none => (false, s)
  | some f =>
    let pg := frameAt s f
    if pg.pinCount = 0 then (false, s)
    else
      let pg' := { pg with
                   pinCount := pg.pinCount - 1,
                   isDirty := pg.isDirty || dirty }
      let rep' := if pg.pinCount - 1 = 0
                  then s.replacer.setEvictable f true else s.replacer
      (true, { s with pages := s.pages.set f pg', replacer := rep' })

/-- `BufferPoolManagerInstance::FlushPgImp`; the argument is `none` for
`INVALID_PAGE_ID`. -/
def flushPg (s : BPMState) (pid : Option Nat) : Bool × BPMState :=
  match pid with
  | none => (false, s)
  | some p =>
    match EHT.find pageHash s.pageTable p with
    | none => (false, s)
    | some f =>
      let pg := frameAt s f
      (true, { s with disk := s.disk.write p pg.data,
                      pages := s.pages.set f { pg with isDirty := false } })

/-- The loop body of `FlushAllPgsImp`, walking the frame array in index
order.  On the first frame whose page id is `INVALID_PAGE_ID` the source
`return`s, so the remaining frames are left untouched. -/
def flushAllGo : List Page → Disk → List Page × Disk
  | [], d => ([], d)
  | pg :: rest, d =>
    match pg.pageId with
    | none => (pg :: rest, d)
    | some pid =>
      let r := flushAllGo rest (d.write pid pg.data)
      ({ pg with isDirty := false } :: r.1, r.2)

/-- `BufferPoolManagerInstance::FlushAllPgsImp`. -/
def flushAllPgs (s : BPMState) : BPMState :=
  let r := flushAllGo s.pages s.disk
  { s with pages := r.1, disk := r.2 }

/-- `BufferPoolManagerInstance::DeletePgImp`; `none` models the
`BUSTUB_ASSERT` inside `LRUKReplacer::Remove` firing. -/
def deletePg (s : BPMState) (pid : Nat) : Option (Bool × BPMState) :=
  match EHT.find pageHash s.pageTable pid with
  | none => some (true, s)
  | some f =>
    let pg := frameAt s f
    if 0 < pg.pinCount then some (false, s)
    else
      let tbl' := (EHT.remove pageHash s.pageTable pid).2
      match s.replacer.remove f with
      | none => none
      | some rep' =>
        some (true, { s with pageTable := tbl', replacer := rep',
                             freeList := s.freeList ++ [f],
                             pages := s.pages.set f (resetFrame pg) })

/-- The frame-state invariant (spec: each frame is exactly one of free,
resident-pinned, resident-unpinned), strengthened with the bookkeeping that
makes it inductive: the free list holds exactly the frames with
`INVALID_PAGE_ID`; the replacer tracks exactly the resident frames; a
resident unpinned frame is evictable; the page table satisfies its own
invariant and its entries point at frames that hold exactly those pages. -/
def Inv (s : BPMState) : Prop :=
  s.pages.length = s.poolSize
  ∧ s.freeList.Nodup
  ∧ (∀ f ∈ s.freeList, f < s.poolSize ∧ (frameAt s f).pageId = none)
  ∧ (∀ f, f < s.poolSize → (frameAt s f).pageId = none → f ∈ s.freeList)
  ∧ (∀ f, f < s.poolSize → (frameAt s f).pageId.isSome = true →
      s.replacer.tracked f = true)
  ∧ (∀ e ∈ s.replacer.tempPool ++ s.replacer.cachePool,
      e.frameId < s.poolSize
        ∧ (frameAt s e.frameId).pageId.isSome = true)
  ∧ (∀ f, f < s.poolSize → (frameAt s f).pageId.isSome = true →
      (frameAt s f).pinCount = 0 → s.replacer.flagOf f = some true)
  ∧ LRUK.IdsOk s.replacer
  ∧ EHT.Inv pageHash s.pageTable
  ∧ 1 ≤ s.pageTable.bucketSize
  ∧ (∀ j, j < s.pageTable.dir.length →
      ∀ kv ∈ EHT.itemsAt s.pageTable j,
        kv.2 < s.poolSize ∧ (frameAt s kv.2).pageId = some kv.1)

instance (s : BPMState) : Decidable (Inv s) := by
  unfold Inv; infer_instance

end BPM

/-! # B+ tree pages and index
(src/storage/page/b_plus_tree_leaf_page.cpp,
 src/storage/page/b_plus_tree_internal_page.cpp,
 src/storage/index/b_plus_tree.cpp,
 src/storage/index/index_iterator.cpp)

Keys are `Nat` with the natural total order standing for the plug-in
comparator; record ids are abstracted to `Nat`.  Page ids are `Int` with
`INVALID_PAGE_ID = -1` as in the source.  A node's entry array together
with its `size_` counter is modelled as a list of length `size_`, so
`IncreaseSize (-1)` after reading the last entry becomes `dropLast`.
The buffer pool is abstracted to a page store that counts the net pins the
tree operations take on each page (`FetchPage`/`NewPage` add one,
`UnpinPage` subtracts one), which is exactly the resource the pin/unpin
contract is about. -/

namespace BPT

/-- `INVALID_PAGE_ID`. -/
def INVALID : Int := -1

/-- `HEADER_PAGE_ID`. -/
def HEADER : Int := 0

/-- `BPlusTreeLeafPage`: header fields plus the entry array. -/
structure LeafPage where
  pageId : Int
  parentPageId : Int
  nextPageIdField : Int
  maxSize : Nat
  items : List (Nat × Nat)
deriving DecidableEq

/-- `BPlusTreeInternalPage`: entries are `(key, child page id)`; the key of
slot 0 is unused padding (written as 0 here). -/
structure InternalPage where
  pageId : Int
  parentPageId : Int
  maxSize : Nat
  items : List (Nat × Int)
deriving DecidableEq

/-- A page as reinterpreted by the tree code: leaf, internal, or the
well-known header page holding `(index_name → root_page_id)` records. -/
inductive TreePage where
  | leaf (l : LeafPage)
  | internal (n : InternalPage)
  | header (records : List (String × Int))
deriving DecidableEq

/-- Modelled from the spec: `BPlusTreePage::GetMinSize` lives in
b_plus_tree_page.cpp, which is not among the provided sources; the spec
sets `min_size = ⌈max_size / 2⌉` for both leaves and internals. -/
def minSizeOf (maxSize : Nat) : Nat :=
  (maxSize + 1) / 2

/-- `BPlusTreePage::IsRootPage` via the parent pointer: the root's
`parent_page_id` is `INVALID_PAGE_ID`. -/
def TreePage.parentPageId : TreePage → Int
  | .leaf l => l.parentPageId
  | .internal n => n.parentPageId
  | .header _ => INVALID

/-- `SetParentPageId`, on either node kind. -/
def TreePage.setParent (parent : Int) : TreePage → TreePage
  | .leaf l => .leaf { l with parentPageId := parent }
  | .internal n => .internal { n with parentPageId := parent }
  | .header r => .header r

/-- `std::lower_bound` position of `key` in a sorted entry array: the first
index whose key is not less than `key`. -/
def keyIndexGo {α : Type} (k : Nat) : List (Nat × α) → Nat
  | [] => 0
  | kv :: rest => if kv.1 < k then keyIndexGo k rest + 1 else 0

/-- `B_PLUS_TREE_LEAF_PAGE_TYPE::KeyIndex`. -/
def LeafPage.keyIndex (l : LeafPage) (k : Nat) : Nat :=
  keyIndexGo k l.items

/-- The *stubbed* `B_PLUS_TREE_LEAF_PAGE_TYPE::GetNextPageId` of the
source: it ignores `next_page_id_` and returns `INVALID_PAGE_ID`. -/
def LeafPage.getNextPageId (_l : LeafPage) : Int :=
  INVALID

/-- `B_PLUS_TREE_LEAF_PAGE_TYPE::Lookup`. -/
def LeafPage.lookup (l : LeafPage) (k : Nat) : Option Nat :=
  let index := l.keyIndex k
  if index = l.items.length then none
  else if (l.items.getD index (0, 0)).1 = k then
    some (l.items.getD index (0, 0)).2
  else none

/-- `B_PLUS_TREE_LEAF_PAGE_TYPE::Insert`: sorted insert; a duplicate key
leaves the page unchanged.  Returns the page and the new `GetSize()`. -/
def LeafPage.insert (l : LeafPage) (k v : Nat) : LeafPage × Nat :=
  let index := l.keyIndex k
  if index = l.items.length then
    ({ l with items := l.items ++ [(k, v)] }, l.items.length + 1)
  else if (l.items.getD index (0, 0)).1 = k then
    (l, l.items.length)
  else
    ({ l with items := l.items.insertIdx index (k, v) }, l.items.length + 1)

/-- `B_PLUS_TREE_LEAF_PAGE_TYPE::Remove`: erase the entry at the
lower-bound position when its key matches. -/
def LeafPage.remove (l : LeafPage) (k : Nat) : LeafPage × Bool :=
  let index := l.keyIndex k
  if (l.items.getD index (0, 0)).1 = k then
    ({ l with items := l.items.eraseIdx index }, true)
  else (l, false)

/-- `B_PLUS_TREE_INTERNAL_PAGE_TYPE::Lookup`: lower-bound over
`array_[1..size)`, then step back one slot unless the key matched
exactly; past-the-end falls to the last child. -/
def InternalPage.lookup (n : InternalPage) (k : Nat) : Int :=
  let idx := keyIndexGo k (n.items.drop 1) + 1
  if idx = n.items.length then (n.items.getD (n.items.length - 1) (0, 0)).2
  else if (n.items.getD idx (0, 0)).1 = k then (n.items.getD idx (0, 0)).2
  else (n.items.getD (idx - 1) (0, 0)).2

/-- `B_PLUS_TREE_INTERNAL_PAGE_TYPE::ValueIndex`: `find_if` over the
entries; the array length when the value is absent. -/
def InternalPage.valueIndex (n : InternalPage) (v : Int) : Nat :=
  n.items.findIdx (fun kv => kv.2 == v)

/-- `B_PLUS_TREE_INTERNAL_PAGE_TYPE::InsertNodeAfter`. -/
def InternalPage.insertNodeAfter (n : InternalPage) (newPid : Int) (k : Nat)
    (oldPid : Int) : InternalPage :=
  { n with items := n.items.insertIdx (n.valueIndex oldPid + 1) (k, newPid) }

/-- `B_PLUS_TREE_INTERNAL_PAGE_TYPE::Remove`. -/
def InternalPage.removeAt (n : InternalPage) (index : Nat) : InternalPage :=
  { n with items := n.items.eraseIdx index }

/-- The page store standing for the buffer pool as the tree sees it:
pages by id, the net pin count the tree holds on each page, and the page
allocator. -/
structure PageStore where
  pages : List (Int × TreePage)
  pins : List (Int × Int)
  nextPageId : Int
deriving DecidableEq

/-- Current page contents (the bytes behind `FetchPage(...)->GetData()`). -/
def getPage (st : PageStore) (pid : Int) : Option TreePage :=
  (st.pages.find? (fun p => p.1 == pid)).map Prod.snd

/-- Write page contents back (mutation through the fetched pointer). -/
def writePage (st : PageStore) (pid : Int) (pg : TreePage) : PageStore :=
  { st with pages := (pid, pg) :: st.pages.filter (fun p => !(p.1 == pid)) }

/-- Net pin count the tree operations hold on a page. -/
def netPin (st : PageStore) (pid : Int) : Int :=
  ((st.pins.find? (fun p => p.1 == pid)).map Prod.snd).getD 0

/-- Adjust the net pin count of a page. -/
def bumpPin (st : PageStore) (pid : Int) (delta : Int) : PageStore :=
  { st with pins := (pid, netPin st pid + delta)
      :: st.pins.filter (fun p => !(p.1 == pid)) }

/-- `BufferPoolManager::FetchPage` as the tree uses it: returns the page
and takes one pin. -/
def fetchPage (st : PageStore) (pid : Int) : Option (TreePage × PageStore) :=
  (getPage st pid).map (fun pg => (pg, bumpPin st pid 1))

/-- `BufferPoolManager::UnpinPage`: releases one pin; the dirty hint does
not matter to the store model. -/
def unpinPage (st : PageStore) (pid : Int) (_dirty : Bool) : PageStore :=
  bumpPin st pid (-1)

/-- `BufferPoolManager::NewPage`: allocates a fresh id pinned once; the
caller initializes the frame and writes it with `writePage`. -/
def newPage (st : PageStore) : Int × PageStore :=
  (st.nextPageId,
   bumpPin { st with nextPageId := st.nextPageId + 1 } st.nextPageId 1)

/-- `BPlusTree` bookkeeping state. -/
structure BTree where
  indexName : String
  rootPageId : Int
  leafMaxSize : Nat
  internalMaxSize : Nat
deriving DecidableEq

/-- Modelled from the spec: `HeaderPage::InsertRecord` /
`HeaderPage::UpdateRecord` live in header_page.cpp, which is not among the
provided sources; the header page holds `(index_name → root_page_id)`
records with insert appending a record and update overwriting the record
with the given name. -/
def headerSet (records : List (String × Int)) (insertRecord : Bool)
    (name : String) (rootId : Int) : List (String × Int) :=
  if insertRecord then records ++ [(name, rootId)]
  else records.map (fun r => if r.1 == name then (r.1, rootId) else r)

/-- `BPLUSTREE_TYPE::UpdateRootPageId`: fetch the header page, insert or
update the `(index_name, root_page_id)` record, unpin dirty. -/
def updateRootPageId (tree : BTree) (st : PageStore) (insertRecord : Bool) :
    Option PageStore :=
  match fetchPage st HEADER with
  | some (.header records, st1) =>
    let st2 := writePage st1 HEADER
      (.header (headerSet records insertRecord tree.indexName tree.rootPageId))
    some (unpinPage st2 HEADER true)
  | _ => none

/-- `BPLUSTREE_TYPE::FindLeaf`: fetch the root, then descend through
internal nodes by `Lookup`, fetching every page on the path; *no page on
the path is unpinned here*.  Returns the leaf's page id. -/
def findLeafGo (fuel : Nat) (st : PageStore) (pid : Int) (k : Nat) :
    Option (Int × PageStore) :=
  match fuel with
  | 0 => none
  | fuel + 1 =>
    match fetchPage st pid with
    | some (.leaf _, st1) => some (pid, st1)
    | some (.internal n, st1) => findLeafGo fuel st1 (n.lookup k) k
    | _ => none

/-- `FindLeaf` from the root. -/
def findLeaf (fuel : Nat) (tree : BTree) (st : PageStore) (k : Nat) :
    Option (Int × PageStore) :=
  findLeafGo fuel st tree.rootPageId k

/-- `BPLUSTREE_TYPE::GetValue`: descend, look the key up in the leaf, unpin
the leaf (only the leaf), return the hit. -/
def getValue (fuel : Nat) (tree : BTree) (st : PageStore) (k : Nat) :
    Option (Option Nat × PageStore) :=
  match findLeaf fuel tree st k with
  | none => none
  | some (leafId, st1) =>
    match getPage st1 leafId with
    | some (.leaf l) => some (l.lookup k, unpinPage st1 leafId false)
    | _ => none

/-- Leaf half of `BPLUSTREE_TYPE::Split`: make a new leaf of the same
parent and move the upper `size − min_size` entries to it
(`MoveHalfTo`). -/
def splitLeaf (tree : BTree) (st : PageStore) (l : LeafPage) :
    Int × LeafPage × LeafPage × PageStore :=
  let a := newPage st
  let newId := a.1
  let minSize := minSizeOf tree.leafMaxSize
  let newLeaf : LeafPage :=
    { pageId := newId, parentPageId := l.parentPageId,
      nextPageIdField := INVALID, maxSize := tree.leafMaxSize,
      items := l.items.drop minSize }
  (newId, { l with items := l.items.take minSize }, newLeaf, a.2)

/-- `B_PLUS_TREE_INTERNAL_PAGE_TYPE::CopyData`'s re-parenting walk: point
every copied child's `parent_page_id` at the destination node (each child
is fetched and unpinned, a net-zero pin change). -/
def reparentAll (st : PageStore) (children : List (Nat × Int))
    (parent : Int) : PageStore :=
  children.foldl (fun acc kv =>
    match getPage acc kv.2 with
    | some pg => writePage acc kv.2 (pg.setParent parent)
    | none => acc) st

/-- Internal half of `BPLUSTREE_TYPE::Split`: new internal node of the same
parent; `MoveHalfTo` moves the upper entries and re-parents their
children. -/
def splitInternal (tree : BTree) (st : PageStore) (n : InternalPage) :
    Int × InternalPage × InternalPage × PageStore :=
  let a := newPage st
  let newId := a.1
  let minSize := minSizeOf tree.internalMaxSize
  let moved := n.items.drop minSize
  let newNode : InternalPage :=
    { pageId := newId, parentPageId := n.parentPageId,
      maxSize := tree.internalMaxSize, items := moved }
  (newId, { n with items := n.items.take minSize }, newNode,
   reparentAll a.2 moved newId)

/-- `BPLUSTREE_TYPE::InsertToParent`. -/
def insertToParent (fuel : Nat) (tree : BTree) (st : PageStore)
    (oldId splitId : Int) (splitKey : Nat) : Option (BTree × PageStore) :=
  match fuel with
  | 0 => none
  | fuel + 1 =>
    match getPage st oldId with
    | none => none
    | some oldPg =>
      if oldPg.parentPageId = INVALID then
        -- root split: new internal root [(·, old), (split_key, split)]
        let a := newPage st
        let rootId := a.1
        let root : InternalPage :=
          { pageId := rootId, parentPageId := INVALID,
            maxSize := tree.internalMaxSize,
            items := [(0, oldId), (splitKey, splitId)] }
        let st1 := writePage a.2 rootId (.internal root)
        let st2 :=
          match getPage st1 oldId with
          | some pg => writePage st1 oldId (pg.setParent rootId)
          | none => st1
        let st3 :=
          match getPage st2 splitId with
          | some pg => writePage st2 splitId (pg.setParent rootId)
          | none => st2
        let tree' := { tree with rootPageId := rootId }
        match updateRootPageId tree' st3 false with
        | none => none
        | some st4 => some (tree', unpinPage st4 rootId true)
      else
        match fetchPage st oldPg.parentPageId with
        | some (.internal parent, st1) =>
          let parentId := oldPg.parentPageId
          if parent.items.length < tree.internalMaxSize then
            let parent' := parent.insertNodeAfter splitId splitKey oldId
            let st2 := writePage st1 parentId (.internal parent')
            some (tree, unpinPage st2 parentId true)
          else
            let parent' := parent.insertNodeAfter splitId splitKey oldId
            let sp := splitInternal tree st1 parent'
            let newParentId := sp.1
            let st2 := writePage sp.2.2.2 parentId (.internal sp.2.1)
            let st3 := writePage st2 newParentId (.internal sp.2.2.1)
            match insertToParent fuel tree st3 parentId newParentId
                ((sp.2.2.1.items.getD 0 (0, 0)).1) with
            | none => none
            | some (tree', st4) =>
              let st5 := unpinPage st4 parentId true
              some (tree', unpinPage st5 newParentId true)
        | _ => none

/-- `BPLUSTREE_TYPE::Insert`.  Returns the `bool` result of the source —
including the `return false` at the end of the split path. -/
def insert (fuel : Nat) (tree : BTree) (st : PageStore) (k v : Nat) :
    Option (Bool × BTree × PageStore) :=
  if tree.rootPageId = INVALID then
    let a := newPage st
    let rootId := a.1
    let tree' := { tree with rootPageId := rootId }
    let leaf : LeafPage :=
      { pageId := rootId, parentPageId := INVALID,
        nextPageIdField := INVALID, maxSize := tree.leafMaxSize, items := [] }
    let leaf' := (leaf.insert k v).1
    let st1 := writePage a.2 rootId (.leaf leaf')
    let st2 := unpinPage st1 rootId true
    match updateRootPageId tree' st2 true with
    | none => none
    | some st3 => some (true, tree', st3)
  else
    match findLeaf fuel tree st k with
    | none => none
    | some (leafId, st1) =>
      match getPage st1 leafId with
      | some (.leaf l) =>
        let oldSize := l.items.length
        let r := l.insert k v
        let st2 := writePage st1 leafId (.leaf r.1)
        if r.2 = oldSize then
          some (false, tree, unpinPage st2 leafId false)
        else if r.2 ≤ tree.leafMaxSize then
          some (true, tree, unpinPage st2 leafId true)
        else
          let sp := splitLeaf tree st2 r.1
          let newLeafId := sp.1
          let oldLeaf := sp.2.1
          let newLeaf := { sp.2.2.1 with
                           nextPageIdField := oldLeaf.getNextPageId }
          let oldLeaf' := { oldLeaf with nextPageIdField := newLeafId }
          let st3 := writePage sp.2.2.2 leafId (.leaf oldLeaf')
          let st4 := writePage st3 newLeafId (.leaf newLeaf)
          match insertToParent fuel tree st4 leafId newLeafId
              ((newLeaf.items.getD 0 (0, 0)).1) with
          | none => none
          | some (tree', st5) =>
            let st6 := unpinPage st5 leafId true
            some (false, tree', unpinPage st6 newLeafId true)
      | _ => none

/-- Node size (`GetSize`) as the generic `BPlusTreePage` sees it. -/
def TreePage.size : TreePage → Nat
  | .leaf l => l.items.length
  | .internal n => n.items.length
  | .header r => r.length

/-- Node `GetMinSize` from the node's own `max_size_`. -/
def TreePage.minSize : TreePage → Nat
  | .leaf l => minSizeOf l.maxSize
  | .internal n => minSizeOf n.maxSize
  | .header _ => 0

/-- `BPLUSTREE_TYPE::RedistributeLeft`: move the left sibling's last entry
to the front of the node and rewrite the parent separator at `index`.  For
internal nodes the source passes `ValueAt(index)` (the parent-slot index,
as written) to `InsertToStart`, which re-parents that child. -/
def redistributeLeft (st : PageStore) (sibId nodeId parentId : Int)
    (index : Nat) : PageStore :=
  match getPage st sibId, getPage st nodeId, getPage st parentId with
  | some (.leaf sib), some (.leaf node), some (.internal parent) =>
    let li := sib.items.length - 1
    let key := (sib.items.getD li (0, 0)).1
    let node' := (node.insert key (sib.items.getD li (0, 0)).2).1
    let sib' := { sib with items := sib.items.dropLast }
    let parent' := { parent with
      items := parent.items.set index (key, (parent.items.getD index (0, 0)).2) }
    writePage (writePage (writePage st sibId (.leaf sib'))
      nodeId (.leaf node')) parentId (.internal parent')
  | some (.internal sib), some (.internal node), some (.internal parent) =>
    let li := sib.items.length - 1
    let key := (sib.items.getD li (0, 0)).1
    let v := (sib.items.getD index (0, 0)).2
    let node' := { node with items := (key, v) :: node.items }
    let sib' := { sib with items := sib.items.dropLast }
    let parent' := { parent with
      items := parent.items.set index (key, (parent.items.getD index (0, 0)).2) }
    let st1 :=
      match getPage st v with
      | some pg => writePage st v (pg.setParent nodeId)
      | none => st
    writePage (writePage (writePage st1 sibId (.internal sib'))
      nodeId (.internal node')) parentId (.internal parent')
  | _, _, _ => st

/-- `BPLUSTREE_TYPE::RedistributeRight`: take the right sibling's first
entry; the source then runs `IncreaseSize(-1)` on the sibling without
shifting, which in the array-plus-size layout discards the *last* entry —
modelled as `dropLast`, faithfully. -/
def redistributeRight (st : PageStore) (sibId nodeId parentId : Int)
    (index : Nat) : PageStore :=
  match getPage st sibId, getPage st nodeId, getPage st parentId with
  | some (.leaf sib), some (.leaf node), some (.internal parent) =>
    let key := (sib.items.getD 0 (0, 0)).1
    let node' := (node.insert key (sib.items.getD 0 (0, 0)).2).1
    let sib' := { sib with items := sib.items.dropLast }
    let parent' := { parent with
      items := parent.items.set (index + 1)
        (key, (parent.items.getD (index + 1) (0, 0)).2) }
    writePage (writePage (writePage st sibId (.leaf sib'))
      nodeId (.leaf node')) parentId (.internal parent')
  | some (.internal sib), some (.internal node), some (.internal parent) =>
    let key := (sib.items.getD 1 (0, 0)).1
    let v := (sib.items.getD 1 (0, 0)).2
    let node' := { node with items := node.items ++ [(key, v)] }
    let sib' := { sib with items := sib.items.dropLast }
    let parent' := { parent with
      items := parent.items.set (index + 1)
        (key, (parent.items.getD (index + 1) (0, 0)).2) }
    let st1 :=
      match getPage st v with
      | some pg => writePage st v (pg.setParent nodeId)
      | none => st
    writePage (writePage (writePage st1 sibId (.internal sib'))
      nodeId (.internal node')) parentId (.internal parent')
  | _, _, _ => st

/-- The item movement of `BPLUSTREE_TYPE::Merge` (leaf case:
`MoveAllTo` appends the source's entries to the destination and copies the
*stubbed* `GetNextPageId`, i.e. `INVALID`; internal case: `CopyData` writes
at offset 0, overwriting the destination's prefix — slots beyond the
tracked entries are stale array bytes and are not representable here, but
no proved statement reaches an internal merge). -/
def mergeMove (st : PageStore) (dstId srcId : Int) : PageStore :=
  match getPage st dstId, getPage st srcId with
  | some (.leaf dst), some (.leaf src) =>
    let dst' := { dst with items := dst.items ++ src.items,
                           nextPageIdField := src.getNextPageId }
    let src' := { src with items := [] }
    writePage (writePage st dstId (.leaf dst')) srcId (.leaf src')
  | some (.internal dst), some (.internal src) =>
    let dst' := { dst with
      items := src.items ++ dst.items.drop src.items.length }
    let st1 := reparentAll st src.items dstId
    let src' := { src with items := [] }
    writePage (writePage st1 dstId (.internal dst')) srcId (.internal src')
  | _, _ => st

/-- The non-recursive prefix of `BPLUSTREE_TYPE::Merge`: move all of `src`
into `dst` and delete the separator at `index` from the parent.  The second
component signals that the parent underflowed and needs the recursive
`RedistributeOrMerge(parent)` call. -/
def mergeDown (st : PageStore) (dstId srcId parentId : Int) (index : Nat) :
    Option (PageStore × Option Int) :=
  let st1 := mergeMove st dstId srcId
  match getPage st1 parentId with
  | some (.internal parent) =>
    let parent' := parent.removeAt index
    let st2 := writePage st1 parentId (.internal parent')
    if parent'.items.length < minSizeOf parent'.maxSize then
      some (st2, some parentId)
    else some (st2, none)
  | _ => none

/-- `BPLUSTREE_TYPE::RedistributeOrMerge`, with the parent-underflow
recursion of `BPLUSTREE_TYPE::Merge` folded in (fuelled).  A root node
returns immediately — the source never collapses the root. -/
def redistributeOrMerge : Nat → BTree → PageStore → Int → Option PageStore
  | 0, _, _, _ => none
  | fuel + 1, tree, st, nodeId =>
    match getPage st nodeId with
    | none => none
    | some node =>
      if node.parentPageId = INVALID then some st
      else
        match fetchPage st node.parentPageId with
        | some (.internal parent, st1) =>
          let parentId := node.parentPageId
          let index := parent.valueIndex nodeId
          let leftSibId := (parent.items.getD (index - 1) (0, 0)).2
          let rightSibId := (parent.items.getD (index + 1) (0, 0)).2
          let tryLeft : Option (Option PageStore × PageStore) :=
            if 0 < index then
              match fetchPage st1 leftSibId with
              | some (sib, st2) =>
                if sib.minSize < sib.size then
                  some (some (unpinPage (unpinPage
                    (redistributeLeft st2 leftSibId nodeId parentId index)
                    leftSibId true) parentId true), st2)
                else some (none, st2)
              | none => none
            else some (none, st1)
          match tryLeft with
          | none => none
          | some (some stDone, _) => some stDone
          | some (none, stA) =>
            let st1' := if 0 < index then unpinPage stA leftSibId false else stA
            let tryRight : Option (Option PageStore × PageStore) :=
              if index < parent.items.length - 1 then
                match fetchPage st1' rightSibId with
                | some (sib, st2) =>
                  if sib.minSize < sib.size then
                    some (some (unpinPage (unpinPage
                      (redistributeRight st2 rightSibId nodeId parentId index)
                      rightSibId true) parentId true), st2)
                  else some (none, st2)
                | none => none
              else some (none, st1')
            match tryRight with
            | none => none
            | some (some stDone, _) => some stDone
            | some (none, stB) =>
              let st2' := if index < parent.items.length - 1
                          then unpinPage stB rightSibId false else stB
              if 0 < index then
                match fetchPage st2' leftSibId with
                | some (_, st3) =>
                  match mergeDown st3 leftSibId nodeId parentId index with
                  | none => none
                  | some (st4, none) =>
                    some (unpinPage (unpinPage st4 leftSibId true) parentId true)
                  | some (st4, some pid) =>
                    match redistributeOrMerge fuel tree st4 pid with
                    | none => none
                    | some st5 =>
                      some (unpinPage (unpinPage st5 leftSibId true) parentId true)
                | none => none
              else if index < parent.items.length - 1 then
                match fetchPage st2' rightSibId with
                | some (_, st3) =>
                  match mergeDown st3 nodeId rightSibId parentId (index + 1) with
                  | none => none
                  | some (st4, none) =>
                    some (unpinPage (unpinPage st4 rightSibId true) parentId true)
                  | some (st4, some pid) =>
                    match redistributeOrMerge fuel tree st4 pid with
                    | none => none
                    | some st5 =>
                      some (unpinPage (unpinPage st5 rightSibId true) parentId true)
                | none => none
              else some st2'
        | _ => none

/-- `BPLUSTREE_TYPE::Remove`.  When the key is missing, or the leaf does
not underflow, the source returns without unpinning the leaf (or the
internal pages `FindLeaf` pinned). -/
def removeOp (fuel : Nat) (tree : BTree) (st : PageStore) (k : Nat) :
    Option (BTree × PageStore) :=
  if tree.rootPageId = INVALID then some (tree, st)
  else
    match findLeaf fuel tree st k with
    | none => none
    | some (leafId, st1) =>
      match getPage st1 leafId with
      | some (.leaf l) =>
        let r := l.remove k
        let st2 := writePage st1 leafId (.leaf r.1)
        if r.2 = false then some (tree, st2)
        else if minSizeOf l.maxSize ≤ r.1.items.length then some (tree, st2)
        else
          match redistributeOrMerge fuel tree st2 leafId with
          | none => none
          | some st3 => some (tree, unpinPage st3 leafId true)
      | _ => none

/-- Index iterator state: the current leaf page (held pinned) and the
index within it. -/
structure Iter where
  leafId : Int
  index : Nat
deriving DecidableEq

/-- Descent of `BPLUSTREE_TYPE::Begin()`: fetch the root, then always the
child at slot 0; nothing on the path is unpinned. -/
def beginGo (fuel : Nat) (st : PageStore) (pid : Int) :
    Option (Int × PageStore) :=
  match fuel with
  | 0 => none
  | fuel + 1 =>
    match fetchPage st pid with
    | some (.leaf _, st1) => some (pid, st1)
    | some (.internal n, st1) => beginGo fuel st1 ((n.items.getD 0 (0, 0)).2)
    | _ => none

/-- `BPLUSTREE_TYPE::Begin()`. -/
def beginIter (fuel : Nat) (tree : BTree) (st : PageStore) :
    Option (Iter × PageStore) :=
  (beginGo fuel st tree.rootPageId).map (fun p => (⟨p.1, 0⟩, p.2))

/-- `INDEXITERATOR_TYPE::operator++`: hop to the next leaf only when at the
last slot *and* `GetNextPageId()` (the stub) is not `INVALID`; otherwise
advance the index. -/
def iterNext (st : PageStore) (it : Iter) : Option (Iter × PageStore) :=
  match getPage st it.leafId with
  | some (.leaf l) =>
    if it.index = l.items.length - 1 ∧ l.getNextPageId ≠ INVALID then
      let st1 := unpinPage st it.leafId false
      match fetchPage st1 l.getNextPageId with
      | some (_, st2) => some (⟨l.getNextPageId, 0⟩, st2)
      | none => none
    else some ({ it with index := it.index + 1 }, st)
  | _ => none

/-- `INDEXITERATOR_TYPE::IsEnd`. -/
def iterIsEnd (st : PageStore) (it : Iter) : Bool :=
  match getPage st it.leafId with
  | some (.leaf l) =>
    l.getNextPageId == INVALID && it.index == l.items.length - 1
  | _ => true

/-- `INDEXITERATOR_TYPE::operator*`. -/
def iterValue (st : PageStore) (it : Iter) : Nat × Nat :=
  match getPage st it.leafId with
  | some (.leaf l) => l.items.getD it.index (0, 0)
  | _ => (0, 0)

/-- A fresh page store: only the well-known header page exists. -/
def initStore : PageStore :=
  { pages := [(HEADER, .header [])], pins := [], nextPageId := 1 }

/-- `BPlusTree` constructor: `root_page_id_ = INVALID_PAGE_ID`. -/
def mkTree (name : String) (leafMax internalMax : Nat) : BTree :=
  { indexName := name, rootPageId := INVALID,
    leafMaxSize := leafMax, internalMaxSize := internalMax }

/-- Insert a list of key/value pairs in order. -/
def insertAll (fuel : Nat) : List (Nat × Nat) → BTree × PageStore →
    Option (BTree × PageStore)
  | [], p => some p
  | (k, v) :: rest, p =>
    match insert fuel p.1 p.2 k v with
    | none => none
    | some (_, tree', st') => insertAll fuel rest (tree', st')

/-- Advance the iterator `n` times. -/
def iterSteps : Nat → PageStore → Iter → Option (Iter × PageStore)
  | 0, st, it => some (it, st)
  | n + 1, st, it =>
    match iterNext st it with
    | none => none
    | some (it', st') => iterSteps n st' it'

end BPT

/-! ## Concrete scenario states used by the theorems below -/

namespace EHT

/-- Identity hash over `Nat` keys (three keys with distinct hashes). -/
def natHash : Nat → Nat := fun n => n

/-- The spec's directory-doubling scenario: `bucket_size = 2`,
`global_depth = 0`, then insert keys `0, 1, 2` (distinct hashes). -/
def egT3 : Table Nat Nat :=
  ((insertInternal natHash 10 (Table.init 2) 0 100).bind (fun t =>
    (insertInternal natHash 10 t 1 101).bind (fun t =>
      insertInternal natHash 10 t 2 102))).getD (Table.init 2)

end EHT

namespace BPT

/-- The spec's B+ tree scenario: `leaf_max_size = 3`. -/
def egTree : BTree := mkTree "idx" 3 3

/-- State after inserting `10, 20, 30`. -/
def egS3 : BTree × PageStore :=
  (insertAll 20 [(10, 10), (20, 20), (30, 30)] (egTree, initStore)).getD
    (egTree, initStore)

/-- State after also inserting `40` (the split). -/
def egS4 : BTree × PageStore :=
  ((insert 20 egS3.1 egS3.2 40 40).map (fun r => r.2)).getD egS3

/-- Dump the keys of a leaf page. -/
def leafKeys (st : PageStore) (pid : Int) : List Nat :=
  match getPage st pid with
  | some (.leaf l) => l.items.map Prod.fst
  | _ => []

end BPT

namespace BPM

/-- A two-frame pool in which frame 0 is free and frame 1 holds dirty
page 5 — the arrangement `FlushAllPgsImp`'s early `return` mishandles. -/
def egFlushState : BPMState :=
  { poolSize := 2,
    pages := [default,
      { pageId := some 5, pinCount := 0, isDirty := true, data := 171 }],
    pageTable := (EHT.insertInternal pageHash 5 (EHT.Table.init 4) 5 1).getD
      (EHT.Table.init 4),
    replacer := LRUK.Replacer.init 2 2,
    freeList := [0], nextPageId := 6, disk := ⟨[]⟩ }

end BPM

/-! # Theorems -/

namespace LRUK

theorem lookupId_cons_self {fid : Nat} {f : FrameInfo} (l : List FrameInfo)
    (h : f.frameId = fid) : lookupId fid (f :: l) = some f :=
  List.find?_cons_of_pos _ (by simp [h])

theorem lookupId_cons_ne {fid : Nat} {f : FrameInfo} (l : List FrameInfo)
    (h : ¬f.frameId = fid) : lookupId fid (f :: l) = lookupId fid l :=
  List.find?_cons_of_neg _ (by simp [h])

theorem lookupId_append (fid : Nat) (l m : List FrameInfo) :
    lookupId fid (l ++ m) =
      match lookupId fid l with
      | some e => some e
      | none => lookupId fid m := by
  induction l with
  | nil => simp [lookupId]
  | cons f rest ih =>
    by_cases h : f.frameId = fid
    · rw [List.cons_append, lookupId_cons_self _ h, lookupId_cons_self _ h]
    · rw [List.cons_append, lookupId_cons_ne _ h, lookupId_cons_ne _ h, ih]

theorem lookupId_eq_none_of_inPool_false {fid : Nat} {l : List FrameInfo}
    (h : inPool fid l = false) : lookupId fid l = none := by
  induction l with
  | nil => rfl
  | cons f rest ih =>
    simp only [inPool, List.any_cons, Bool.or_eq_false_iff] at h
    rw [lookupId_cons_ne _ (by simpa using h.1)]
    exact ih (by simpa [inPool] using h.2)

theorem inPool_false_of_lookupId_none {fid : Nat} {l : List FrameInfo}
    (h : lookupId fid l = none) : inPool fid l = false := by
  induction l with
  | nil => rfl
  | cons f rest ih =>
    by_cases hf : f.frameId = fid
    · rw [lookupId_cons_self _ hf] at h; exact absurd h (by simp)
    · rw [lookupId_cons_ne _ hf] at h
      simpa [inPool, hf] using (by simpa [inPool] using ih h)

theorem lookupId_mem {fid : Nat} {l : List FrameInfo} {e : FrameInfo}
    (h : lookupId fid l = some e) : e ∈ l ∧ e.frameId = fid := by
  have h1 := List.find?_some h
  have h2 := List.mem_of_find?_eq_some h
  exact ⟨h2, by simpa using h1⟩

theorem mem_eraseId {e : FrameInfo} {fid : Nat} {l : List FrameInfo} :
    e ∈ eraseId fid l → e ∈ l := by
  induction l with
  | nil => simp [eraseId]
  | cons f rest ih =>
    intro hm
    by_cases h : f.frameId = fid
    · rw [eraseId, if_pos (by simpa using h)] at hm
      exact List.mem_cons_of_mem _ hm
    · rw [eraseId, if_neg (by simpa using h)] at hm
      rcases List.mem_cons.mp hm with hm | hm
      · exact hm ▸ List.mem_cons_self _ _
      · exact List.mem_cons_of_mem _ (ih hm)

theorem mem_updateId {e : FrameInfo} {fid : Nat} {g : FrameInfo → FrameInfo}
    {l : List FrameInfo} :
    e ∈ updateId fid g l → e ∈ l ∨ ∃ e' ∈ l, e = g e' := by
  induction l with
  | nil => simp [updateId]
  | cons f rest ih =>
    intro hm
    by_cases h : f.frameId = fid
    · rw [updateId, if_pos (by simpa using h)] at hm
      rcases List.mem_cons.mp hm with hm | hm
      · exact Or.inr ⟨f, List.mem_cons_self _ _, hm⟩
      · exact Or.inl (List.mem_cons_of_mem _ hm)
    · rw [updateId, if_neg (by simpa using h)] at hm
      rcases List.mem_cons.mp hm with hm | hm
      · exact Or.inl (by simp [hm])
      · rcases ih hm with h2 | ⟨e', he', h3⟩
        · exact Or.inl (List.mem_cons_of_mem _ h2)
        · exact Or.inr ⟨e', List.mem_cons_of_mem _ he', h3⟩

theorem lookupId_eraseId_ne {g fid : Nat} (hne : ¬g = fid)
    (l : List FrameInfo) : lookupId g (eraseId fid l) = lookupId g l := by
  induction l with
  | nil => rfl
  | cons f rest ih =>
    by_cases h : f.frameId = fid
    · have hfg : ¬f.frameId = g := fun hc => hne (hc.symm.trans h)
      rw [eraseId, if_pos (by simpa using h), lookupId_cons_ne _ hfg]
    · by_cases hg : f.frameId = g
      · rw [eraseId, if_neg (by simpa using h), lookupId_cons_self _ hg,
          lookupId_cons_self _ hg]
      · rw [eraseId, if_neg (by simpa using h), lookupId_cons_ne _ hg,
          lookupId_cons_ne _ hg, ih]

theorem ids_eraseId_sublist (fid : Nat) (l : List FrameInfo) :
    ((eraseId fid l).map FrameInfo.frameId).Sublist
      (l.map FrameInfo.frameId) := by
  induction l with
  | nil => simp [eraseId]
  | cons f rest ih =>
    by_cases h : f.frameId = fid
    · rw [eraseId, if_pos (by simpa using h)]
      simpa using List.sublist_cons_self f.frameId
        (rest.map FrameInfo.frameId)
    · rw [eraseId, if_neg (by simpa using h)]
      simpa using ih.cons₂ f.frameId

theorem ids_updateId {fid : Nat} {g : FrameInfo → FrameInfo}
    (hg : ∀ e, (g e).frameId = e.frameId) (l : List FrameInfo) :
    (updateId fid g l).map FrameInfo.frameId = l.map FrameInfo.frameId := by
  induction l with
  | nil => rfl
  | cons f rest ih =>
    by_cases h : f.frameId = fid
    · rw [updateId, if_pos (by simpa using h)]
      simp [hg]
    · rw [updateId, if_neg (by simpa using h)]
      simpa using ih

theorem lookupId_updateId_self {fid : Nat} {g : FrameInfo → FrameInfo}
    (hg : ∀ e, (g e).frameId = e.frameId) (l : List FrameInfo) :
    lookupId fid (updateId fid g l) = (lookupId fid l).map g := by
  induction l with
  | nil => rfl
  | cons f rest ih =>
    by_cases h : f.frameId = fid
    · rw [updateId, if_pos (by simpa using h), lookupId_cons_self _ h,
        lookupId_cons_self _ (by rw [hg]; exact h)]
      rfl
    · rw [updateId, if_neg (by simpa using h), lookupId_cons_ne _ h,
        lookupId_cons_ne _ h, ih]

theorem lookupId_updateId_ne {g fid : Nat} {u : FrameInfo → FrameInfo}
    (hg : ∀ e, (u e).frameId = e.frameId) (hne : ¬g = fid)
    (l : List FrameInfo) :
    lookupId g (updateId fid u l) = lookupId g l := by
  induction l with
  | nil => rfl
  | cons f rest ih =>
    by_cases h : f.frameId = fid
    · have hgne : ¬(u f).frameId = g := by
        rw [hg]
        intro hc
        exact hne (by rw [← hc, h])
      have hfne : ¬f.frameId = g := fun hc => hne (by rw [← hc, h])
      rw [updateId, if_pos (by simpa using h), lookupId_cons_ne _ hgne,
        lookupId_cons_ne _ hfne]
    · by_cases hgf : f.frameId = g
      · rw [updateId, if_neg (by simpa using h), lookupId_cons_self _ hgf,
          lookupId_cons_self _ hgf]
      · rw [updateId, if_neg (by simpa using h), lookupId_cons_ne _ hgf,
          lookupId_cons_ne _ hgf, ih]

/-- `updateId` rewrites exactly the record `lookupId` finds. -/
theorem mem_updateId_of_lookup {fid : Nat} {g : FrameInfo → FrameInfo}
    {l : List FrameInfo} {e e' : FrameInfo} (hl : lookupId fid l = some e)
    (hm : e' ∈ updateId fid g l) : e' ∈ l ∨ e' = g e := by
  induction l with
  | nil => simp [updateId] at hm
  | cons f rest ih =>
    by_cases h : f.frameId = fid
    · rw [lookupId_cons_self _ h] at hl
      obtain rfl : f = e := by injection hl
      rw [updateId, if_pos (by simpa using h)] at hm
      rcases List.mem_cons.mp hm with hm | hm
      · exact Or.inr hm
      · exact Or.inl (List.mem_cons_of_mem _ hm)
    · rw [lookupId_cons_ne _ h] at hl
      rw [updateId, if_neg (by simpa using h)] at hm
      rcases List.mem_cons.mp hm with hm | hm
      · exact Or.inl (by simp [hm])
      · rcases ih hl hm with h2 | h2
        · exact Or.inl (List.mem_cons_of_mem _ h2)
        · exact Or.inr h2

theorem evictFrom_fst (l : List FrameInfo) :
    (evictFrom l).map Prod.fst = firstEvictable l := by
  induction l with
  | nil => rfl
  | cons f rest ih =>
    cases hev : f.evictable
    · rw [evictFrom, if_neg (by simp [hev]), firstEvictable,
        List.find?_cons_of_neg _ (by simp [hev]), Option.map_map]
      rw [show (Prod.fst ∘ fun p : Nat × List FrameInfo => (p.1, f :: p.2))
          = Prod.fst from rfl]
      exact ih
    · rw [evictFrom, if_pos hev, firstEvictable,
        List.find?_cons_of_pos _ hev]
      rfl

theorem evict_fst (s : Replacer) :
    (s.evict).1 = (firstEvictable s.tempPool).orElse
      (fun _ => firstEvictable s.cachePool) := by
  unfold Replacer.evict
  rcases ht : evictFrom s.tempPool with _ | ⟨f, l⟩ <;>
    rcases hc : evictFrom s.cachePool with _ | ⟨g, m⟩ <;>
      · have h1 := evictFrom_fst s.tempPool
        have h2 := evictFrom_fst s.cachePool
        rw [ht] at h1
        rw [hc] at h2
        simp [← h1, ← h2, Option.orElse]

/-- `ClassOk` is preserved by `recordAccess` whenever `k ≥ 2`. -/
theorem classOk_recordAccess (s : Replacer) (fid : Nat) (h2 : 2 ≤ s.k)
    (h : ClassOk s.k s) : ClassOk s.k (s.recordAccess fid) := by
  obtain ⟨htemp, hcache⟩ := h
  unfold Replacer.recordAccess
  by_cases hc : inPool fid s.cachePool = true
  · rcases hl : lookupId fid s.cachePool with _ | e
    · simpa [hc, hl] using ⟨htemp, hcache⟩
    · refine ⟨fun e' he' => htemp e' (by simpa [hc, hl] using he'), ?_⟩
      intro e' he'
      simp only [hc, if_true, hl] at he'
      rcases List.mem_append.mp he' with he' | he'
      · exact hcache e' (mem_eraseId he')
      · rw [List.mem_singleton.mp he']
        exact hcache e (lookupId_mem hl).1
  · by_cases htp : inPool fid s.tempPool = true
    · rcases hl : lookupId fid s.tempPool with _ | e
      · simpa [hc, htp, hl] using ⟨htemp, hcache⟩
      · by_cases hk : s.k ≤ e.times + 1
        · refine ⟨fun e' he' => ?_, fun e' he' => ?_⟩
          · simp only [hc, Bool.false_eq_true, if_false, htp, if_true, hl,
              hk, if_true] at he'
            exact htemp e' (mem_eraseId he')
          · simp only [hc, Bool.false_eq_true, if_false, htp, if_true, hl,
              hk, if_true] at he'
            rcases List.mem_append.mp he' with he' | he'
            · exact hcache e' he'
            · rw [List.mem_singleton.mp he']
              exact hk
        · refine ⟨fun e' he' => ?_, fun e' he' => ?_⟩
          · simp only [hc, Bool.false_eq_true, if_false, htp, if_true, hl,
              hk, if_false] at he'
            rcases mem_updateId_of_lookup hl he' with hm | rfl
            · exact htemp e' hm
            · have := htemp e (lookupId_mem hl).1
              simp only at *
              omega
          · simp only [hc, Bool.false_eq_true, if_false, htp, if_true, hl,
              hk, if_false] at he'
            exact hcache e' he'
    · refine ⟨fun e' he' => ?_, fun e' he' => ?_⟩
      · simp only [hc, Bool.false_eq_true, if_false, htp, if_false] at he'
        rcases List.mem_append.mp he' with he' | he'
        · exact htemp e' he'
        · rw [List.mem_singleton.mp he']
          constructor <;> · simp only [FrameInfo.init]; omega
      · simp only [hc, Bool.false_eq_true, if_false, htp, if_false] at he'
        exact hcache e' he'

theorem evictFrom_subset {l : List FrameInfo} :
    ∀ {l' : List FrameInfo} {f : Nat}, evictFrom l = some (f, l') →
      ∀ e ∈ l', e ∈ l := by
  induction l with
  | nil => intro l' f h; exact absurd h (by simp [evictFrom])
  | cons g rest ih =>
    intro l' f h e he
    rw [evictFrom] at h
    by_cases hev : g.evictable
    · rw [if_pos hev] at h
      simp only [Option.some.injEq, Prod.mk.injEq] at h
      obtain ⟨-, rfl⟩ := h
      exact List.mem_cons_of_mem _ he
    · rw [if_neg hev] at h
      rcases hrec : evictFrom rest with _ | ⟨q, m⟩
      · rw [hrec] at h
        simp at h
      · rw [hrec] at h
        simp only [Option.map_some', Option.some.injEq, Prod.mk.injEq] at h
        obtain ⟨-, rfl⟩ := h
        rcases List.mem_cons.mp he with he | he
        · simp [he]
        · exact List.mem_cons_of_mem _ (ih hrec e he)

theorem classOk_evict (s : Replacer) (h : ClassOk s.k s) :
    ClassOk s.k (s.evict).2 := by
  obtain ⟨htemp, hcache⟩ := h
  unfold Replacer.evict
  rcases ht : evictFrom s.tempPool with _ | ⟨f, l⟩
  · rcases hcv : evictFrom s.cachePool with _ | ⟨g, m⟩
    · exact ⟨htemp, hcache⟩
    · exact ⟨htemp, fun e he => hcache e (evictFrom_subset hcv e he)⟩
  · exact ⟨fun e he => htemp e (evictFrom_subset ht e he), hcache⟩

theorem classOk_setEvictable (s : Replacer) (fid : Nat) (b : Bool)
    (h : ClassOk s.k s) : ClassOk s.k (s.setEvictable fid b) := by
  obtain ⟨htemp, hcache⟩ := h
  unfold Replacer.setEvictable
  by_cases h1 : inPool fid s.tempPool = true
  · refine ⟨fun e' he' => ?_, fun e' he' => hcache e' (by simpa [h1] using he')⟩
    simp only [h1, if_true] at he'
    rcases mem_updateId he' with hm | ⟨e'', he'', rfl⟩
    · exact htemp e' hm
    · exact htemp e'' he''
  · by_cases h2 : inPool fid s.cachePool = true
    · refine ⟨fun e' he' => htemp e' (by simpa [h1, h2] using he'), ?_⟩
      intro e' he'
      simp only [h1, Bool.false_eq_true, if_false, h2, if_true] at he'
      rcases mem_updateId he' with hm | ⟨e'', he'', rfl⟩
      · exact hcache e' hm
      · exact hcache e'' he''
    · simpa [h1, h2] using ⟨htemp, hcache⟩

theorem recordAccess_temp_ids (s : Replacer) (fid : Nat) :
    ((s.recordAccess fid).tempPool.map FrameInfo.frameId).Sublist
      (s.tempPool.map FrameInfo.frameId ++ [fid]) := by
  unfold Replacer.recordAccess
  by_cases hc : inPool fid s.cachePool = true
  · rcases hl : lookupId fid s.cachePool with _ | e <;>
      simp [hc, hl, List.sublist_append_left]
  · by_cases htp : inPool fid s.tempPool = true
    · rcases hl : lookupId fid s.tempPool with _ | e
      · simp [hc, htp, hl, List.sublist_append_left]
      · by_cases hk : s.k ≤ e.times + 1
        · simp only [hc, Bool.false_eq_true, if_false, htp, if_true, hl, hk,
            if_true]
          exact (ids_eraseId_sublist fid s.tempPool).trans
            (List.sublist_append_left _ _)
        · simp only [hc, Bool.false_eq_true, if_false, htp, if_true, hl, hk,
            if_false]
          rw [ids_updateId (g := fun f => { f with times := f.times + 1 })
            (fun e => rfl)]
          exact List.sublist_append_left _ _
    · simp only [hc, Bool.false_eq_true, if_false, htp, List.map_append]
      exact List.Sublist.refl _

theorem recordAccess_cache_ids (s : Replacer) (fid : Nat) :
    ((s.recordAccess fid).cachePool.map FrameInfo.frameId).Sublist
      (s.cachePool.map FrameInfo.frameId ++ [fid]) := by
  unfold Replacer.recordAccess
  by_cases hc : inPool fid s.cachePool = true
  · rcases hl : lookupId fid s.cachePool with _ | e
    · simp [hc, hl, List.sublist_append_left]
    · simp only [hc, if_true, hl, List.map_append, List.map_cons, List.map_nil]
      rw [(lookupId_mem hl).2]
      exact (ids_eraseId_sublist fid s.cachePool).append_right _
  · by_cases htp : inPool fid s.tempPool = true
    · rcases hl : lookupId fid s.tempPool with _ | e
      · simp [hc, htp, hl, List.sublist_append_left]
      · by_cases hk : s.k ≤ e.times + 1
        · simp only [hc, Bool.false_eq_true, if_false, htp, if_true, hl, hk,
            if_true, List.map_append, List.map_cons, List.map_nil]
          rw [show ({ e with times := e.times + 1 } : FrameInfo).frameId
              = e.frameId from rfl, (lookupId_mem hl).2]
        · simp [hc, htp, hl, hk, List.sublist_append_left]
    · simp [hc, htp, List.sublist_append_left]

theorem inPool_iff_mem_map {fid : Nat} {l : List FrameInfo} :
    inPool fid l = true ↔ fid ∈ l.map FrameInfo.frameId := by
  simp only [inPool, List.any_eq_true, beq_iff_eq, List.mem_map]

theorem lookupId_eq_none_iff {fid : Nat} {l : List FrameInfo} :
    lookupId fid l = none ↔ ¬fid ∈ l.map FrameInfo.frameId := by
  constructor
  · intro h hm
    rw [← inPool_iff_mem_map] at hm
    rw [inPool_false_of_lookupId_none h] at hm
    exact Bool.noConfusion hm
  · intro hm
    rw [← inPool_iff_mem_map] at hm
    exact lookupId_eq_none_of_inPool_false (by
      cases h : inPool fid l
      · rfl
      · exact absurd h hm)

theorem IdsOk.temp_nodup {s : Replacer} (h : IdsOk s) :
    (s.tempPool.map FrameInfo.frameId).Nodup := by
  have := h
  rw [IdsOk, List.map_append] at this
  exact this.of_append_left

theorem IdsOk.cache_nodup {s : Replacer} (h : IdsOk s) :
    (s.cachePool.map FrameInfo.frameId).Nodup := by
  have := h
  rw [IdsOk, List.map_append] at this
  exact this.of_append_right

theorem IdsOk.disjoint {s : Replacer} (h : IdsOk s) {g : Nat}
    (h1 : g ∈ s.tempPool.map FrameInfo.frameId) :
    ¬g ∈ s.cachePool.map FrameInfo.frameId := by
  have h2 := h
  rw [IdsOk, List.map_append] at h2
  exact fun h3 => (List.disjoint_of_nodup_append h2) h1 h3

/-- Under unique ids, erasing an id empties its lookup. -/
theorem lookupId_eraseId_self {fid : Nat} {l : List FrameInfo}
    (hnd : (l.map FrameInfo.frameId).Nodup) :
    lookupId fid (eraseId fid l) = none := by
  induction l with
  | nil => rfl
  | cons f rest ih =>
    simp only [List.map_cons, List.nodup_cons] at hnd
    by_cases h : f.frameId = fid
    · rw [eraseId, if_pos (by simpa using h)]
      rw [lookupId_eq_none_iff]
      exact fun hm => hnd.1 (h ▸ hm)
    · rw [eraseId, if_neg (by simpa using h), lookupId_cons_ne _ h]
      exact ih hnd.2

/-- A record that survives `evictFrom` with a `false` flag had a `false`
flag before, provided ids are unique in the pool. -/
theorem evictFrom_flag {l : List FrameInfo} :
    ∀ {l' : List FrameInfo} {f : Nat},
      (l.map FrameInfo.frameId).Nodup → evictFrom l = some (f, l') →
      ∀ {g : Nat} {e : FrameInfo}, lookupId g l' = some e →
        e.evictable = false → ∃ e', lookupId g l = some e' ∧
          e'.evictable = false := by
  induction l with
  | nil => intro l' f _ h; exact absurd h (by simp [evictFrom])
  | cons a rest ih =>
    intro l' f hnd h g e he hev
    simp only [List.map_cons, List.nodup_cons] at hnd
    rw [evictFrom] at h
    by_cases hevA : a.evictable
    · rw [if_pos hevA] at h
      simp only [Option.some.injEq, Prod.mk.injEq] at h
      obtain ⟨-, rfl⟩ := h
      have hne : ¬a.frameId = g := by
        intro hc
        have hmem : g ∈ rest.map FrameInfo.frameId :=
          List.mem_map.mpr ⟨e, (lookupId_mem he).1, (lookupId_mem he).2⟩
        exact hnd.1 (hc ▸ hmem)
      exact ⟨e, by rw [lookupId_cons_ne _ hne]; exact he, hev⟩
    · rw [if_neg hevA] at h
      rcases hrec : evictFrom rest with _ | ⟨q, m⟩
      · rw [hrec] at h; simp at h
      · rw [hrec] at h
        simp only [Option.map_some', Option.some.injEq, Prod.mk.injEq] at h
        obtain ⟨-, rfl⟩ := h
        by_cases hg : a.frameId = g
        · rw [lookupId_cons_self _ hg] at he
          obtain rfl : a = e := by injection he
          exact ⟨a, lookupId_cons_self _ hg, hev⟩
        · rw [lookupId_cons_ne _ hg] at he
          obtain ⟨e', h1, h2⟩ := ih hnd.2 hrec he hev
          exact ⟨e', by rw [lookupId_cons_ne _ hg]; exact h1, h2⟩

/-- `recordAccess` on a state with unique ids: a previously untracked frame
gets a fresh record with the evictable flag set; every tracked frame keeps
its flag. -/
theorem flagOf_recordAccess {s : Replacer} (hnd : IdsOk s) (fid g : Nat) :
    (s.recordAccess fid).flagOf g =
      if g = fid ∧ s.tracked fid = false then some true else s.flagOf g := by
  unfold Replacer.recordAccess Replacer.flagOf
  by_cases hc : inPool fid s.cachePool = true
  · have htr : s.tracked fid = true := by simp [Replacer.tracked, hc]
    rcases hl : lookupId fid s.cachePool with _ | e
    · exact absurd hc (by simp [inPool_false_of_lookupId_none hl])
    · simp only [hc, if_true, hl, htr, Bool.true_eq_false, and_false,
        if_false]
      rcases h1 : lookupId g s.tempPool with _ | e'
      · by_cases hg : g = fid
        · subst hg
          rw [lookupId_append, lookupId_eraseId_self hnd.cache_nodup]
          rw [lookupId_cons_self _ (lookupId_mem hl).2, hl]
        · rw [lookupId_append, lookupId_eraseId_ne hg]
          rcases h2 : lookupId g s.cachePool with _ | e''
          · rw [lookupId_cons_ne _ (fun hc2 => hg ((lookupId_mem hl).2 ▸ hc2.symm ▸ rfl))]
            rfl
          · rfl
      · rfl
  · by_cases htp : inPool fid s.tempPool = true
    · have htr : s.tracked fid = true := by simp [Replacer.tracked, htp]
      rcases hl : lookupId fid s.tempPool with _ | e
      · exact absurd htp (by simp [inPool_false_of_lookupId_none hl])
      · by_cases hk : s.k ≤ e.times + 1
        · simp only [hc, Bool.false_eq_true, if_false, htp, if_true, hl, hk,
            htr, Bool.true_eq_false, and_false]
          by_cases hg : g = fid
          · subst hg
            rw [lookupId_eraseId_self hnd.temp_nodup, hl,
              lookupId_append, lookupId_eq_none_of_inPool_false (by simpa using hc),
              lookupId_cons_self _ (by exact (lookupId_mem hl).2)]
          · rw [lookupId_eraseId_ne hg]
            rcases h1 : lookupId g s.tempPool with _ | e'
            · rw [lookupId_append]
              rcases h2 : lookupId g s.cachePool with _ | e''
              · have hfe : e.frameId = fid := (lookupId_mem hl).2
                have hne : ¬({ e with times := e.times + 1 } : FrameInfo).frameId = g := by
                  show ¬e.frameId = g
                  rw [hfe]
                  exact fun hh => hg hh.symm
                rw [lookupId_cons_ne (f := { e with times := e.times + 1 }) _ hne]
                rfl
              · rfl
            · rfl
        · simp only [hc, Bool.false_eq_true, if_false, htp, if_true, hl, hk,
            htr, Bool.true_eq_false, and_false]
          by_cases hg : g = fid
          · subst hg
            rw [lookupId_updateId_self (g := fun f => { f with times := f.times + 1 }) (fun e => rfl), hl]
            rfl
          · rw [lookupId_updateId_ne (u := fun f => { f with times := f.times + 1 }) (fun e => rfl) hg]
    · have htp' : inPool fid s.tempPool = false := by simpa using htp
      have hc' : inPool fid s.cachePool = false := by simpa using hc
      have htr : s.tracked fid = false := by
        simp [Replacer.tracked, htp', hc']
      simp only [hc, Bool.false_eq_true, if_false, htp, htr, and_true]
      by_cases hg : g = fid
      · subst hg
        rw [if_pos rfl, lookupId_append, lookupId_eq_none_of_inPool_false htp']
        have h4 : lookupId g [({ FrameInfo.init g with
            times := (FrameInfo.init g).times + 1 } : FrameInfo)] =
            some { FrameInfo.init g with
              times := (FrameInfo.init g).times + 1 } :=
          lookupId_cons_self _ rfl
        rw [h4]
        rfl
      · rw [if_neg hg, lookupId_append]
        have h4 : lookupId g [({ FrameInfo.init fid with
            times := (FrameInfo.init fid).times + 1 } : FrameInfo)] = none := by
          rw [lookupId_eq_none_iff]
          simp only [List.map_cons, List.map_nil, List.mem_singleton]
          show ¬g = (FrameInfo.init fid).frameId
          exact hg
        rcases h1 : lookupId g s.tempPool with _ | e'
        · rw [h4]
        · rfl

/-- Eviction never flips a flag to non-evictable. -/
theorem flagOf_evict {s : Replacer} (hnd : IdsOk s) (g : Nat) :
    ((s.evict).2).flagOf g = some false → s.flagOf g = some false := by
  rcases ht : evictFrom s.tempPool with _ | ⟨f, l⟩
  · rcases hcv : evictFrom s.cachePool with _ | ⟨q, m⟩
    · have hs : (s.evict).2 = s := by unfold Replacer.evict; rw [ht, hcv]
      rw [hs]
      exact fun h => h
    · have hs : (s.evict).2 = { s with cachePool := m } := by
        unfold Replacer.evict; rw [ht, hcv]
      rw [hs]
      intro h
      simp only [Replacer.flagOf] at h ⊢
      rcases h1 : lookupId g s.tempPool with _ | e'
      · rw [h1] at h
        rcases h2 : lookupId g m with _ | e''
        · rw [h2] at h; exact absurd h (by simp)
        · rw [h2] at h
          obtain ⟨e3, h3, h4⟩ := evictFrom_flag hnd.cache_nodup hcv h2
            (Option.some.inj h)
          simp [h3, h4]
      · rw [h1] at h; exact h
  · have hs : (s.evict).2 = { s with tempPool := l } := by
      unfold Replacer.evict; rw [ht]
    rw [hs]
    intro h
    simp only [Replacer.flagOf] at h ⊢
    rcases h1 : lookupId g l with _ | e'
    · rw [h1] at h
      rcases h2 : lookupId g s.cachePool with _ | e''
      · rw [h2] at h; exact absurd h (by simp)
      · have hgc : g ∈ s.cachePool.map FrameInfo.frameId :=
          List.mem_map.mpr ⟨e'', (lookupId_mem h2).1, (lookupId_mem h2).2⟩
        have hgt : lookupId g s.tempPool = none := by
          rw [lookupId_eq_none_iff]
          intro hm
          exact hnd.disjoint hm hgc
        rw [hgt]
        rw [h2] at h
        exact h
    · rw [h1] at h
      obtain ⟨e3, h3, h4⟩ := evictFrom_flag hnd.temp_nodup ht h1
        (Option.some.inj h)
      simp [h3, h4]

/-- The history pool is scanned before the cache pool; appending one
evictable record to an otherwise non-evictable history makes it the
victim. -/
theorem evictFrom_append_all_false {l : List FrameInfo} {e0 : FrameInfo}
    (hall : ∀ e ∈ l, e.evictable = false) (hev : e0.evictable = true) :
    evictFrom (l ++ [e0]) = some (e0.frameId, l) := by
  induction l with
  | nil => simp [evictFrom, hev]
  | cons f rest ih =>
    have hf := hall f (List.mem_cons_self _ _)
    rw [List.cons_append, evictFrom, if_neg (by simp [hf]),
      ih (fun e he => hall e (List.mem_cons_of_mem _ he))]
    rfl

/-- **C9**: `evict` scans the history pool from its oldest end first and
returns the first evictable record, else scans the cache pool, else reports
absence; with `k ≥ 2` every operation keeps history records below `k`
accesses and cache records at or above `k`; `record_access` never reorders
a pool (it at most appends the accessed id at the newest end, so history
order is first-access order and cache order is last-access order); and in
the concrete scenario `k = 2`, accesses `1, 2, 3, 1, 2`, all frames
evictable, `evict` returns frame `3`. -/
theorem lruk_evict_order :
    (∀ s : Replacer, (s.evict).1 = (firstEvictable s.tempPool).orElse
      (fun _ => firstEvictable s.cachePool))
    ∧ (∀ (s : Replacer) (fid : Nat) (b : Bool), 2 ≤ s.k → ClassOk s.k s →
        ClassOk s.k (s.recordAccess fid) ∧ ClassOk s.k (s.evict).2
          ∧ ClassOk s.k (s.setEvictable fid b))
    ∧ (∀ (s : Replacer) (fid : Nat),
        ((s.recordAccess fid).tempPool.map FrameInfo.frameId).Sublist
          (s.tempPool.map FrameInfo.frameId ++ [fid])
        ∧ ((s.recordAccess fid).cachePool.map FrameInfo.frameId).Sublist
          (s.cachePool.map FrameInfo.frameId ++ [fid]))
    ∧ (((Replacer.init 7 2).recordAll [1, 2, 3, 1, 2]).evict).1 = some 3 :=
  ⟨evict_fst,
   fun s fid b h2 h =>
     ⟨classOk_recordAccess s fid h2 h, classOk_evict s h,
      classOk_setEvictable s fid b h⟩,
   fun s fid => ⟨recordAccess_temp_ids s fid, recordAccess_cache_ids s fid⟩,
   by decide⟩

/-- Witness for C9 at a concrete state. -/
theorem lruk_evict_order_witness :
    ClassOk 2 ((Replacer.init 7 2).recordAccess 1) := by
  have h := (lruk_evict_order.2.1 (Replacer.init 7 2) 1 true (by decide)
    (by decide)).1
  exact h

/-- **C10**: `record_access` on an untracked frame creates a record whose
evictable flag is `true` (the `FrameInfo` constructor default), so `size`
counts it and `evict` can return it without any `set_evictable` call; and
neither `record_access` nor `evict` ever turns a tracked frame's flag to
`false` — only `set_evictable(frame, false)` does. -/
theorem lruk_new_record_evictable :
    (∀ (s : Replacer) (fid : Nat), s.tracked fid = false →
        (s.recordAccess fid).flagOf fid = some true
        ∧ (s.recordAccess fid).size = s.size + 1
        ∧ (s.recordAccess fid).tracked fid = true)
    ∧ (∀ (s : Replacer) (fid : Nat), s.tracked fid = false →
        (∀ e ∈ s.tempPool, e.evictable = false) →
        (∀ e ∈ s.cachePool, e.evictable = false) →
        ((s.recordAccess fid).evict).1 = some fid)
    ∧ (∀ (s : Replacer) (fid g : Nat), IdsOk s →
        (s.recordAccess fid).flagOf g = some false →
          s.flagOf g = some false)
    ∧ (∀ (s : Replacer) (g : Nat), IdsOk s →
        ((s.evict).2).flagOf g = some false → s.flagOf g = some false) := by
  have hbranch : ∀ (s : Replacer) (fid : Nat), s.tracked fid = false →
      s.recordAccess fid = { s with tempPool := s.tempPool ++
        [{ FrameInfo.init fid with
            times := (FrameInfo.init fid).times + 1 }] } := by
    intro s fid htr
    have h1 : inPool fid s.tempPool = false := by
      cases h : inPool fid s.tempPool
      · rfl
      · rw [Replacer.tracked, h] at htr; simp at htr
    have h2 : inPool fid s.cachePool = false := by
      cases h : inPool fid s.cachePool
      · rfl
      · rw [Replacer.tracked, h] at htr; simp at htr
    unfold Replacer.recordAccess
    rw [if_neg (by simp [h2]), if_neg (by simp [h1])]
  refine ⟨?_, ?_, ?_, fun s g hnd => flagOf_evict hnd g⟩
  · intro s fid htr
    rw [hbranch s fid htr]
    have h1 : inPool fid s.tempPool = false := by
      cases h : inPool fid s.tempPool
      · rfl
      · rw [Replacer.tracked, h] at htr; simp at htr
    refine ⟨?_, ?_, ?_⟩
    · show Replacer.flagOf _ fid = some true
      unfold Replacer.flagOf
      rw [show ({ s with tempPool := s.tempPool ++
          [{ FrameInfo.init fid with
              times := (FrameInfo.init fid).times + 1 }] } :
          Replacer).tempPool = s.tempPool ++
          [{ FrameInfo.init fid with
              times := (FrameInfo.init fid).times + 1 }] from rfl,
        lookupId_append, lookupId_eq_none_of_inPool_false h1]
      rw [show lookupId fid [({ FrameInfo.init fid with
          times := (FrameInfo.init fid).times + 1 } : FrameInfo)] =
          some { FrameInfo.init fid with
            times := (FrameInfo.init fid).times + 1 } from
        lookupId_cons_self _ rfl]
      rfl
    · show (List.filter _ _).length + (List.filter _ _).length = _
      rw [List.filter_append]
      simp [Replacer.size, FrameInfo.init]
      omega
    · show (inPool fid (s.tempPool ++ _) || _) = true
      rw [Bool.or_eq_true]
      refine Or.inl ?_
      rw [inPool_iff_mem_map]
      simp [FrameInfo.init]
  · intro s fid htr hta hca
    rw [hbranch s fid htr]
    have hef : evictFrom (s.tempPool ++
        [{ FrameInfo.init fid with
            times := (FrameInfo.init fid).times + 1 }]) =
        some (fid, s.tempPool) := evictFrom_append_all_false hta rfl
    unfold Replacer.evict
    rw [show ({ s with tempPool := s.tempPool ++
        [{ FrameInfo.init fid with
            times := (FrameInfo.init fid).times + 1 }] } :
        Replacer).tempPool = s.tempPool ++
        [{ FrameInfo.init fid with
            times := (FrameInfo.init fid).times + 1 }] from rfl, hef]
  · intro s fid g hnd hflag
    rw [flagOf_recordAccess hnd fid g] at hflag
    by_cases hcond : g = fid ∧ s.tracked fid = false
    · rw [if_pos hcond] at hflag
      exact absurd hflag (by simp)
    · rwa [if_neg hcond] at hflag

/-- Witness for C10 at a concrete state. -/
theorem lruk_new_record_evictable_witness :
    ((Replacer.init 4 2).recordAccess 3).flagOf 3 = some true
    ∧ ((Replacer.init 4 2).recordAccess 3).size = (Replacer.init 4 2).size + 1
    ∧ (((Replacer.init 4 2).recordAccess 3).evict).1 = some 3 := by
  obtain ⟨h1, h2, -⟩ :=
    lruk_new_record_evictable.1 (Replacer.init 4 2) 3 (by decide)
  exact ⟨h1, h2, lruk_new_record_evictable.2.1 (Replacer.init 4 2) 3
    (by decide) (by decide) (by decide)⟩

end LRUK

namespace EHT

variable {K V : Type} [DecidableEq K]

theorem dirMap_length (n : Nat) (f : Nat → Nat) : (dirMap n f).length = n := by
  simp [dirMap]

theorem dirMap_getD {i n : Nat} (h : i < n) (f : Nat → Nat) (d : Nat) :
    (dirMap n f).getD i d = f i := by
  rw [dirMap, List.getD_eq_getElem?_getD, List.getElem?_map,
    List.getElem?_range h]
  rfl

theorem mod_mod_pow {d e : Nat} (h : d ≤ e) (x : Nat) :
    x % 2 ^ e % 2 ^ d = x % 2 ^ d :=
  Nat.mod_mod_of_dvd x (Nat.pow_dvd_pow 2 h)

theorem mod_pow_succ_cases (d x : Nat) :
    x % 2 ^ (d + 1) = x % 2 ^ d ∨ x % 2 ^ (d + 1) = x % 2 ^ d + 2 ^ d := by
  have h1 : x % 2 ^ (d + 1) % 2 ^ d = x % 2 ^ d :=
    mod_mod_pow (Nat.le_succ d) x
  have h2 : x % 2 ^ (d + 1) < 2 ^ (d + 1) := Nat.mod_lt _ (Nat.two_pow_pos _)
  have h3 : 2 ^ (d + 1) = 2 ^ d + 2 ^ d := by rw [Nat.pow_succ]; omega
  rcases Nat.lt_or_ge (x % 2 ^ (d + 1)) (2 ^ d) with h5 | h5
  · left
    rw [← h1, Nat.mod_eq_of_lt h5]
  · right
    have h6 : x % 2 ^ (d + 1) - 2 ^ d < 2 ^ d := by omega
    have h7 : x % 2 ^ (d + 1) % 2 ^ d = x % 2 ^ (d + 1) - 2 ^ d := by
      rw [Nat.mod_eq_sub_mod h5, Nat.mod_eq_of_lt h6]
    omega

theorem storeUpdate_fst (bid : Nat) (b : Bucket K V)
    (l : List (Nat × Bucket K V)) :
    (storeUpdate bid b l).map Prod.fst = l.map Prod.fst := by
  induction l with
  | nil => rfl
  | cons p rest ih =>
    by_cases h : p.1 = bid
    · rw [storeUpdate, if_pos (by simpa using h)]
      simp [h]
    · rw [storeUpdate, if_neg (by simpa using h)]
      simpa using ih

theorem storeUpdate_find?_self {bid : Nat} (b : Bucket K V)
    {l : List (Nat × Bucket K V)}
    (h : (l.find? (fun p => p.1 == bid)).isSome = true) :
    (storeUpdate bid b l).find? (fun p => p.1 == bid) = some (bid, b) := by
  induction l with
  | nil => simp at h
  | cons p rest ih =>
    by_cases hp : p.1 = bid
    · rw [storeUpdate, if_pos (by simpa using hp)]
      exact List.find?_cons_of_pos _ (by simp)
    · rw [storeUpdate, if_neg (by simpa using hp)]
      rw [List.find?_cons_of_neg _ (by simpa using hp)] at h
      rw [List.find?_cons_of_neg _ (by simpa using hp)]
      exact ih h

theorem storeUpdate_find?_ne {bid bid' : Nat} (hne : ¬bid' = bid)
    (b : Bucket K V) (l : List (Nat × Bucket K V)) :
    (storeUpdate bid b l).find? (fun p => p.1 == bid')
      = l.find? (fun p => p.1 == bid') := by
  induction l with
  | nil => rfl
  | cons p rest ih =>
    by_cases hp : p.1 = bid
    · rw [storeUpdate, if_pos (by simpa using hp)]
      rw [List.find?_cons_of_neg _ (by
          simp only [beq_iff_eq]
          exact fun h => hne h.symm),
        List.find?_cons_of_neg _ (by
          simp only [beq_iff_eq]
          rw [hp]
          exact fun h => hne h.symm)]
    · rw [storeUpdate, if_neg (by simpa using hp)]
      by_cases hq : p.1 = bid'
      · rw [List.find?_cons_of_pos _ (by simpa using hq),
          List.find?_cons_of_pos _ (by simpa using hq)]
      · rw [List.find?_cons_of_neg _ (by simpa using hq),
          List.find?_cons_of_neg _ (by simpa using hq), ih]

theorem lookupB_updateB_self {t : Table K V} {bid : Nat} {b0 : Bucket K V}
    (h : lookupB t bid = some b0) (b : Bucket K V) :
    lookupB (updateB t bid b) bid = some b := by
  have h1 : (t.store.find? (fun p => p.1 == bid)).isSome = true := by
    unfold lookupB at h
    rcases hf : t.store.find? (fun p => p.1 == bid) with _ | q
    · rw [hf] at h; simp at h
    · rw [hf]; rfl
  simp only [lookupB, updateB]
  rw [storeUpdate_find?_self b h1]
  rfl

theorem lookupB_updateB_ne {t : Table K V} {bid bid' : Nat}
    (hne : ¬bid' = bid) (b : Bucket K V) :
    lookupB (updateB t bid b) bid' = lookupB t bid' := by
  simp only [lookupB, updateB]
  rw [storeUpdate_find?_ne hne b]

theorem overwriteKey_map_fst (k : K) (v : V) (l : List (K × V)) :
    (overwriteKey k v l).map Prod.fst = l.map Prod.fst := by
  induction l with
  | nil => rfl
  | cons kv rest ih =>
    by_cases h : kv.1 = k
    · rw [overwriteKey, if_pos (by simpa using h)]
      simp
    · rw [overwriteKey, if_neg (by simpa using h)]
      simpa using ih

theorem mem_overwriteKey {k : K} {v : V} {l : List (K × V)} {kv : K × V}
    (h : kv ∈ overwriteKey k v l) :
    kv.1 ∈ l.map Prod.fst := by
  have := overwriteKey_map_fst k v l
  rw [← this]
  exact List.mem_map.mpr ⟨kv, h, rfl⟩

theorem find?_overwriteKey_self {k : K} (v : V) {l : List (K × V)}
    (h : l.any (fun kv => kv.1 == k) = true) :
    (overwriteKey k v l).find? (fun kv => kv.1 == k) = some (k, v) := by
  induction l with
  | nil => simp at h
  | cons kv rest ih =>
    by_cases hk : kv.1 = k
    · rw [overwriteKey, if_pos (by simpa using hk)]
      rw [List.find?_cons_of_pos _ (by simpa using hk), hk]
    · rw [overwriteKey, if_neg (by simpa using hk)]
      rw [List.find?_cons_of_neg _ (by simpa using hk)]
      exact ih (by simpa [hk] using h)

theorem find?_overwriteKey_ne {k k' : K} (hne : ¬k' = k) (v : V)
    (l : List (K × V)) :
    (overwriteKey k v l).find? (fun kv => kv.1 == k')
      = l.find? (fun kv => kv.1 == k') := by
  induction l with
  | nil => rfl
  | cons kv rest ih =>
    by_cases hk : kv.1 = k
    · rw [overwriteKey, if_pos (by simpa using hk)]
      by_cases hk' : kv.1 = k'
      · exact absurd (hk'.symm.trans hk) hne
      · rw [List.find?_cons_of_neg _ (by simpa using hk'),
          List.find?_cons_of_neg _ (by simpa using hk')]
    · rw [overwriteKey, if_neg (by simpa using hk)]
      by_cases hk' : kv.1 = k'
      · rw [List.find?_cons_of_pos _ (by simpa using hk'),
          List.find?_cons_of_pos _ (by simpa using hk')]
      · rw [List.find?_cons_of_neg _ (by simpa using hk'),
          List.find?_cons_of_neg _ (by simpa using hk'), ih]

theorem find?_filter_of_imp {α : Type} (p q : α → Bool) (l : List α)
    (himp : ∀ x, q x = true → p x = true) :
    (l.filter p).find? q = l.find? q := by
  induction l with
  | nil => rfl
  | cons a rest ih =>
    by_cases hq : q a = true
    · rw [List.filter_cons_of_pos (himp a hq),
        List.find?_cons_of_pos _ hq, List.find?_cons_of_pos _ hq]
    · by_cases hp : p a = true
      · rw [List.filter_cons_of_pos hp, List.find?_cons_of_neg _ hq,
          List.find?_cons_of_neg _ hq, ih]
      · rw [List.filter_cons_of_neg (by simpa using hp),
          List.find?_cons_of_neg _ hq, ih]

theorem removeKey_find?_ne {k k' : K} (hne : ¬k' = k)
    {l l' : List (K × V)} (h : removeKey k l = some l') :
    l'.find? (fun kv => kv.1 == k') = l.find? (fun kv => kv.1 == k') := by
  induction l generalizing l' with
  | nil => simp [removeKey] at h
  | cons kv rest ih =>
    by_cases hk : kv.1 = k
    · rw [removeKey, if_pos (by simpa using hk)] at h
      obtain rfl : rest = l' := by injection h
      rw [List.find?_cons_of_neg _ (by
        simp only [beq_iff_eq]
        rw [hk]
        exact fun hc => hne hc.symm)]
    · rw [removeKey, if_neg (by simpa using hk)] at h
      rcases hrec : removeKey k rest with _ | m
      · rw [hrec] at h; simp at h
      · rw [hrec] at h
        simp only [Option.map_some', Option.some.injEq] at h
        subst h
        by_cases hk' : kv.1 = k'
        · rw [List.find?_cons_of_pos _ (by simpa using hk'),
            List.find?_cons_of_pos _ (by simpa using hk')]
        · rw [List.find?_cons_of_neg _ (by simpa using hk'),
            List.find?_cons_of_neg _ (by simpa using hk'), ih hrec]

theorem removeKey_sublist {k : K} {l l' : List (K × V)}
    (h : removeKey k l = some l') : l'.Sublist l := by
  induction l generalizing l' with
  | nil => simp [removeKey] at h
  | cons kv rest ih =>
    by_cases hk : kv.1 = k
    · rw [removeKey, if_pos (by simpa using hk)] at h
      obtain rfl : rest = l' := by injection h
      exact List.sublist_cons_self _ _
    · rw [removeKey, if_neg (by simpa using hk)] at h
      rcases hrec : removeKey k rest with _ | m
      · rw [hrec] at h; simp at h
      · rw [hrec] at h
        simp only [Option.map_some', Option.some.injEq] at h
        subst h
        exact (ih hrec).cons₂ _

theorem removeKey_nodup_none {k : K} {l : List (K × V)}
    (hnd : (l.map Prod.fst).Nodup) {l' : List (K × V)}
    (h : removeKey k l = some l') :
    l'.find? (fun kv => kv.1 == k) = none := by
  induction l generalizing l' with
  | nil => simp [removeKey] at h
  | cons kv rest ih =>
    simp only [List.map_cons, List.nodup_cons] at hnd
    by_cases hk : kv.1 = k
    · rw [removeKey, if_pos (by simpa using hk)] at h
      obtain rfl : rest = l' := by injection h
      rw [List.find?_eq_none]
      intro kv' hm
      simp only [beq_iff_eq]
      intro hc
      refine hnd.1 ?_
      have hmm : kv'.1 ∈ rest.map Prod.fst := List.mem_map.mpr ⟨kv', hm, rfl⟩
      rw [hc] at hmm
      rw [hk]
      exact hmm
    · rw [removeKey, if_neg (by simpa using hk)] at h
      rcases hrec : removeKey k rest with _ | m
      · rw [hrec] at h; simp at h
      · rw [hrec] at h
        simp only [Option.map_some', Option.some.injEq] at h
        subst h
        rw [List.find?_cons_of_neg _ (by simpa using hk)]
        exact ih hnd.2 hrec


theorem find?_append {α : Type} (p : α → Bool) (l m : List α) :
    (l ++ m).find? p =
      match l.find? p with
      | some a => some a
      | none => m.find? p := by
  induction l with
  | nil => rfl
  | cons a rest ih =>
    by_cases h : p a = true
    · rw [List.cons_append, List.find?_cons_of_pos _ h,
        List.find?_cons_of_pos _ h]
    · rw [List.cons_append, List.find?_cons_of_neg _ h,
        List.find?_cons_of_neg _ h, ih]

theorem find?_eq_none_of_any_false {α : Type} {p : α → Bool} {l : List α}
    (h : l.any p = false) : l.find? p = none := by
  rw [List.find?_eq_none]
  intro x hx hpx
  rw [List.any_eq_false] at h
  exact absurd hpx (h x hx)

/-- Case analysis of `Bucket::Insert` succeeding. -/
theorem bucketInsert_cases {sz : Nat} {b b' : Bucket K V} {k : K} {v : V}
    (h : bucketInsert sz b k v = some b') :
    b'.depth = b.depth ∧
    ((b.items.any (fun kv => kv.1 == k) = true
        ∧ b'.items = overwriteKey k v b.items)
     ∨ (b.items.any (fun kv => kv.1 == k) = false ∧ b.items.length < sz
        ∧ b'.items = b.items ++ [(k, v)])) := by
  unfold bucketInsert at h
  by_cases h1 : b.items.any (fun kv => kv.1 == k) = true
  · rw [if_pos h1] at h
    obtain rfl : { b with items := overwriteKey k v b.items } = b' := by
      injection h
    exact ⟨rfl, Or.inl ⟨h1, rfl⟩⟩
  · rw [if_neg h1] at h
    by_cases h2 : sz ≤ b.items.length
    · rw [if_pos h2] at h; exact absurd h (by simp)
    · rw [if_neg h2] at h
      obtain rfl : { b with items := b.items ++ [(k, v)] } = b' := by
        injection h
      refine ⟨rfl, Or.inr ⟨?_, by omega, rfl⟩⟩
      simp only [Bool.not_eq_true] at h1
      exact h1

/-- `Bucket::Insert` fails exactly on a full bucket missing the key. -/
theorem bucketInsert_none {sz : Nat} {b : Bucket K V} {k : K} {v : V}
    (h : bucketInsert sz b k v = none) :
    b.items.any (fun kv => kv.1 == k) = false ∧ sz ≤ b.items.length := by
  unfold bucketInsert at h
  by_cases h1 : b.items.any (fun kv => kv.1 == k) = true
  · rw [if_pos h1] at h; exact absurd h (by simp)
  · rw [if_neg h1] at h
    by_cases h2 : sz ≤ b.items.length
    · refine ⟨?_, h2⟩
      simp only [Bool.not_eq_true] at h1
      exact h1
    · rw [if_neg h2] at h; exact absurd h (by simp)

theorem bucketInsert_find_self {sz : Nat} {b b' : Bucket K V} {k : K} {v : V}
    (h : bucketInsert sz b k v = some b') : b'.find k = some v := by
  obtain ⟨-, hc | hc⟩ := bucketInsert_cases h
  · rw [Bucket.find, hc.2, find?_overwriteKey_self v hc.1]
    rfl
  · rw [Bucket.find, hc.2.2, find?_append,
      find?_eq_none_of_any_false hc.1]
    simp

theorem bucketInsert_find_ne {sz : Nat} {b b' : Bucket K V} {k k' : K}
    {v : V} (hne : ¬k' = k) (h : bucketInsert sz b k v = some b') :
    b'.find k' = b.find k' := by
  obtain ⟨-, hc | hc⟩ := bucketInsert_cases h
  · rw [Bucket.find, hc.2, find?_overwriteKey_ne hne]
    rfl
  · rw [Bucket.find, hc.2.2, find?_append, Bucket.find]
    rcases hf : b.items.find? (fun kv => kv.1 == k') with _ | q
    · rw [hf, show List.find? (fun kv : K × V => kv.1 == k') [(k, v)] = none
        from (List.find?_cons_of_neg _ (by
          simp only [beq_iff_eq]
          exact fun hh => hne hh.symm)).trans rfl]
    · rw [hf]

theorem redistribute_globalDepth (hash : K → Nat) (t : Table K V)
    (bid : Nat) : (redistribute hash t bid).globalDepth = t.globalDepth := by
  unfold redistribute; split <;> rfl

theorem redistribute_bucketSize (hash : K → Nat) (t : Table K V)
    (bid : Nat) : (redistribute hash t bid).bucketSize = t.bucketSize := by
  unfold redistribute; split <;> rfl

theorem redistribute_dirLength (hash : K → Nat) (t : Table K V)
    (bid : Nat) : (redistribute hash t bid).dir.length = t.dir.length := by
  unfold redistribute
  split
  · rfl
  · show (dirMap t.dir.length _).length = _
    rw [dirMap_length]

theorem insertInternal_bucketSize (hash : K → Nat) :
    ∀ (fuel : Nat) (t t' : Table K V) (k : K) (v : V),
      insertInternal hash fuel t k v = some t' →
        t'.bucketSize = t.bucketSize := by
  intro fuel
  induction fuel with
  | zero => intro t t' k v h; exact absurd h (by simp [insertInternal])
  | succ fuel ih =>
    intro t t' k v h
    simp only [insertInternal] at h
    split at h
    · exact absurd h (by simp)
    · split at h
      · obtain rfl : updateB t _ _ = t' := by injection h
        rfl
      · split at h
        · exact (ih _ _ _ _ h).trans (redistribute_bucketSize hash t _)
        · exact (ih _ _ _ _ h).trans (redistribute_bucketSize hash _ _)

/-- **C8 core**: a completed insert makes the key findable with the
inserted value. -/
theorem find_insertInternal_self (hash : K → Nat) :
    ∀ (fuel : Nat) (t t' : Table K V) (k : K) (v : V),
      insertInternal hash fuel t k v = some t' → find hash t' k = some v := by
  intro fuel
  induction fuel with
  | zero => intro t t' k v h; exact absurd h (by simp [insertInternal])
  | succ fuel ih =>
    intro t t' k v h
    simp only [insertInternal] at h
    split at h
    · exact absurd h (by simp)
    · rename_i b hb
      split at h
      · rename_i b' hbi
        obtain rfl : updateB t (t.dir.getD (indexOf hash t.globalDepth k) 0)
            b' = t' := by injection h
        show (bucketAt _ _).bind _ = some v
        rw [show (updateB t (t.dir.getD (indexOf hash t.globalDepth k) 0)
            b').globalDepth = t.globalDepth from rfl]
        rw [bucketAt, show (updateB t (t.dir.getD
            (indexOf hash t.globalDepth k) 0) b').dir = t.dir from rfl]
        rw [lookupB_updateB_self hb b']
        simpa using bucketInsert_find_self hbi
      · split at h
        · exact ih _ _ _ _ h
        · exact ih _ _ _ _ h


theorem getD_mem_of_lt {l : List Nat} {i : Nat} (h : i < l.length) :
    l.getD i 0 ∈ l := by
  rw [List.getD_eq_getElem?_getD, List.getElem?_eq_getElem h]
  exact List.getElem_mem _

theorem indexOf_lt_dirLength {hash : K → Nat} {t : Table K V}
    (hlen : t.dir.length = 2 ^ t.globalDepth) (k : K) :
    indexOf hash t.globalDepth k < t.dir.length := by
  rw [hlen]
  exact Nat.mod_lt _ (Nat.two_pow_pos _)

theorem bucketAt_updateB {t : Table K V} {bid : Nat} {b : Bucket K V}
    (hb : lookupB t bid = some b) (b' : Bucket K V) (j : Nat) :
    bucketAt (updateB t bid b') j =
      if t.dir.getD j 0 = bid then some b' else bucketAt t j := by
  show lookupB (updateB t bid b') ((updateB t bid b').dir.getD j 0) = _
  rw [show (updateB t bid b').dir = t.dir from rfl]
  by_cases h : t.dir.getD j 0 = bid
  · rw [if_pos h, h, lookupB_updateB_self hb]
  · rw [if_neg h, lookupB_updateB_ne h]
    rfl

theorem any_false_not_mem {k : K} {l : List (K × V)}
    (h : l.any (fun kv => kv.1 == k) = false) :
    ¬k ∈ l.map Prod.fst := by
  rw [List.any_eq_false] at h
  intro hm
  obtain ⟨kv, hkv, hfst⟩ := List.mem_map.mp hm
  exact (h kv hkv) (by simp [hfst])

/-- Invariant preservation for the success step of `InsertInternal`. -/
theorem inv_updateB (hash : K → Nat) {t : Table K V} (hInv : Inv hash t)
    (k : K) (v : V) {b b' : Bucket K V}
    (hb : lookupB t (t.dir.getD (indexOf hash t.globalDepth k) 0) = some b)
    (hbi : bucketInsert t.bucketSize b k v = some b') :
    Inv hash (updateB t (t.dir.getD (indexOf hash t.globalDepth k) 0) b') := by
  obtain ⟨hlen, hlive, hshare, hdirf, hstoref⟩ := hInv
  obtain ⟨hdep, hcases⟩ := bucketInsert_cases hbi
  have histar : indexOf hash t.globalDepth k < t.dir.length :=
    indexOf_lt_dirLength hlen k
  have hbat : bucketAt t (indexOf hash t.globalDepth k) = some b := hb
  have hdepthAt : ∀ j, depthAt (updateB t
      (t.dir.getD (indexOf hash t.globalDepth k) 0) b') j = depthAt t j := by
    intro j
    unfold depthAt
    rw [bucketAt_updateB hb]
    by_cases h : t.dir.getD j 0 = t.dir.getD (indexOf hash t.globalDepth k) 0
    · rw [if_pos h]
      rw [bucketAt, h, hb]
      simp [hdep]
    · rw [if_neg h]
  have hitemsAt : ∀ j, itemsAt (updateB t
      (t.dir.getD (indexOf hash t.globalDepth k) 0) b') j =
        if t.dir.getD j 0 = t.dir.getD (indexOf hash t.globalDepth k) 0
        then b'.items else itemsAt t j := by
    intro j
    unfold itemsAt
    rw [bucketAt_updateB hb]
    by_cases h : t.dir.getD j 0 = t.dir.getD (indexOf hash t.globalDepth k) 0
    · rw [if_pos h, if_pos h]
      rfl
    · rw [if_neg h, if_neg h]
  have hdstar : depthAt t (indexOf hash t.globalDepth k) = b.depth := by
    unfold depthAt
    rw [hbat]
    rfl
  refine ⟨hlen, ?_, ?_, hdirf, ?_⟩
  · intro i hi
    have hl := hlive i hi
    refine ⟨?_, ?_, ?_, ?_⟩
    · rw [bucketAt_updateB hb]
      by_cases h : t.dir.getD i 0 = t.dir.getD (indexOf hash t.globalDepth k) 0
      · rw [if_pos h]; rfl
      · rw [if_neg h]; exact hl.1
    · rw [hdepthAt]
      exact hl.2.1
    · intro kv hkv
      rw [hitemsAt] at hkv
      rw [show (updateB t (t.dir.getD (indexOf hash t.globalDepth k) 0)
          b').globalDepth = t.globalDepth from rfl, hdepthAt]
      by_cases h : t.dir.getD i 0 = t.dir.getD (indexOf hash t.globalDepth k) 0
      · rw [if_pos h] at hkv
        have hitems_i : itemsAt t i = b.items := by
          unfold itemsAt
          rw [bucketAt, h, hb]
          rfl
        have hdi : depthAt t i = b.depth := by
          unfold depthAt
          rw [bucketAt, h, hb]
          rfl
        rcases hcases with ⟨hany, hitems⟩ | ⟨hany, hlt, hitems⟩
        · rw [hitems] at hkv
          have hk1 : kv.1 ∈ b.items.map Prod.fst := mem_overwriteKey hkv
          obtain ⟨kv0, hkv0, hfst⟩ := List.mem_map.mp hk1
          have := hl.2.2.1 kv0 (by rw [hitems_i]; exact hkv0)
          rw [hfst] at this
          exact this
        · rw [hitems] at hkv
          rcases List.mem_append.mp hkv with hkv | hkv
          · exact hl.2.2.1 kv (by rw [hitems_i]; exact hkv)
          · rw [List.mem_singleton.mp hkv]
            rw [hdi]
            have hsh := (hshare (indexOf hash t.globalDepth k) histar i hi).mp
              h.symm
            rw [hdstar] at hsh
            exact hsh
      · rw [if_neg h] at hkv
        exact hl.2.2.1 kv hkv
    · rw [hitemsAt]
      by_cases h : t.dir.getD i 0 = t.dir.getD (indexOf hash t.globalDepth k) 0
      · rw [if_pos h]
        have hitems_i : itemsAt t i = b.items := by
          unfold itemsAt
          rw [bucketAt, h, hb]
          rfl
        have hnd : (b.items.map Prod.fst).Nodup := by
          rw [← hitems_i]
          exact hl.2.2.2
        rcases hcases with ⟨hany, hitems⟩ | ⟨hany, hlt, hitems⟩
        · rw [hitems, overwriteKey_map_fst]
          exact hnd
        · rw [hitems, List.map_append]
          simp only [List.map_cons, List.map_nil]
          rw [List.nodup_append]
          refine ⟨hnd, List.nodup_singleton k, ?_⟩
          intro a ha hamem
          exact any_false_not_mem hany
            (by rwa [List.mem_singleton.mp hamem] at ha)
      · rw [if_neg h]
        exact hl.2.2.2
  · intro i hi j hj
    rw [show (updateB t (t.dir.getD (indexOf hash t.globalDepth k) 0)
        b').dir = t.dir from rfl, hdepthAt]
    exact hshare i hi j hj
  · intro p hp
    have h1 : p.1 ∈ (storeUpdate (t.dir.getD (indexOf hash t.globalDepth k) 0)
        b' t.store).map Prod.fst := List.mem_map.mpr ⟨p, hp, rfl⟩
    rw [storeUpdate_fst] at h1
    obtain ⟨q, hq, hfst⟩ := List.mem_map.mp h1
    rw [← hfst]
    exact hstoref q hq


theorem bucketAt_doubleDir {t : Table K V} {i : Nat}
    (hi : i < 2 ^ (t.globalDepth + 1)) :
    bucketAt (doubleDir t) i = bucketAt t (i % 2 ^ t.globalDepth) := by
  show lookupB (doubleDir t) ((doubleDir t).dir.getD i 0) = _
  rw [show (doubleDir t).dir = dirMap (2 ^ (t.globalDepth + 1))
      (fun i => t.dir.getD (i % 2 ^ t.globalDepth) 0) from rfl,
    dirMap_getD hi]
  rfl

/-- Invariant preservation for the directory-doubling step. -/
theorem inv_doubleDir (hash : K → Nat) {t : Table K V} (hInv : Inv hash t) :
    Inv hash (doubleDir t) := by
  obtain ⟨hlen, hlive, hshare, hdirf, hstoref⟩ := hInv
  have hlen' : (doubleDir t).dir.length = 2 ^ (t.globalDepth + 1) := by
    show (dirMap _ _).length = _
    rw [dirMap_length]
  have hmodlt : ∀ i : Nat, i % 2 ^ t.globalDepth < t.dir.length := by
    intro i
    rw [hlen]
    exact Nat.mod_lt _ (Nat.two_pow_pos _)
  have hdepth' : ∀ i < 2 ^ (t.globalDepth + 1),
      depthAt (doubleDir t) i = depthAt t (i % 2 ^ t.globalDepth) := by
    intro i hi
    unfold depthAt
    rw [bucketAt_doubleDir hi]
  have hitems' : ∀ i < 2 ^ (t.globalDepth + 1),
      itemsAt (doubleDir t) i = itemsAt t (i % 2 ^ t.globalDepth) := by
    intro i hi
    unfold itemsAt
    rw [bucketAt_doubleDir hi]
  refine ⟨hlen', ?_, ?_, ?_, hstoref⟩
  · intro i hi
    rw [hlen'] at hi
    have hl := hlive (i % 2 ^ t.globalDepth) (hmodlt i)
    refine ⟨?_, ?_, ?_, ?_⟩
    · rw [bucketAt_doubleDir hi]
      exact hl.1
    · rw [hdepth' i hi]
      exact le_trans hl.2.1 (by
        show t.globalDepth ≤ (doubleDir t).globalDepth
        exact Nat.le_succ _)
    · intro kv hkv
      rw [hitems' i hi] at hkv
      rw [hdepth' i hi]
      have hc := hl.2.2.1 kv hkv
      have hd := hl.2.1
      rw [show (doubleDir t).globalDepth = t.globalDepth + 1 from rfl]
      simp only [indexOf] at hc ⊢
      rw [mod_mod_pow hd (hash kv.1)] at hc
      rw [mod_mod_pow (le_trans hd (Nat.le_succ _)) (hash kv.1), hc,
        mod_mod_pow hd i]
    · rw [hitems' i hi]
      exact hl.2.2.2
  · intro i hi j hj
    rw [hlen'] at hi hj
    rw [hdepth' i hi]
    rw [show (doubleDir t).dir = dirMap (2 ^ (t.globalDepth + 1))
        (fun i => t.dir.getD (i % 2 ^ t.globalDepth) 0) from rfl,
      dirMap_getD hi, dirMap_getD hj]
    have hsh := hshare (i % 2 ^ t.globalDepth) (hmodlt i)
      (j % 2 ^ t.globalDepth) (hmodlt j)
    rw [hsh]
    have hd := (hlive (i % 2 ^ t.globalDepth) (hmodlt i)).2.1
    rw [mod_mod_pow hd i, mod_mod_pow hd j]
  · intro id hid
    rw [show (doubleDir t).dir = dirMap (2 ^ (t.globalDepth + 1))
        (fun i => t.dir.getD (i % 2 ^ t.globalDepth) 0) from rfl,
      dirMap] at hid
    obtain ⟨i, -, rfl⟩ := List.mem_map.mp hid
    exact hdirf _ (getD_mem_of_lt (hmodlt i))

/-- Doubling the directory does not change any lookup. -/
theorem find_doubleDir (hash : K → Nat) {t : Table K V}
    (hlen : t.dir.length = 2 ^ t.globalDepth) (k : K) :
    find hash (doubleDir t) k = find hash t k := by
  unfold find
  have hi : indexOf hash (doubleDir t).globalDepth k
      < 2 ^ (t.globalDepth + 1) :=
    Nat.mod_lt _ (Nat.two_pow_pos _)
  rw [bucketAt_doubleDir hi]
  rw [show indexOf hash (doubleDir t).globalDepth k % 2 ^ t.globalDepth
      = indexOf hash t.globalDepth k from by
    simp only [indexOf]
    exact mod_mod_pow (Nat.le_succ _) (hash k)]

theorem redistribute_eq (hash : K → Nat) {t : Table K V} {bid : Nat}
    {b : Bucket K V} (hb : lookupB t bid = some b) :
    redistribute hash t bid =
      { t with
        store := (t.nextId, ⟨b.depth + 1, b.items.filter
            (fun kv => indexOf hash t.globalDepth kv.1 % 2 ^ (b.depth + 1)
              == lowOf hash t.globalDepth b)⟩) ::
          (t.nextId + 1, ⟨b.depth + 1, b.items.filter
            (fun kv => !(indexOf hash t.globalDepth kv.1 % 2 ^ (b.depth + 1)
              == lowOf hash t.globalDepth b))⟩) :: t.store,
        dir := dirMap t.dir.length (fun i =>
          if i % 2 ^ b.depth == lowOf hash t.globalDepth b then
            (if i % 2 ^ (b.depth + 1) == lowOf hash t.globalDepth b
             then t.nextId else t.nextId + 1)
          else t.dir.getD i 0),
        numBuckets := t.numBuckets + 1,
        nextId := t.nextId + 2 } := by
  unfold redistribute
  rw [hb]

/-- The split pivot is the shared low bits of the slots pointing at the
bucket. -/
theorem lowOf_eq (hash : K → Nat) {t : Table K V} (hInv : Inv hash t)
    {i0 : Nat} (hi0 : i0 < t.dir.length) {b : Bucket K V}
    (hb : lookupB t (t.dir.getD i0 0) = some b) (hne : b.items ≠ []) :
    lowOf hash t.globalDepth b = i0 % 2 ^ b.depth := by
  obtain ⟨hlen, hlive, hshare, hdirf, hstoref⟩ := hInv
  have hbat0 : bucketAt t i0 = some b := hb
  have hd0 : depthAt t i0 = b.depth := by unfold depthAt; rw [hbat0]; rfl
  have hitems0 : itemsAt t i0 = b.items := by unfold itemsAt; rw [hbat0]; rfl
  rcases hit : b.items with _ | ⟨kv0, rest⟩
  · exact absurd hit hne
  · have hmem : kv0 ∈ itemsAt t i0 := by
      rw [hitems0, hit]
      exact List.mem_cons_self kv0 rest
    have h2 := (hlive i0 hi0).2.2.1 kv0 hmem
    rw [hd0] at h2
    show (match b.items with
      | [] => 0
      | kv :: _ => indexOf hash t.globalDepth kv.1 % 2 ^ b.depth)
      = i0 % 2 ^ b.depth
    rw [hit]
    exact h2

/-- Per-slot effect of `RedistributeBucket`. -/
theorem bucketAt_redistribute (hash : K → Nat) {t : Table K V}
    (hInv : Inv hash t) {i0 : Nat} (hi0 : i0 < t.dir.length)
    {b : Bucket K V} (hb : lookupB t (t.dir.getD i0 0) = some b)
    (hne : b.items ≠ []) {j : Nat} (hj : j < t.dir.length) :
    bucketAt (redistribute hash t (t.dir.getD i0 0)) j =
      if j % 2 ^ b.depth = i0 % 2 ^ b.depth then
        (if j % 2 ^ (b.depth + 1) = i0 % 2 ^ b.depth then
          some ⟨b.depth + 1, b.items.filter
            (fun kv => indexOf hash t.globalDepth kv.1 % 2 ^ (b.depth + 1)
              == i0 % 2 ^ b.depth)⟩
         else
          some ⟨b.depth + 1, b.items.filter
            (fun kv => !(indexOf hash t.globalDepth kv.1 % 2 ^ (b.depth + 1)
              == i0 % 2 ^ b.depth))⟩)
      else bucketAt t j := by
  have hlow := lowOf_eq hash hInv hi0 hb hne
  obtain ⟨hlen, hlive, hshare, hdirf, hstoref⟩ := hInv
  rw [bucketAt, redistribute_eq hash hb, hlow]
  show lookupB _ ((dirMap t.dir.length _).getD j 0) = _
  rw [dirMap_getD hj]
  have hfresh : t.dir.getD j 0 < t.nextId := hdirf _ (getD_mem_of_lt hj)
  by_cases h1 : j % 2 ^ b.depth = i0 % 2 ^ b.depth
  · rw [if_pos (by simpa using h1), if_pos h1]
    by_cases h2 : j % 2 ^ (b.depth + 1) = i0 % 2 ^ b.depth
    · rw [if_pos (by simpa using h2), if_pos h2]
      show (Option.map Prod.snd (List.find? _ _)) = _
      rw [List.find?_cons_of_pos _ (by simp)]
      rfl
    · rw [if_neg (by simpa using h2), if_neg h2]
      show (Option.map Prod.snd (List.find? _ _)) = _
      rw [List.find?_cons_of_neg _ (by simp), List.find?_cons_of_pos _ (by simp)]
      rfl
  · rw [if_neg (by simpa using h1), if_neg h1]
    show (Option.map Prod.snd (List.find? _ _)) = _
    rw [List.find?_cons_of_neg _ (by simp only [beq_iff_eq]; omega),
      List.find?_cons_of_neg _ (by simp only [beq_iff_eq]; omega)]
    rfl

/-- The directory of a redistributed table, slot by slot. -/
theorem dir_redistribute (hash : K → Nat) {t : Table K V} (hInv : Inv hash t)
    {i0 : Nat} (hi0 : i0 < t.dir.length) {b : Bucket K V}
    (hb : lookupB t (t.dir.getD i0 0) = some b) (hne : b.items ≠ [])
    {j : Nat} (hj : j < t.dir.length) :
    (redistribute hash t (t.dir.getD i0 0)).dir.getD j 0 =
      if j % 2 ^ b.depth = i0 % 2 ^ b.depth then
        (if j % 2 ^ (b.depth + 1) = i0 % 2 ^ b.depth
         then t.nextId else t.nextId + 1)
      else t.dir.getD j 0 := by
  have hlow := lowOf_eq hash hInv hi0 hb hne
  rw [redistribute_eq hash hb]
  show (dirMap t.dir.length _).getD j 0 = _
  rw [dirMap_getD hj, hlow]
  by_cases h1 : j % 2 ^ b.depth = i0 % 2 ^ b.depth
  · rw [if_pos (by simpa using h1), if_pos h1]
    by_cases h2 : j % 2 ^ (b.depth + 1) = i0 % 2 ^ b.depth
    · rw [if_pos (by simpa using h2), if_pos h2]
    · rw [if_neg (by simpa using h2), if_neg h2]
  · rw [if_neg (by simpa using h1), if_neg h1]

/-- Invariant preservation for `RedistributeBucket` on a shallow bucket. -/
theorem inv_redistribute (hash : K → Nat) {t : Table K V} (hInv : Inv hash t)
    {i0 : Nat} (hi0 : i0 < t.dir.length) {b : Bucket K V}
    (hb : lookupB t (t.dir.getD i0 0) = some b) (hne : b.items ≠ [])
    (hd : b.depth < t.globalDepth) :
    Inv hash (redistribute hash t (t.dir.getD i0 0)) := by
  have hBA := fun {j} (hj : j < t.dir.length) =>
    bucketAt_redistribute hash hInv hi0 hb hne hj
  have hDIR := fun {j} (hj : j < t.dir.length) =>
    dir_redistribute hash hInv hi0 hb hne hj
  obtain ⟨hlen, hlive, hshare, hdirf, hstoref⟩ := hInv
  have hbat0 : bucketAt t i0 = some b := hb
  have hd0 : depthAt t i0 = b.depth := by unfold depthAt; rw [hbat0]; rfl
  have hitems0 : itemsAt t i0 = b.items := by unfold itemsAt; rw [hbat0]; rfl
  have hlen' : (redistribute hash t (t.dir.getD i0 0)).dir.length
      = t.dir.length := redistribute_dirLength hash t _
  have hgd' : (redistribute hash t (t.dir.getD i0 0)).globalDepth
      = t.globalDepth := redistribute_globalDepth hash t _
  have hnext' : (redistribute hash t (t.dir.getD i0 0)).nextId
      = t.nextId + 2 := by rw [redistribute_eq hash hb]
  have hstore' : (redistribute hash t (t.dir.getD i0 0)).store =
      (t.nextId, ⟨b.depth + 1, b.items.filter
          (fun kv => indexOf hash t.globalDepth kv.1 % 2 ^ (b.depth + 1)
            == lowOf hash t.globalDepth b)⟩) ::
        (t.nextId + 1, ⟨b.depth + 1, b.items.filter
          (fun kv => !(indexOf hash t.globalDepth kv.1 % 2 ^ (b.depth + 1)
            == lowOf hash t.globalDepth b))⟩) :: t.store := by
    rw [redistribute_eq hash hb]
  have hlowlt : i0 % 2 ^ b.depth < 2 ^ b.depth :=
    Nat.mod_lt _ (Nat.two_pow_pos _)
  have hP1d : ∀ x : Nat, x % 2 ^ (b.depth + 1) = i0 % 2 ^ b.depth →
      x % 2 ^ b.depth = i0 % 2 ^ b.depth := by
    intro x hx
    have h := mod_mod_pow (Nat.le_succ b.depth) x
    rw [hx, Nat.mod_eq_of_lt hlowlt] at h
    exact h.symm
  have hcase2 : ∀ x : Nat, x % 2 ^ b.depth = i0 % 2 ^ b.depth →
      ¬x % 2 ^ (b.depth + 1) = i0 % 2 ^ b.depth →
      x % 2 ^ (b.depth + 1) = i0 % 2 ^ b.depth + 2 ^ b.depth := by
    intro x hx hnx
    rcases mod_pow_succ_cases b.depth x with h | h
    · rw [hx] at h; exact absurd h hnx
    · rw [hx] at h; exact h
  have hF2 : ∀ j, j < t.dir.length →
      (t.dir.getD j 0 = t.dir.getD i0 0 ↔
        j % 2 ^ b.depth = i0 % 2 ^ b.depth) := by
    intro j hj
    have hsh := hshare i0 hi0 j hj
    rw [hd0] at hsh
    constructor
    · intro h
      exact (hsh.mp h.symm).symm
    · intro h
      exact (hsh.mpr h.symm).symm
  have hdepthAt' : ∀ {j : Nat}, j < t.dir.length →
      depthAt (redistribute hash t (t.dir.getD i0 0)) j =
        if j % 2 ^ b.depth = i0 % 2 ^ b.depth then b.depth + 1
        else depthAt t j := by
    intro j hj
    unfold depthAt
    rw [hBA hj]
    by_cases h1 : j % 2 ^ b.depth = i0 % 2 ^ b.depth
    · rw [if_pos h1, if_pos h1]
      by_cases h2 : j % 2 ^ (b.depth + 1) = i0 % 2 ^ b.depth
      · rw [if_pos h2]; rfl
      · rw [if_neg h2]; rfl
    · rw [if_neg h1, if_neg h1]
  refine ⟨?_, ?_, ?_, ?_, ?_⟩
  · rw [hlen', hgd']
    exact hlen
  · intro j hj
    rw [hlen'] at hj
    refine ⟨?_, ?_, ?_, ?_⟩
    · rw [hBA hj]
      by_cases h1 : j % 2 ^ b.depth = i0 % 2 ^ b.depth
      · rw [if_pos h1]
        by_cases h2 : j % 2 ^ (b.depth + 1) = i0 % 2 ^ b.depth
        · rw [if_pos h2]; rfl
        · rw [if_neg h2]; rfl
      · rw [if_neg h1]
        exact (hlive j hj).1
    · rw [hdepthAt' hj, hgd']
      by_cases h1 : j % 2 ^ b.depth = i0 % 2 ^ b.depth
      · rw [if_pos h1]
        omega
      · rw [if_neg h1]
        exact (hlive j hj).2.1
    · intro kv hkv
      rw [show itemsAt (redistribute hash t (t.dir.getD i0 0)) j
          = ((bucketAt (redistribute hash t (t.dir.getD i0 0)) j).map
            Bucket.items).getD [] from rfl, hBA hj] at hkv
      rw [hdepthAt' hj, hgd']
      by_cases h1 : j % 2 ^ b.depth = i0 % 2 ^ b.depth
      · rw [if_pos h1] at hkv ⊢
        by_cases h2 : j % 2 ^ (b.depth + 1) = i0 % 2 ^ b.depth
        · rw [if_pos h2] at hkv
          simp only [Option.map_some', Option.getD_some] at hkv
          obtain ⟨hmem, hcond⟩ := List.mem_filter.mp hkv
          rw [beq_iff_eq] at hcond
          rw [hcond, h2]
        · rw [if_neg h2] at hkv
          simp only [Option.map_some', Option.getD_some] at hkv
          obtain ⟨hmem, hcond⟩ := List.mem_filter.mp hkv
          simp only [Bool.not_eq_true', beq_eq_false_iff_ne, ne_eq] at hcond
          have hkvd : indexOf hash t.globalDepth kv.1 % 2 ^ b.depth
              = i0 % 2 ^ b.depth := by
            have := (hlive i0 hi0).2.2.1 kv (by rw [hitems0]; exact hmem)
            rw [hd0] at this
            rw [this]
          rw [hcase2 _ hkvd hcond, hcase2 _ h1 h2]
      · rw [if_neg h1] at hkv ⊢
        exact (hlive j hj).2.2.1 kv hkv
    · rw [show itemsAt (redistribute hash t (t.dir.getD i0 0)) j
          = ((bucketAt (redistribute hash t (t.dir.getD i0 0)) j).map
            Bucket.items).getD [] from rfl, hBA hj]
      have hnd : (b.items.map Prod.fst).Nodup := by
        have := (hlive i0 hi0).2.2.2
        rw [hitems0] at this
        exact this
      by_cases h1 : j % 2 ^ b.depth = i0 % 2 ^ b.depth
      · rw [if_pos h1]
        by_cases h2 : j % 2 ^ (b.depth + 1) = i0 % 2 ^ b.depth
        · rw [if_pos h2]
          simp only [Option.map_some', Option.getD_some]
          exact hnd.sublist ((List.filter_sublist _).map _)
        · rw [if_neg h2]
          simp only [Option.map_some', Option.getD_some]
          exact hnd.sublist ((List.filter_sublist _).map _)
      · rw [if_neg h1]
        exact (hlive j hj).2.2.2
  · intro i hi j hj
    rw [hlen'] at hi hj
    rw [hDIR hi, hDIR hj, hdepthAt' hi]
    have hfreshi : t.dir.getD i 0 < t.nextId := hdirf _ (getD_mem_of_lt hi)
    have hfreshj : t.dir.getD j 0 < t.nextId := hdirf _ (getD_mem_of_lt hj)
    by_cases hi1 : i % 2 ^ b.depth = i0 % 2 ^ b.depth
    · rw [if_pos hi1, if_pos hi1]
      by_cases hi2 : i % 2 ^ (b.depth + 1) = i0 % 2 ^ b.depth
      · rw [if_pos hi2]
        by_cases hj1 : j % 2 ^ b.depth = i0 % 2 ^ b.depth
        · rw [if_pos hj1]
          by_cases hj2 : j % 2 ^ (b.depth + 1) = i0 % 2 ^ b.depth
          · rw [if_pos hj2]
            simp only [true_iff, iff_true, eq_self_iff_true]
            rw [hi2, hj2]
          · rw [if_neg hj2]
            have h3 := hcase2 _ hj1 hj2
            constructor
            · intro h; omega
            · intro h; rw [hi2, h3] at h; omega
        · rw [if_neg hj1]
          constructor
          · intro h; omega
          · intro h
            rw [hi2] at h
            exact absurd (hP1d _ h.symm) hj1
      · rw [if_neg hi2]
        have hi3 := hcase2 _ hi1 hi2
        by_cases hj1 : j % 2 ^ b.depth = i0 % 2 ^ b.depth
        · rw [if_pos hj1]
          by_cases hj2 : j % 2 ^ (b.depth + 1) = i0 % 2 ^ b.depth
          · rw [if_pos hj2]
            constructor
            · intro h; omega
            · intro h; rw [hi3, hj2] at h; omega
          · rw [if_neg hj2]
            have hj3 := hcase2 _ hj1 hj2
            rw [hi3, hj3]
            simp
        · rw [if_neg hj1]
          constructor
          · intro h; omega
          · intro h
            rw [hi3] at h
            have h4 : j % 2 ^ b.depth = i0 % 2 ^ b.depth := by
              have h5 := mod_mod_pow (Nat.le_succ b.depth) j
              rw [← h, Nat.add_mod_right] at h5
              rw [Nat.mod_eq_of_lt hlowlt] at h5
              exact h5.symm
            exact absurd h4 hj1
    · rw [if_neg hi1, if_neg hi1]
      by_cases hj1 : j % 2 ^ b.depth = i0 % 2 ^ b.depth
      · rw [if_pos hj1]
        have hbidj : t.dir.getD j 0 = t.dir.getD i0 0 := (hF2 j hj).mpr hj1
        have hnoti : ¬t.dir.getD i 0 = t.dir.getD i0 0 := by
          intro h
          exact hi1 ((hF2 i hi).mp h)
        constructor
        · intro h
          by_cases hj2 : j % 2 ^ (b.depth + 1) = i0 % 2 ^ b.depth
          · rw [if_pos hj2] at h; omega
          · rw [if_neg hj2] at h; omega
        · intro h
          have hsh := hshare i hi j hj
          have hdij := hsh.mpr h
          rw [hdij, hbidj] at hnoti
          exact absurd rfl hnoti
      · rw [if_neg hj1]
        exact hshare i hi j hj
  · intro id hid
    rw [hnext']
    rw [redistribute_eq hash hb] at hid
    simp only [dirMap] at hid
    obtain ⟨x, -, rfl⟩ := List.mem_map.mp hid
    by_cases h1 : x % 2 ^ b.depth == lowOf hash t.globalDepth b
    · rw [if_pos h1]
      by_cases h2 : x % 2 ^ (b.depth + 1) == lowOf hash t.globalDepth b
      · rw [if_pos h2]; omega
      · rw [if_neg h2]; omega
    · rw [if_neg h1]
      by_cases hx : x < t.dir.length
      · have := hdirf _ (getD_mem_of_lt hx)
        omega
      · rw [List.getD_eq_getElem?_getD, List.getElem?_eq_none (by omega)]
        simp only [Option.getD_none]
        omega
  · intro p hp
    rw [hnext']
    rw [hstore'] at hp
    rcases List.mem_cons.mp hp with rfl | hp
    · simp only []
      omega
    · rcases List.mem_cons.mp hp with rfl | hp
      · simp only []
        omega
      · have := hstoref p hp
        omega




/-- Splitting a bucket changes no lookup result. -/
theorem find_redistribute (hash : K → Nat) {t : Table K V} (hInv : Inv hash t)
    {i0 : Nat} (hi0 : i0 < t.dir.length) {b : Bucket K V}
    (hb : lookupB t (t.dir.getD i0 0) = some b) (hne : b.items ≠ [])
    (k' : K) :
    find hash (redistribute hash t (t.dir.getD i0 0)) k'
      = find hash t k' := by
  have hBA := fun {j} (hj : j < t.dir.length) =>
    bucketAt_redistribute hash hInv hi0 hb hne hj
  obtain ⟨hlen, hlive, hshare, hdirf, hstoref⟩ := hInv
  have hbat0 : bucketAt t i0 = some b := hb
  have hd0 : depthAt t i0 = b.depth := by unfold depthAt; rw [hbat0]; rfl
  have hF2 : ∀ j, j < t.dir.length →
      (t.dir.getD j 0 = t.dir.getD i0 0 ↔
        j % 2 ^ b.depth = i0 % 2 ^ b.depth) := by
    intro j hj
    have hsh := hshare i0 hi0 j hj
    rw [hd0] at hsh
    constructor
    · intro h
      exact (hsh.mp h.symm).symm
    · intro h
      exact (hsh.mpr h.symm).symm
  have hi' : indexOf hash t.globalDepth k' < t.dir.length :=
    indexOf_lt_dirLength hlen k'
  unfold find
  rw [redistribute_globalDepth hash t (t.dir.getD i0 0)]
  rw [hBA hi']
  by_cases h1 : indexOf hash t.globalDepth k' % 2 ^ b.depth
      = i0 % 2 ^ b.depth
  · have hbid : t.dir.getD (indexOf hash t.globalDepth k') 0
        = t.dir.getD i0 0 := (hF2 _ hi').mpr h1
    have hbat' : bucketAt t (indexOf hash t.globalDepth k') = some b := by
      rw [bucketAt, hbid]
      exact hb
    rw [hbat', if_pos h1]
    by_cases h2 : indexOf hash t.globalDepth k' % 2 ^ (b.depth + 1)
        = i0 % 2 ^ b.depth
    · rw [if_pos h2]
      show Bucket.find _ k' = Bucket.find b k'
      rw [Bucket.find, Bucket.find]
      refine congrArg _ (find?_filter_of_imp _ _ _ ?_)
      intro kv hkv
      rw [beq_iff_eq] at hkv
      rw [hkv]
      simp only [beq_iff_eq]
      exact h2
    · rw [if_neg h2]
      show Bucket.find _ k' = Bucket.find b k'
      rw [Bucket.find, Bucket.find]
      refine congrArg _ (find?_filter_of_imp _ _ _ ?_)
      intro kv hkv
      rw [beq_iff_eq] at hkv
      rw [hkv]
      simp only [Bool.not_eq_true']
      simp only [beq_eq_false_iff_ne, ne_eq]
      exact h2
  · rw [if_neg h1]

/-- Combined postcondition of a completed `InsertInternal`: the invariant
is preserved and no other key's lookup changes. -/
theorem insertInternal_post (hash : K → Nat) :
    ∀ (fuel : Nat) (t t' : Table K V) (k : K) (v : V),
      1 ≤ t.bucketSize → Inv hash t →
      insertInternal hash fuel t k v = some t' →
      Inv hash t' ∧ ∀ k' : K, ¬k' = k →
        find hash t' k' = find hash t k' := by
  intro fuel
  induction fuel with
  | zero => intro t t' k v _ _ h; exact absurd h (by simp [insertInternal])
  | succ fuel ih =>
    intro t t' k v hbsz hInv h
    have hlen : t.dir.length = 2 ^ t.globalDepth := hInv.1
    simp only [insertInternal] at h
    split at h
    · exact absurd h (by simp)
    · rename_i b hb
      split at h
      · rename_i b' hbi
        obtain rfl : updateB t (t.dir.getD (indexOf hash t.globalDepth k) 0)
            b' = t' := by injection h
        refine ⟨inv_updateB hash hInv k v hb hbi, ?_⟩
        intro k' hk'
        unfold find
        rw [show (updateB t (t.dir.getD (indexOf hash t.globalDepth k) 0)
            b').globalDepth = t.globalDepth from rfl]
        rw [bucketAt_updateB hb b']
        by_cases hsame : t.dir.getD (indexOf hash t.globalDepth k') 0
            = t.dir.getD (indexOf hash t.globalDepth k) 0
        · rw [if_pos hsame]
          rw [show bucketAt t (indexOf hash t.globalDepth k')
              = lookupB t (t.dir.getD (indexOf hash t.globalDepth k') 0)
              from rfl, hsame, hb]
          simpa using bucketInsert_find_ne hk' hbi
        · rw [if_neg hsame]
      · have hfull := bucketInsert_none (by assumption)
        have hne : b.items ≠ [] := by
          intro hemp
          rw [hemp] at hfull
          simp only [List.length_nil] at hfull
          omega
        have hi0 : indexOf hash t.globalDepth k < t.dir.length :=
          indexOf_lt_dirLength hlen k
        have hbdep : b.depth ≤ t.globalDepth := by
          have h2 := (hInv.2.1 _ hi0).2.1
          have h3 : depthAt t (indexOf hash t.globalDepth k) = b.depth := by
            unfold depthAt
            rw [show bucketAt t (indexOf hash t.globalDepth k)
                = lookupB t (t.dir.getD (indexOf hash t.globalDepth k) 0)
                from rfl, hb]
            rfl
          rw [h3] at h2
          exact h2
        split at h
        · rename_i hdlt
          have hInv' := inv_redistribute hash hInv hi0 hb hne hdlt
          have hbsz' : 1 ≤ (redistribute hash t
              (t.dir.getD (indexOf hash t.globalDepth k) 0)).bucketSize := by
            rw [redistribute_bucketSize]
            exact hbsz
          obtain ⟨hI, hF⟩ := ih _ _ _ _ hbsz' hInv' h
          refine ⟨hI, fun k' hk' => ?_⟩
          rw [hF k' hk', find_redistribute hash hInv hi0 hb hne k']
        · have hInvD := inv_doubleDir hash hInv
          have hixlt : indexOf hash t.globalDepth k < 2 ^ t.globalDepth :=
            Nat.mod_lt _ (Nat.two_pow_pos _)
          have hi0' : indexOf hash t.globalDepth k
              < 2 ^ (t.globalDepth + 1) :=
            Nat.lt_of_lt_of_le hixlt
              (Nat.pow_le_pow_right (by norm_num) (Nat.le_succ _))
          have hstep : (doubleDir t).dir.getD
              (indexOf hash t.globalDepth k) 0
              = t.dir.getD (indexOf hash t.globalDepth k) 0 := by
            rw [show (doubleDir t).dir = dirMap (2 ^ (t.globalDepth + 1))
                (fun i => t.dir.getD (i % 2 ^ t.globalDepth) 0) from rfl,
              dirMap_getD hi0']
            rw [Nat.mod_eq_of_lt hixlt]
          rw [← hstep] at h
          have hlookup : lookupB (doubleDir t) ((doubleDir t).dir.getD
              (indexOf hash t.globalDepth k) 0) = some b := by
            rw [hstep]
            exact hb
          have hi0'' : indexOf hash t.globalDepth k
              < (doubleDir t).dir.length := by
            rw [show (doubleDir t).dir = dirMap (2 ^ (t.globalDepth + 1))
                (fun i => t.dir.getD (i % 2 ^ t.globalDepth) 0) from rfl,
              dirMap_length]
            exact hi0'
          have hdlt' : b.depth < (doubleDir t).globalDepth := by
            show b.depth < t.globalDepth + 1
            omega
          have hInv' := inv_redistribute hash hInvD hi0'' hlookup hne hdlt'
          have hbsz' : 1 ≤ (redistribute hash (doubleDir t)
              ((doubleDir t).dir.getD (indexOf hash t.globalDepth k) 0)
              ).bucketSize := by
            rw [redistribute_bucketSize]
            exact hbsz
          obtain ⟨hI, hF⟩ := ih _ _ _ _ hbsz' hInv' h
          refine ⟨hI, fun k' hk' => ?_⟩
          rw [hF k' hk',
            find_redistribute hash hInvD hi0'' hlookup hne k',
            find_doubleDir hash hlen k']

/-- **C7**: after every completed insert from an invariant-satisfying
table with positive bucket capacity, the directory length is
`2 ^ global_depth`, every slot points at a live bucket whose local depth is
at most the global depth, and two slots share a bucket exactly when their
low `local_depth` bits agree (so the slots pointing at any bucket are
exactly those matching one fixed discriminator). -/
theorem eht_insert_invariants {K V : Type} [DecidableEq K] (hash : K → Nat)
    (fuel : Nat) (t t' : Table K V) (k : K) (v : V)
    (hbsz : 1 ≤ t.bucketSize) (hInv : Inv hash t)
    (h : insertInternal hash fuel t k v = some t') :
    t'.dir.length = 2 ^ t'.globalDepth
    ∧ (∀ i < t'.dir.length, (bucketAt t' i).isSome = true
        ∧ depthAt t' i ≤ t'.globalDepth)
    ∧ (∀ i < t'.dir.length, ∀ j < t'.dir.length,
        (t'.dir.getD i 0 = t'.dir.getD j 0 ↔
          i % 2 ^ depthAt t' i = j % 2 ^ depthAt t' i))
    ∧ Inv hash t' := by
  have hI := (insertInternal_post hash fuel t t' k v hbsz hInv h).1
  exact ⟨hI.1, fun i hi => ⟨(hI.2.1 i hi).1, (hI.2.1 i hi).2.1⟩,
    hI.2.2.1, hI⟩

/-- Witness for C7: one insert into a fresh two-slot table. -/
theorem eht_insert_invariants_witness :
    ((EHT.insertInternal natHash 5 (Table.init 2 : Table Nat Nat) 0 100).getD
      (Table.init 2)).dir.length =
      2 ^ ((EHT.insertInternal natHash 5 (Table.init 2 : Table Nat Nat) 0
        100).getD (Table.init 2)).globalDepth := by
  have h := eht_insert_invariants natHash 5 (Table.init 2)
    ((EHT.insertInternal natHash 5 (Table.init 2 : Table Nat Nat) 0
      100).getD (Table.init 2)) 0 100 (by decide) (by decide) (by decide)
  exact h.1

/-- **C8**: after a completed insert the key is findable with the inserted
value; an insert of a present key overwrites in place (one step, no
directory growth, no new bucket — even if the bucket is full); and in the
concrete scenario `bucket_size = 2`, `global_depth = 0`, inserting three
distinctly-hashed keys gives `global_depth ≥ 1`, `num_buckets ≥ 2`, and
all three keys findable. -/
theorem eht_insert_find {K V : Type} [DecidableEq K] (hash : K → Nat) :
    (∀ (fuel : Nat) (t t' : Table K V) (k : K) (v : V),
        insertInternal hash fuel t k v = some t' →
          find hash t' k = some v)
    ∧ (∀ (t : Table K V) (k : K) (w v : V), find hash t k = some w →
        ∃ t', insertInternal hash 1 t k v = some t'
          ∧ t'.globalDepth = t.globalDepth
          ∧ t'.numBuckets = t.numBuckets
          ∧ find hash t' k = some v)
    ∧ (1 ≤ egT3.globalDepth ∧ 2 ≤ egT3.numBuckets
        ∧ find natHash egT3 0 = some 100
        ∧ find natHash egT3 1 = some 101
        ∧ find natHash egT3 2 = some 102) := by
  refine ⟨fun fuel t t' k v h => find_insertInternal_self hash fuel t t' k v h,
    ?_, by decide⟩
  intro t k w v hfind
  unfold find at hfind
  rcases hbat : bucketAt t (indexOf hash t.globalDepth k) with _ | b
  · rw [hbat] at hfind
    exact absurd hfind (by simp)
  · rw [hbat] at hfind
    have hbf : b.find k = some w := hfind
    have hany : b.items.any (fun kv => kv.1 == k) = true := by
      rw [Bucket.find] at hbf
      rcases hfq : b.items.find? (fun kv => kv.1 == k) with _ | q
      · rw [hfq] at hbf; exact absurd hbf (by simp)
      · have hq := List.find?_some hfq
        exact List.any_eq_true.mpr ⟨q, List.mem_of_find?_eq_some hfq, hq⟩
    have hbi : bucketInsert t.bucketSize b k v =
        some { b with items := overwriteKey k v b.items } := by
      unfold bucketInsert
      rw [if_pos hany]
    have hstep : insertInternal hash 1 t k v = some (updateB t
        (t.dir.getD (indexOf hash t.globalDepth k) 0)
        { b with items := overwriteKey k v b.items }) := by
      simp only [insertInternal]
      rw [show lookupB t (t.dir.getD (indexOf hash t.globalDepth k) 0)
          = some b from hbat]
      simp only [hbi]
    refine ⟨_, hstep, rfl, rfl,
      find_insertInternal_self hash 1 t _ k v hstep⟩

/-- Witness for C8 at concrete inputs. -/
theorem eht_insert_find_witness :
    find natHash ((EHT.insertInternal natHash 5
      (Table.init 2 : Table Nat Nat) 7 42).getD (Table.init 2)) 7
      = some 42 := by
  exact (eht_insert_find natHash).1 5 (Table.init 2)
    ((EHT.insertInternal natHash 5 (Table.init 2 : Table Nat Nat) 7 42).getD
      (Table.init 2)) 7 42 (by decide)



theorem mem_overwriteKey_cases {k : K} {v : V} {l : List (K × V)}
    {kv : K × V} (h : kv ∈ overwriteKey k v l) :
    kv ∈ l ∨ kv = (k, v) := by
  induction l with
  | nil => simp [overwriteKey] at h
  | cons kv0 rest ih =>
    by_cases hk : kv0.1 = k
    · rw [overwriteKey, if_pos (by simpa using hk)] at h
      rcases List.mem_cons.mp h with h | h
      · right
        rw [h, hk]
      · left
        exact List.mem_cons_of_mem _ h
    · rw [overwriteKey, if_neg (by simpa using hk)] at h
      rcases List.mem_cons.mp h with h | h
      · left
        rw [h]
        exact List.mem_cons_self _ _
      · rcases ih h with h | h
        · exact Or.inl (List.mem_cons_of_mem _ h)
        · exact Or.inr h

theorem find_mem {hash : K → Nat} {t : Table K V} {k : K} {v : V}
    (h : find hash t k = some v) :
    (k, v) ∈ itemsAt t (indexOf hash t.globalDepth k) := by
  unfold find at h
  rcases hbat : bucketAt t (indexOf hash t.globalDepth k) with _ | b
  · rw [hbat] at h; exact absurd h (by simp)
  · rw [hbat] at h
    have hbf : b.find k = some v := h
    rw [Bucket.find] at hbf
    rcases hfq : b.items.find? (fun kv => kv.1 == k) with _ | q
    · rw [hfq] at hbf; exact absurd hbf (by simp)
    · rw [hfq] at hbf
      have hk : q.1 = k := by simpa using List.find?_some hfq
      have hv : q.2 = v := by simpa using hbf
      have : q = (k, v) := Prod.ext hk hv
      rw [show itemsAt t (indexOf hash t.globalDepth k)
          = ((bucketAt t (indexOf hash t.globalDepth k)).map
            Bucket.items).getD [] from rfl, hbat]
      simp only [Option.map_some', Option.getD_some]
      rw [← this]
      exact List.mem_of_find?_eq_some hfq

theorem removeKey_none {k : K} {l : List (K × V)}
    (h : removeKey k l = none) :
    l.find? (fun kv => kv.1 == k) = none := by
  induction l with
  | nil => rfl
  | cons kv rest ih =>
    by_cases hk : kv.1 = k
    · rw [removeKey, if_pos (by simpa using hk)] at h
      exact absurd h (by simp)
    · rw [removeKey, if_neg (by simpa using hk)] at h
      rw [List.find?_cons_of_neg _ (by simpa using hk)]
      rcases hrec : removeKey k rest with _ | m
      · exact ih hrec
      · rw [hrec] at h; exact absurd h (by simp)

/-- What `Remove` produces. -/
theorem remove_spec (hash : K → Nat) (t : Table K V) (k : K) :
    (remove hash t k).2 = t ∨
    ∃ b items',
      lookupB t (t.dir.getD (indexOf hash t.globalDepth k) 0) = some b
      ∧ removeKey k b.items = some items'
      ∧ (remove hash t k).2 = updateB t
          (t.dir.getD (indexOf hash t.globalDepth k) 0)
          { b with items := items' } := by
  rcases hb : lookupB t (t.dir.getD (indexOf hash t.globalDepth k) 0)
    with _ | b
  · left
    unfold remove
    simp only [hb]
  · rcases hrk : removeKey k b.items with _ | items'
    · left
      unfold remove
      simp only [hb, hrk]
    · right
      refine ⟨b, items', rfl, hrk, ?_⟩
      unfold remove
      simp only [hb, hrk]

theorem remove_globalDepth (hash : K → Nat) (t : Table K V) (k : K) :
    (remove hash t k).2.globalDepth = t.globalDepth := by
  rcases remove_spec hash t k with h | ⟨b, items', -, -, h⟩ <;> rw [h] <;> rfl

theorem remove_dir (hash : K → Nat) (t : Table K V) (k : K) :
    (remove hash t k).2.dir = t.dir := by
  rcases remove_spec hash t k with h | ⟨b, items', -, -, h⟩ <;> rw [h] <;> rfl

theorem remove_bucketSize (hash : K → Nat) (t : Table K V) (k : K) :
    (remove hash t k).2.bucketSize = t.bucketSize := by
  rcases remove_spec hash t k with h | ⟨b, items', -, -, h⟩ <;> rw [h] <;> rfl

/-- Invariant preservation for `Remove`. -/
theorem inv_remove (hash : K → Nat) {t : Table K V} (hInv : Inv hash t)
    (k : K) : Inv hash (remove hash t k).2 := by
  rcases remove_spec hash t k with h | ⟨b, items', hb, hrk, h⟩
  · rw [h]; exact hInv
  · rw [h]
    obtain ⟨hlen, hlive, hshare, hdirf, hstoref⟩ := hInv
    have hsub := removeKey_sublist hrk
    have hdepthAt : ∀ j, depthAt (updateB t
        (t.dir.getD (indexOf hash t.globalDepth k) 0)
        { b with items := items' }) j = depthAt t j := by
      intro j
      unfold depthAt
      rw [bucketAt_updateB hb]
      by_cases hj : t.dir.getD j 0
          = t.dir.getD (indexOf hash t.globalDepth k) 0
      · rw [if_pos hj]
        rw [bucketAt, hj, hb]
        rfl
      · rw [if_neg hj]
    refine ⟨hlen, ?_, ?_, hdirf, ?_⟩
    · intro i hi
      have hl := hlive i hi
      refine ⟨?_, ?_, ?_, ?_⟩
      · rw [bucketAt_updateB hb]
        by_cases hj : t.dir.getD i 0
            = t.dir.getD (indexOf hash t.globalDepth k) 0
        · rw [if_pos hj]; rfl
        · rw [if_neg hj]; exact hl.1
      · rw [hdepthAt]
        exact hl.2.1
      · intro kv hkv
        rw [show itemsAt (updateB t
            (t.dir.getD (indexOf hash t.globalDepth k) 0)
            { b with items := items' }) i = ((bucketAt (updateB t
              (t.dir.getD (indexOf hash t.globalDepth k) 0)
              { b with items := items' }) i).map Bucket.items).getD []
            from rfl, bucketAt_updateB hb] at hkv
        rw [hdepthAt, show (updateB t
            (t.dir.getD (indexOf hash t.globalDepth k) 0)
            { b with items := items' }).globalDepth = t.globalDepth from rfl]
        by_cases hj : t.dir.getD i 0
            = t.dir.getD (indexOf hash t.globalDepth k) 0
        · rw [if_pos hj] at hkv
          simp only [Option.map_some', Option.getD_some] at hkv
          have hkv' : kv ∈ b.items := hsub.mem hkv
          have hbi : itemsAt t i = b.items := by
            rw [show itemsAt t i = ((bucketAt t i).map Bucket.items).getD []
              from rfl, bucketAt, hj, hb]
            rfl
          exact hl.2.2.1 kv (by rw [hbi]; exact hkv')
        · rw [if_neg hj] at hkv
          exact hl.2.2.1 kv hkv
      · rw [show itemsAt (updateB t
            (t.dir.getD (indexOf hash t.globalDepth k) 0)
            { b with items := items' }) i = ((bucketAt (updateB t
              (t.dir.getD (indexOf hash t.globalDepth k) 0)
              { b with items := items' }) i).map Bucket.items).getD []
            from rfl, bucketAt_updateB hb]
        by_cases hj : t.dir.getD i 0
            = t.dir.getD (indexOf hash t.globalDepth k) 0
        · rw [if_pos hj]
          simp only [Option.map_some', Option.getD_some]
          have hbi : itemsAt t i = b.items := by
            rw [show itemsAt t i = ((bucketAt t i).map Bucket.items).getD []
              from rfl, bucketAt, hj, hb]
            rfl
          have hnd : (b.items.map Prod.fst).Nodup := by
            rw [← hbi]
            exact hl.2.2.2
          exact hnd.sublist (hsub.map _)
        · rw [if_neg hj]
          exact hl.2.2.2
    · intro i hi j hj
      rw [show (updateB t (t.dir.getD (indexOf hash t.globalDepth k) 0)
          { b with items := items' }).dir = t.dir from rfl, hdepthAt]
      exact hshare i hi j hj
    · intro p hp
      have h1 : p.1 ∈ (storeUpdate
          (t.dir.getD (indexOf hash t.globalDepth k) 0)
          { b with items := items' } t.store).map Prod.fst :=
        List.mem_map.mpr ⟨p, hp, rfl⟩
      rw [storeUpdate_fst] at h1
      obtain ⟨q, hq, hfst⟩ := List.mem_map.mp h1
      rw [← hfst]
      exact hstoref q hq

/-- Under the invariant, every reachable item with key `k` lives in the
bucket of `k`'s own directory slot. -/
theorem key_slot_shares (hash : K → Nat) {t : Table K V} (hInv : Inv hash t)
    (k : K) {j : Nat} (hj : j < t.dir.length) {kv : K × V}
    (hkv : kv ∈ itemsAt t j) (hk : kv.1 = k) :
    t.dir.getD j 0 = t.dir.getD (indexOf hash t.globalDepth k) 0 := by
  obtain ⟨hlen, hlive, hshare, -, -⟩ := hInv
  have histar : indexOf hash t.globalDepth k < t.dir.length :=
    indexOf_lt_dirLength hlen k
  have hcond := (hlive j hj).2.2.1 kv hkv
  rw [hk] at hcond
  exact (hshare j hj (indexOf hash t.globalDepth k) histar).mpr hcond.symm

/-- Items of the state after `Remove` were already present at the same
slot. -/
theorem mem_remove (hash : K → Nat) (t : Table K V) (k : K) {j : Nat}
    {kv : K × V} (hkv : kv ∈ itemsAt (remove hash t k).2 j) :
    kv ∈ itemsAt t j := by
  rcases remove_spec hash t k with h | ⟨b, items', hb, hrk, h⟩
  · rw [h] at hkv; exact hkv
  · rw [h] at hkv
    rw [show itemsAt (updateB t (t.dir.getD (indexOf hash t.globalDepth k) 0)
        { b with items := items' }) j
        = ((bucketAt (updateB t (t.dir.getD (indexOf hash t.globalDepth k) 0)
          { b with items := items' }) j).map Bucket.items).getD [] from rfl,
      bucketAt_updateB hb] at hkv
    by_cases hbid : t.dir.getD j 0
        = t.dir.getD (indexOf hash t.globalDepth k) 0
    · rw [if_pos hbid] at hkv
      simp only [Option.map_some', Option.getD_some] at hkv
      have hkv' : kv ∈ b.items := (removeKey_sublist hrk).mem hkv
      rw [show itemsAt t j = ((bucketAt t j).map Bucket.items).getD []
        from rfl, bucketAt, hbid, hb]
      simpa using hkv'
    · rw [if_neg hbid] at hkv
      exact hkv

/-- After `Remove`, the key is absent from every reachable bucket. -/
theorem not_mem_remove_self (hash : K → Nat) {t : Table K V}
    (hInv : Inv hash t) (k : K) {j : Nat} (hj : j < t.dir.length)
    {kv : K × V} (hkv : kv ∈ itemsAt (remove hash t k).2 j) :
    ¬kv.1 = k := by
  intro hk
  have hlen := hInv.1
  have histar : indexOf hash t.globalDepth k < t.dir.length :=
    indexOf_lt_dirLength hlen k
  have hsome := (hInv.2.1 _ histar).1
  rcases hb : lookupB t (t.dir.getD (indexOf hash t.globalDepth k) 0)
    with _ | b
  · rw [show bucketAt t (indexOf hash t.globalDepth k)
      = lookupB t (t.dir.getD (indexOf hash t.globalDepth k) 0) from rfl,
      hb] at hsome
    exact absurd hsome (by simp)
  · rcases hrk : removeKey k b.items with _ | items'
    · have heq : (remove hash t k).2 = t := by
        unfold remove
        simp only [hb, hrk]
      rw [heq] at hkv
      have hsh := key_slot_shares hash hInv k hj hkv hk
      have hitems : itemsAt t j = b.items := by
        rw [show itemsAt t j = ((bucketAt t j).map Bucket.items).getD []
          from rfl, bucketAt, hsh, hb]
        rfl
      rw [hitems] at hkv
      have hnone := List.find?_eq_none.mp (removeKey_none hrk) kv hkv
      simp [hk] at hnone
    · have heq : (remove hash t k).2 = updateB t
          (t.dir.getD (indexOf hash t.globalDepth k) 0)
          { b with items := items' } := by
        unfold remove
        simp only [hb, hrk]
      rw [heq] at hkv
      rw [show itemsAt (updateB t
          (t.dir.getD (indexOf hash t.globalDepth k) 0)
          { b with items := items' }) j
          = ((bucketAt (updateB t
            (t.dir.getD (indexOf hash t.globalDepth k) 0)
            { b with items := items' }) j).map Bucket.items).getD []
          from rfl, bucketAt_updateB hb] at hkv
      by_cases hbid : t.dir.getD j 0
          = t.dir.getD (indexOf hash t.globalDepth k) 0
      · rw [if_pos hbid] at hkv
        simp only [Option.map_some', Option.getD_some] at hkv
        have hitems : itemsAt t (indexOf hash t.globalDepth k) = b.items := by
          rw [show itemsAt t (indexOf hash t.globalDepth k)
            = ((bucketAt t (indexOf hash t.globalDepth k)).map
              Bucket.items).getD [] from rfl, bucketAt, hb]
          rfl
        have hnd : (b.items.map Prod.fst).Nodup := by
          rw [← hitems]
          exact (hInv.2.1 _ histar).2.2.2
        have hnone := List.find?_eq_none.mp (removeKey_nodup_none hnd hrk)
          kv hkv
        simp [hk] at hnone
      · rw [if_neg hbid] at hkv
        exact hbid (key_slot_shares hash hInv k hj hkv hk)

theorem mem_doubleDir {t : Table K V}
    (hlen : t.dir.length = 2 ^ t.globalDepth) {j : Nat}
    (hj : j < (doubleDir t).dir.length) {kv : K × V}
    (hkv : kv ∈ itemsAt (doubleDir t) j) :
    ∃ i, i < t.dir.length ∧ kv ∈ itemsAt t i := by
  have hj' : j < 2 ^ (t.globalDepth + 1) := by
    rw [show (doubleDir t).dir = dirMap (2 ^ (t.globalDepth + 1))
        (fun i => t.dir.getD (i % 2 ^ t.globalDepth) 0) from rfl,
      dirMap_length] at hj
    exact hj
  refine ⟨j % 2 ^ t.globalDepth,
    by rw [hlen]; exact Nat.mod_lt _ (Nat.two_pow_pos _), ?_⟩
  rw [show itemsAt t (j % 2 ^ t.globalDepth)
      = ((bucketAt t (j % 2 ^ t.globalDepth)).map Bucket.items).getD []
      from rfl, ← bucketAt_doubleDir hj']
  exact hkv

theorem mem_redistribute (hash : K → Nat) {t : Table K V} (hInv : Inv hash t)
    {i0 : Nat} (hi0 : i0 < t.dir.length) {b : Bucket K V}
    (hb : lookupB t (t.dir.getD i0 0) = some b) (hne : b.items ≠ [])
    {j : Nat} (hj : j < (redistribute hash t (t.dir.getD i0 0)).dir.length)
    {kv : K × V}
    (hkv : kv ∈ itemsAt (redistribute hash t (t.dir.getD i0 0)) j) :
    ∃ i, i < t.dir.length ∧ kv ∈ itemsAt t i := by
  have hjlen : j < t.dir.length := by
    rwa [redistribute_dirLength] at hj
  rw [show itemsAt (redistribute hash t (t.dir.getD i0 0)) j
      = ((bucketAt (redistribute hash t (t.dir.getD i0 0)) j).map
        Bucket.items).getD [] from rfl,
    bucketAt_redistribute hash hInv hi0 hb hne hjlen] at hkv
  have hbitems : itemsAt t i0 = b.items := by
    rw [show itemsAt t i0 = ((bucketAt t i0).map Bucket.items).getD []
      from rfl, bucketAt, hb]
    rfl
  by_cases h1 : j % 2 ^ b.depth = i0 % 2 ^ b.depth
  · rw [if_pos h1] at hkv
    by_cases h2 : j % 2 ^ (b.depth + 1) = i0 % 2 ^ b.depth
    · rw [if_pos h2] at hkv
      simp only [Option.map_some', Option.getD_some] at hkv
      exact ⟨i0, hi0, by rw [hbitems]; exact List.mem_of_mem_filter hkv⟩
    · rw [if_neg h2] at hkv
      simp only [Option.map_some', Option.getD_some] at hkv
      exact ⟨i0, hi0, by rw [hbitems]; exact List.mem_of_mem_filter hkv⟩
  · rw [if_neg h1] at hkv
    exact ⟨j, hjlen, hkv⟩

/-- Items of a completed `InsertInternal` were already present or are the
inserted pair. -/
theorem mem_insertInternal (hash : K → Nat) :
    ∀ (fuel : Nat) (t t' : Table K V) (k : K) (v : V),
      1 ≤ t.bucketSize → Inv hash t →
      insertInternal hash fuel t k v = some t' →
      ∀ j, j < t'.dir.length → ∀ kv ∈ itemsAt t' j,
        (∃ i, i < t.dir.length ∧ kv ∈ itemsAt t i) ∨ kv = (k, v) := by
  intro fuel
  induction fuel with
  | zero => intro t t' k v _ _ h; exact absurd h (by simp [insertInternal])
  | succ fuel ih =>
    intro t t' k v hbsz hInv h
    have hlen : t.dir.length = 2 ^ t.globalDepth := hInv.1
    have hi0 : indexOf hash t.globalDepth k < t.dir.length :=
      indexOf_lt_dirLength hlen k
    simp only [insertInternal] at h
    split at h
    · exact absurd h (by simp)
    · rename_i b hb
      split at h
      · rename_i b' hbi
        obtain rfl : updateB t (t.dir.getD (indexOf hash t.globalDepth k) 0)
            b' = t' := by injection h
        intro j hj kv hkv
        have hjt : j < t.dir.length := hj
        rw [show itemsAt (updateB t
            (t.dir.getD (indexOf hash t.globalDepth k) 0) b') j
            = ((bucketAt (updateB t
              (t.dir.getD (indexOf hash t.globalDepth k) 0) b') j).map
              Bucket.items).getD [] from rfl,
          bucketAt_updateB hb] at hkv
        have hbitems : itemsAt t (indexOf hash t.globalDepth k) = b.items := by
          rw [show itemsAt t (indexOf hash t.globalDepth k)
            = ((bucketAt t (indexOf hash t.globalDepth k)).map
              Bucket.items).getD [] from rfl, bucketAt, hb]
          rfl
        by_cases hbid : t.dir.getD j 0
            = t.dir.getD (indexOf hash t.globalDepth k) 0
        · rw [if_pos hbid] at hkv
          simp only [Option.map_some', Option.getD_some] at hkv
          obtain ⟨-, hc | hc⟩ := bucketInsert_cases hbi
          · rw [hc.2] at hkv
            rcases mem_overwriteKey_cases hkv with hm | hm
            · exact Or.inl ⟨indexOf hash t.globalDepth k, hi0,
                by rw [hbitems]; exact hm⟩
            · exact Or.inr hm
          · rw [hc.2.2] at hkv
            rcases List.mem_append.mp hkv with hm | hm
            · exact Or.inl ⟨indexOf hash t.globalDepth k, hi0,
                by rw [hbitems]; exact hm⟩
            · exact Or.inr (by simpa using hm)
        · rw [if_neg hbid] at hkv
          exact Or.inl ⟨j, hjt, hkv⟩
      · have hfull := bucketInsert_none (by assumption)
        have hne : b.items ≠ [] := by
          intro hemp
          rw [hemp] at hfull
          simp only [List.length_nil] at hfull
          omega
        split at h
        · rename_i hdlt
          have hInv' := inv_redistribute hash hInv hi0 hb hne hdlt
          have hbsz' : 1 ≤ (redistribute hash t
              (t.dir.getD (indexOf hash t.globalDepth k) 0)).bucketSize := by
            rw [redistribute_bucketSize]
            exact hbsz
          intro j hj kv hkv
          rcases ih _ _ _ _ hbsz' hInv' h j hj kv hkv with ⟨i, hi, hmi⟩ | heq
          · exact Or.inl (mem_redistribute hash hInv hi0 hb hne hi hmi)
          · exact Or.inr heq
        · have hInvD := inv_doubleDir hash hInv
          have hixlt : indexOf hash t.globalDepth k < 2 ^ t.globalDepth :=
            Nat.mod_lt _ (Nat.two_pow_pos _)
          have hi0' : indexOf hash t.globalDepth k
              < 2 ^ (t.globalDepth + 1) :=
            Nat.lt_of_lt_of_le hixlt
              (Nat.pow_le_pow_right (by norm_num) (Nat.le_succ _))
          have hstep : (doubleDir t).dir.getD
              (indexOf hash t.globalDepth k) 0
              = t.dir.getD (indexOf hash t.globalDepth k) 0 := by
            rw [show (doubleDir t).dir = dirMap (2 ^ (t.globalDepth + 1))
                (fun i => t.dir.getD (i % 2 ^ t.globalDepth) 0) from rfl,
              dirMap_getD hi0']
            rw [Nat.mod_eq_of_lt hixlt]
          rw [← hstep] at h
          have hlookup : lookupB (doubleDir t) ((doubleDir t).dir.getD
              (indexOf hash t.globalDepth k) 0) = some b := by
            rw [hstep]
            exact hb
          have hi0'' : indexOf hash t.globalDepth k
              < (doubleDir t).dir.length := by
            rw [show (doubleDir t).dir = dirMap (2 ^ (t.globalDepth + 1))
                (fun i => t.dir.getD (i % 2 ^ t.globalDepth) 0) from rfl,
              dirMap_length]
            exact hi0'
          have hbdep : b.depth ≤ t.globalDepth := by
            have h2 := (hInv.2.1 _ hi0).2.1
            have h3 : depthAt t (indexOf hash t.globalDepth k) = b.depth := by
              unfold depthAt
              rw [show bucketAt t (indexOf hash t.globalDepth k)
                  = lookupB t (t.dir.getD (indexOf hash t.globalDepth k) 0)
                  from rfl, hb]
              rfl
            rw [h3] at h2
            exact h2
          have hInv' := inv_redistribute hash hInvD hi0'' hlookup hne
            (by show b.depth < t.globalDepth + 1; omega)
          have hbsz' : 1 ≤ (redistribute hash (doubleDir t)
              ((doubleDir t).dir.getD (indexOf hash t.globalDepth k) 0)
              ).bucketSize := by
            rw [redistribute_bucketSize]
            exact hbsz
          intro j hj kv hkv
          rcases ih _ _ _ _ hbsz' hInv' h j hj kv hkv with ⟨i, hi, hmi⟩ | heq
          · obtain ⟨i2, hi2, hmi2⟩ :=
              mem_redistribute hash hInvD hi0'' hlookup hne hi hmi
            exact Or.inl (mem_doubleDir hlen hi2 hmi2)
          · exact Or.inr heq

end EHT

/-! ## Replacer bookkeeping lemmas used by the buffer-pool invariant -/

namespace LRUK

theorem inPool_eq_ids (g : Nat) (l : List FrameInfo) :
    inPool g l = (l.map FrameInfo.frameId).any (fun i => i == g) := by
  unfold inPool
  induction l with
  | nil => rfl
  | cons f rest ih =>
    simp only [List.any_cons, List.map_cons]
    rw [ih]

theorem map_eraseId (fid : Nat) (l : List FrameInfo) :
    (eraseId fid l).map FrameInfo.frameId
      = (l.map FrameInfo.frameId).erase fid := by
  induction l with
  | nil => rfl
  | cons f rest ih =>
    by_cases h : f.frameId = fid
    · rw [eraseId, if_pos (by simpa using h), List.map_cons, h,
        List.erase_cons_head]
    · rw [eraseId, if_neg (by simpa using h), List.map_cons, List.map_cons,
        List.erase_cons_tail, ih]
      simpa using h

theorem evictFrom_mem_fst {l : List FrameInfo} {fid : Nat}
    {l' : List FrameInfo} (h : evictFrom l = some (fid, l')) :
    fid ∈ l.map FrameInfo.frameId := by
  induction l generalizing l' with
  | nil => exact absurd h (by simp [evictFrom])
  | cons f rest ih =>
    rw [evictFrom] at h
    by_cases hev : f.evictable = true
    · rw [if_pos hev] at h
      obtain ⟨h1, -⟩ := Prod.mk.injEq .. ▸ Option.some.inj h
      rw [List.map_cons, h1]
      exact List.mem_cons_self _ _
    · rw [if_neg hev] at h
      rcases hr : evictFrom rest with _ | ⟨q, m⟩
      · rw [hr] at h
        exact absurd h (by simp)
      · rw [hr] at h
        obtain ⟨h1, -⟩ := Prod.mk.injEq .. ▸ Option.some.inj h
        have hq : q = fid := h1
        have hrest : evictFrom rest = some (fid, m) := by rw [hr, hq]
        rw [List.map_cons]
        exact List.mem_cons_of_mem _ (ih hrest)

theorem evictFrom_sublist {l : List FrameInfo} {fid : Nat}
    {l' : List FrameInfo} (h : evictFrom l = some (fid, l')) :
    l'.Sublist l := by
  induction l generalizing l' with
  | nil => exact absurd h (by simp [evictFrom])
  | cons f rest ih =>
    rw [evictFrom] at h
    by_cases hev : f.evictable = true
    · rw [if_pos hev] at h
      obtain ⟨-, h2⟩ := Prod.mk.injEq .. ▸ Option.some.inj h
      rw [← h2]
      exact (List.Sublist.refl rest).cons f
    · rw [if_neg hev] at h
      rcases hr : evictFrom rest with _ | ⟨q, m⟩
      · rw [hr] at h
        exact absurd h (by simp)
      · rw [hr] at h
        obtain ⟨h1, h2⟩ := Prod.mk.injEq .. ▸ Option.some.inj h
        have hq : q = fid := h1
        have hrest : evictFrom rest = some (fid, m) := by rw [hr, hq]
        rw [← h2]
        exact List.Sublist.cons₂ f (ih hrest)

theorem evictFrom_eq_eraseId {l : List FrameInfo}
    (hnd : (l.map FrameInfo.frameId).Nodup) {fid : Nat}
    {l' : List FrameInfo} (h : evictFrom l = some (fid, l')) :
    l' = eraseId fid l := by
  induction l generalizing l' with
  | nil => exact absurd h (by simp [evictFrom])
  | cons f rest ih =>
    rw [evictFrom] at h
    by_cases hev : f.evictable = true
    · rw [if_pos hev] at h
      obtain ⟨h1, h2⟩ := Prod.mk.injEq .. ▸ Option.some.inj h
      rw [eraseId, if_pos (by simpa using h1)]
      exact h2.symm
    · rw [if_neg hev] at h
      rcases hr : evictFrom rest with _ | ⟨q, m⟩
      · rw [hr] at h
        exact absurd h (by simp)
      · rw [hr] at h
        obtain ⟨h1, h2⟩ := Prod.mk.injEq .. ▸ Option.some.inj h
        have hq : q = fid := h1
        have hrest : evictFrom rest = some (fid, m) := by rw [hr, hq]
        have hnd' : (rest.map FrameInfo.frameId).Nodup := by
          rw [List.map_cons] at hnd
          exact (List.nodup_cons.mp hnd).2
        have hfidr : fid ∈ rest.map FrameInfo.frameId :=
          evictFrom_mem_fst hrest
        have hfne : ¬f.frameId = fid := by
          intro he
          rw [List.map_cons] at hnd
          exact (List.nodup_cons.mp hnd).1 (he ▸ hfidr)
        rw [eraseId, if_neg (by simpa using hfne), ← h2, ih hnd' hrest]

theorem inPool_true_of_lookupId_some {fid : Nat} {l : List FrameInfo}
    {e : FrameInfo} (h : lookupId fid l = some e) : inPool fid l = true := by
  obtain ⟨hm, hid⟩ := lookupId_mem h
  exact List.any_eq_true.mpr ⟨e, hm, by simp [hid]⟩

theorem flagOf_isSome (s : Replacer) (g : Nat) :
    (s.flagOf g).isSome = s.tracked g := by
  unfold Replacer.flagOf Replacer.tracked
  rcases ht : lookupId g s.tempPool with _ | e
  · rcases hc : lookupId g s.cachePool with _ | e
    · rw [inPool_false_of_lookupId_none ht,
        inPool_false_of_lookupId_none hc]
      rfl
    · rw [inPool_true_of_lookupId_some hc]
      simp
  · rw [inPool_true_of_lookupId_some ht]
    rfl

theorem inPool_updateId (g fid : Nat) (u : FrameInfo → FrameInfo)
    (hu : ∀ e, (u e).frameId = e.frameId) (l : List FrameInfo) :
    inPool g (updateId fid u l) = inPool g l := by
  rw [inPool_eq_ids, ids_updateId hu, ← inPool_eq_ids]

theorem tracked_setEvictable (s : Replacer) (fid : Nat) (b : Bool)
    (g : Nat) : (s.setEvictable fid b).tracked g = s.tracked g := by
  unfold Replacer.setEvictable
  by_cases h1 : inPool fid s.tempPool = true
  · rw [if_pos h1]
    show (inPool g (updateId fid (fun f => { f with evictable := b })
        s.tempPool) || inPool g s.cachePool) = _
    rw [inPool_updateId g fid (fun f => { f with evictable := b })
      (fun e => rfl)]
    rfl
  · rw [if_neg h1]
    by_cases h2 : inPool fid s.cachePool = true
    · rw [if_pos h2]
      show (inPool g s.tempPool || inPool g (updateId fid
          (fun f => { f with evictable := b }) s.cachePool)) = _
      rw [inPool_updateId g fid (fun f => { f with evictable := b })
        (fun e => rfl)]
      rfl
    · rw [if_neg h2]

theorem flagOf_setEvictable_ne {s : Replacer} {fid g : Nat}
    (hne : ¬g = fid) (b : Bool) :
    (s.setEvictable fid b).flagOf g = s.flagOf g := by
  unfold Replacer.setEvictable
  by_cases h1 : inPool fid s.tempPool = true
  · rw [if_pos h1]
    show (match lookupId g (updateId fid
        (fun f => { f with evictable := b }) s.tempPool) with
      | some e => some e.evictable
      | none =>
        match lookupId g s.cachePool with
        | some e => some e.evictable
        | none => none) = _
    rw [lookupId_updateId_ne (u := fun f => { f with evictable := b })
      (fun e => rfl) hne]
    rfl
  · rw [if_neg h1]
    by_cases h2 : inPool fid s.cachePool = true
    · rw [if_pos h2]
      show (match lookupId g s.tempPool with
        | some e => some e.evictable
        | none =>
          match lookupId g (updateId fid
              (fun f => { f with evictable := b }) s.cachePool) with
          | some e => some e.evictable
          | none => none) = _
      rw [lookupId_updateId_ne (u := fun f => { f with evictable := b })
        (fun e => rfl) hne]
      rfl
    · rw [if_neg h2]

theorem flagOf_setEvictable_self {s : Replacer} {fid : Nat}
    (htr : s.tracked fid = true) (b : Bool) :
    (s.setEvictable fid b).flagOf fid = some b := by
  unfold Replacer.setEvictable
  by_cases h1 : inPool fid s.tempPool = true
  · rw [if_pos h1]
    rcases ht : lookupId fid s.tempPool with _ | e
    · rw [inPool_false_of_lookupId_none ht] at h1
      exact absurd h1 (by simp)
    · show (match lookupId fid (updateId fid
          (fun f => { f with evictable := b }) s.tempPool) with
        | some e => some e.evictable
        | none =>
          match lookupId fid s.cachePool with
          | some e => some e.evictable
          | none => none) = _
      rw [lookupId_updateId_self (g := fun f => { f with evictable := b })
        (fun e => rfl), ht]
      rfl
  · rw [if_neg h1]
    have h2 : inPool fid s.cachePool = true := by
      unfold Replacer.tracked at htr
      rcases Bool.or_eq_true_iff.mp htr with h | h
      · exact absurd h h1
      · exact h
    rw [if_pos h2]
    rcases hc : lookupId fid s.cachePool with _ | e
    · rw [inPool_false_of_lookupId_none hc] at h2
      exact absurd h2 (by simp)
    · show (match lookupId fid s.tempPool with
        | some e => some e.evictable
        | none =>
          match lookupId fid (updateId fid
              (fun f => { f with evictable := b }) s.cachePool) with
          | some e => some e.evictable
          | none => none) = _
      rw [lookupId_eq_none_of_inPool_false (by simpa using h1),
        lookupId_updateId_self (g := fun f => { f with evictable := b })
        (fun e => rfl), hc]
      rfl

theorem tracked_recordAccess {s : Replacer} (hnd : IdsOk s) (fid g : Nat) :
    (s.recordAccess fid).tracked g = true ↔
      (s.tracked g = true ∨ g = fid) := by
  rw [← flagOf_isSome, flagOf_recordAccess hnd fid g]
  by_cases hcond : g = fid ∧ s.tracked fid = false
  · rw [if_pos hcond]
    simp [hcond.1]
  · rw [if_neg hcond, flagOf_isSome]
    constructor
    · exact Or.inl
    · rintro (h | h)
      · exact h
      · rcases Decidable.em (s.tracked fid = false) with h2 | h2
        · exact absurd ⟨h, h2⟩ hcond
        · rw [h]
          exact Bool.eq_true_of_ne_false h2

theorem idsOk_setEvictable {s : Replacer} (hnd : IdsOk s) (fid : Nat)
    (b : Bool) : IdsOk (s.setEvictable fid b) := by
  unfold Replacer.setEvictable
  by_cases h1 : inPool fid s.tempPool = true
  · rw [if_pos h1]
    show ((updateId fid (fun f => { f with evictable := b }) s.tempPool
        ++ s.cachePool).map FrameInfo.frameId).Nodup
    rw [List.map_append, ids_updateId (g := fun f => { f with evictable := b })
      (fun e => rfl), ← List.map_append]
    exact hnd
  · rw [if_neg h1]
    by_cases h2 : inPool fid s.cachePool = true
    · rw [if_pos h2]
      show ((s.tempPool ++ updateId fid (fun f => { f with evictable := b })
          s.cachePool).map FrameInfo.frameId).Nodup
      rw [List.map_append, ids_updateId (g := fun f => { f with evictable := b })
        (fun e => rfl), ← List.map_append]
      exact hnd
    · rw [if_neg h2]
      exact hnd

theorem idsOk_recordAccess {s : Replacer} (hnd : IdsOk s) (fid : Nat) :
    IdsOk (s.recordAccess fid) := by
  have hnd0 : ((s.tempPool.map FrameInfo.frameId)
      ++ (s.cachePool.map FrameInfo.frameId)).Nodup := by
    rw [← List.map_append]
    exact hnd
  unfold Replacer.recordAccess
  by_cases hc : inPool fid s.cachePool = true
  · rw [if_pos hc]
    rcases hl : lookupId fid s.cachePool with _ | e
    · exact hnd
    · show ((s.tempPool ++ (eraseId fid s.cachePool ++ [e])).map
        FrameInfo.frameId).Nodup
      have hid : e.frameId = fid := (lookupId_mem hl).2
      have hfidc : fid ∈ s.cachePool.map FrameInfo.frameId := by
        rw [← inPool_iff_mem_map]
        exact hc
      have hperm : ((s.tempPool ++ (eraseId fid s.cachePool ++ [e])).map
          FrameInfo.frameId).Perm ((s.tempPool ++ s.cachePool).map
            FrameInfo.frameId) := by
        rw [List.map_append, List.map_append, List.map_append, map_eraseId]
        refine List.Perm.append_left _ ?_
        have h1 : ((s.cachePool.map FrameInfo.frameId).erase fid
            ++ [e].map FrameInfo.frameId).Perm
            (e.frameId :: (s.cachePool.map FrameInfo.frameId).erase fid) :=
          List.perm_append_singleton _ _
        refine h1.trans ?_
        rw [hid]
        exact (List.perm_cons_erase hfidc).symm
      exact hperm.nodup_iff.mpr hnd
  · rw [if_neg hc]
    by_cases ht : inPool fid s.tempPool = true
    · rw [if_pos ht]
      rcases hl : lookupId fid s.tempPool with _ | e
      · exact hnd
      · show IdsOk (if s.k ≤ e.times + 1 then { s with tempPool := eraseId fid s.tempPool, cachePool := s.cachePool ++ [{ e with times := e.times + 1 }] } else { s with tempPool := updateId fid (fun f => { f with times := f.times + 1 }) s.tempPool })
        by_cases hk : s.k ≤ e.times + 1
        · rw [if_pos hk]
          show ((eraseId fid s.tempPool
              ++ (s.cachePool ++ [{ e with times := e.times + 1 }])).map
              FrameInfo.frameId).Nodup
          have hid : e.frameId = fid := (lookupId_mem hl).2
          have hfidt : fid ∈ s.tempPool.map FrameInfo.frameId := by
            rw [← inPool_iff_mem_map]
            exact ht
          have hperm : ((eraseId fid s.tempPool
              ++ (s.cachePool ++ [{ e with times := e.times + 1 }])).map
              FrameInfo.frameId).Perm (s.tempPool.map FrameInfo.frameId
                ++ s.cachePool.map FrameInfo.frameId) := by
            rw [List.map_append, List.map_append, map_eraseId,
              List.map_cons, List.map_nil]
            show ((s.tempPool.map FrameInfo.frameId).erase fid
                ++ (s.cachePool.map FrameInfo.frameId ++ [e.frameId])).Perm _
            rw [hid, ← List.append_assoc]
            refine (List.perm_append_singleton _ _).trans ?_
            have h2 : fid ∈ s.tempPool.map FrameInfo.frameId
                ++ s.cachePool.map FrameInfo.frameId :=
              List.mem_append_left _ hfidt
            have h3 : (s.tempPool.map FrameInfo.frameId
                ++ s.cachePool.map FrameInfo.frameId).erase fid
                = (s.tempPool.map FrameInfo.frameId).erase fid
                  ++ s.cachePool.map FrameInfo.frameId :=
              List.erase_append_left _ hfidt
            rw [← h3]
            exact (List.perm_cons_erase h2).symm
          exact hperm.nodup_iff.mpr hnd0
        · rw [if_neg hk]
          show ((updateId fid (fun f => { f with times := f.times + 1 })
              s.tempPool ++ s.cachePool).map FrameInfo.frameId).Nodup
          rw [List.map_append,
            ids_updateId (g := fun f => { f with times := f.times + 1 })
            (fun e => rfl), ← List.map_append]
          exact hnd
    · rw [if_neg ht]
      show ((s.tempPool ++ [{ FrameInfo.init fid with
          times := (FrameInfo.init fid).times + 1 }] ++ s.cachePool).map
          FrameInfo.frameId).Nodup
      have hperm : ((s.tempPool ++ [{ FrameInfo.init fid with
          times := (FrameInfo.init fid).times + 1 }] ++ s.cachePool).map
          FrameInfo.frameId).Perm
          (fid :: (s.tempPool.map FrameInfo.frameId
            ++ s.cachePool.map FrameInfo.frameId)) := by
        simp only [List.append_assoc, List.map_append]
        show ((s.tempPool.map FrameInfo.frameId)
            ++ (fid :: (s.cachePool.map FrameInfo.frameId))).Perm _
        exact List.perm_middle
      refine hperm.nodup_iff.mpr ?_
      refine List.nodup_cons.mpr ⟨?_, hnd0⟩
      rw [List.mem_append]
      rintro (hm | hm)
      · rw [← inPool_iff_mem_map] at hm
        exact absurd hm (by simpa using ht)
      · rw [← inPool_iff_mem_map] at hm
        exact absurd hm (by simpa using hc)

theorem evict_some_tracked {s : Replacer} {f : Nat}
    (h : (s.evict).1 = some f) : s.tracked f = true := by
  unfold Replacer.evict at h
  rcases ht : evictFrom s.tempPool with _ | ⟨q, l⟩
  · rw [ht] at h
    rcases hc : evictFrom s.cachePool with _ | ⟨q, m⟩
    · rw [hc] at h
      exact absurd h (by simp)
    · rw [hc] at h
      have hq : q = f := Option.some.inj h
      have hm : f ∈ s.cachePool.map FrameInfo.frameId :=
        evictFrom_mem_fst (by rw [hc, hq])
      unfold Replacer.tracked
      rw [inPool_iff_mem_map.mpr hm, Bool.or_true]
  · rw [ht] at h
    have hq : q = f := Option.some.inj h
    have hm : f ∈ s.tempPool.map FrameInfo.frameId :=
      evictFrom_mem_fst (by rw [ht, hq])
    unfold Replacer.tracked
    rw [inPool_iff_mem_map.mpr hm, Bool.true_or]

theorem tracked_evict_sub {s : Replacer} (g : Nat)
    (h : ((s.evict).2).tracked g = true) : s.tracked g = true := by
  unfold Replacer.evict at h
  rcases ht : evictFrom s.tempPool with _ | ⟨q, l⟩
  · rw [ht] at h
    rcases hc : evictFrom s.cachePool with _ | ⟨q, m⟩
    · rw [hc] at h
      exact h
    · rw [hc] at h
      have h' : (inPool g s.tempPool || inPool g m) = true := h
      unfold Replacer.tracked
      rcases Bool.or_eq_true_iff.mp h' with h2 | h2
      · rw [h2, Bool.true_or]
      · rw [inPool_iff_mem_map] at h2
        rw [inPool_iff_mem_map.mpr
          (((evictFrom_sublist hc).map FrameInfo.frameId).mem h2),
          Bool.or_true]
  · rw [ht] at h
    have h' : (inPool g l || inPool g s.cachePool) = true := h
    unfold Replacer.tracked
    rcases Bool.or_eq_true_iff.mp h' with h2 | h2
    · rw [inPool_iff_mem_map] at h2
      rw [inPool_iff_mem_map.mpr
        (((evictFrom_sublist ht).map FrameInfo.frameId).mem h2),
        Bool.true_or]
    · rw [h2, Bool.or_true]

theorem flagOf_evict_ne {s : Replacer} (hnd : IdsOk s) {f g : Nat}
    (hne : ¬g = f) (h : (s.evict).1 = some f) :
    ((s.evict).2).flagOf g = s.flagOf g := by
  unfold Replacer.evict at h ⊢
  rcases ht : evictFrom s.tempPool with _ | ⟨q, l⟩
  · rw [ht] at h
    rcases hc : evictFrom s.cachePool with _ | ⟨q, m⟩
    · rfl
    · rw [hc] at h
      have hq : q = f := Option.some.inj h
      have hm : m = eraseId f s.cachePool :=
        evictFrom_eq_eraseId hnd.cache_nodup (by rw [hc, hq])
      show (match lookupId g s.tempPool with
        | some e => some e.evictable
        | none =>
          match lookupId g m with
          | some e => some e.evictable
          | none => none) = _
      rw [hm, lookupId_eraseId_ne hne]
      rfl
  · rw [ht] at h
    have hq : q = f := Option.some.inj h
    have hl : l = eraseId f s.tempPool :=
      evictFrom_eq_eraseId hnd.temp_nodup (by rw [ht, hq])
    show (match lookupId g l with
      | some e => some e.evictable
      | none =>
        match lookupId g s.cachePool with
        | some e => some e.evictable
        | none => none) = _
    rw [hl, lookupId_eraseId_ne hne]
    rfl

theorem tracked_evict_ne {s : Replacer} (hnd : IdsOk s) {f g : Nat}
    (hne : ¬g = f) (h : (s.evict).1 = some f) :
    ((s.evict).2).tracked g = s.tracked g := by
  rw [← flagOf_isSome, ← flagOf_isSome, flagOf_evict_ne hnd hne h]

theorem idsOk_evict {s : Replacer} (hnd : IdsOk s) : IdsOk (s.evict).2 := by
  unfold Replacer.evict
  rcases ht : evictFrom s.tempPool with _ | ⟨q, l⟩
  · rcases hc : evictFrom s.cachePool with _ | ⟨q, m⟩
    · exact hnd
    · show ((s.tempPool ++ m).map FrameInfo.frameId).Nodup
      exact hnd.sublist
        (((List.Sublist.refl s.tempPool).append (evictFrom_sublist hc)).map _)
  · show ((l ++ s.cachePool).map FrameInfo.frameId).Nodup
    exact hnd.sublist
      (((evictFrom_sublist ht).append (List.Sublist.refl _)).map _)

/-- The three outcomes of `LRUKReplacer::Remove` when the assertion does
not fire. -/
theorem remove_cases {s : Replacer} {fid : Nat} {s' : Replacer}
    (h : s.remove fid = some s') :
    (inPool fid s.tempPool = true
      ∧ s' = { s with tempPool := eraseId fid s.tempPool })
    ∨ (inPool fid s.tempPool = false ∧ inPool fid s.cachePool = true
      ∧ s' = { s with cachePool := eraseId fid s.cachePool })
    ∨ (inPool fid s.tempPool = false ∧ inPool fid s.cachePool = false
      ∧ s' = s) := by
  unfold Replacer.remove at h
  by_cases h1 : inPool fid s.tempPool = true
  · rw [if_pos h1] at h
    rcases hl : lookupId fid s.tempPool with _ | e
    · rw [hl] at h
      exact absurd h (by simp)
    · simp only [hl] at h
      by_cases hev : e.evictable = true
      · rw [if_pos hev] at h
        exact Or.inl ⟨h1, (Option.some.inj h).symm⟩
      · rw [if_neg hev] at h
        exact absurd h (by simp)
  · rw [if_neg h1] at h
    by_cases h2 : inPool fid s.cachePool = true
    · rw [if_pos h2] at h
      rcases hl : lookupId fid s.cachePool with _ | e
      · rw [hl] at h
        exact absurd h (by simp)
      · simp only [hl] at h
        by_cases hev : e.evictable = true
        · rw [if_pos hev] at h
          exact Or.inr (Or.inl ⟨by simpa using h1, h2,
            (Option.some.inj h).symm⟩)
        · rw [if_neg hev] at h
          exact absurd h (by simp)
    · rw [if_neg h2] at h
      exact Or.inr (Or.inr ⟨by simpa using h1, by simpa using h2,
        (Option.some.inj h).symm⟩)

theorem remove_tracked_self {s : Replacer} (hnd : IdsOk s) {fid : Nat}
    {s' : Replacer} (h : s.remove fid = some s') :
    s'.tracked fid = false := by
  rcases remove_cases h with ⟨h1, rfl⟩ | ⟨h1, h2, rfl⟩ | ⟨h1, h2, rfl⟩
  · show (inPool fid (eraseId fid s.tempPool) || inPool fid s.cachePool)
        = false
    rw [inPool_false_of_lookupId_none (lookupId_eraseId_self hnd.temp_nodup)]
    have hdis : ¬fid ∈ s.cachePool.map FrameInfo.frameId :=
      hnd.disjoint (inPool_iff_mem_map.mp h1)
    have hc : inPool fid s.cachePool = false := by
      rcases Bool.eq_false_or_eq_true (inPool fid s.cachePool) with h3 | h3
      · exact absurd (inPool_iff_mem_map.mp h3) hdis
      · exact h3
    rw [hc]
    rfl
  · show (inPool fid s.tempPool || inPool fid (eraseId fid s.cachePool))
        = false
    rw [h1,
      inPool_false_of_lookupId_none (lookupId_eraseId_self hnd.cache_nodup)]
    rfl
  · unfold Replacer.tracked
    rw [h1, h2]
    rfl

theorem remove_flagOf_ne {s : Replacer} {fid g : Nat} (hne : ¬g = fid)
    {s' : Replacer} (h : s.remove fid = some s') :
    s'.flagOf g = s.flagOf g := by
  rcases remove_cases h with ⟨h1, rfl⟩ | ⟨h1, h2, rfl⟩ | ⟨h1, h2, rfl⟩
  · show (match lookupId g (eraseId fid s.tempPool) with
      | some e => some e.evictable
      | none =>
        match lookupId g s.cachePool with
        | some e => some e.evictable
        | none => none) = _
    rw [lookupId_eraseId_ne hne]
    rfl
  · show (match lookupId g s.tempPool with
      | some e => some e.evictable
      | none =>
        match lookupId g (eraseId fid s.cachePool) with
        | some e => some e.evictable
        | none => none) = _
    rw [lookupId_eraseId_ne hne]
    rfl
  · rfl

theorem remove_tracked_ne {s : Replacer} {fid g : Nat} (hne : ¬g = fid)
    {s' : Replacer} (h : s.remove fid = some s') :
    s'.tracked g = s.tracked g := by
  rw [← flagOf_isSome, ← flagOf_isSome, remove_flagOf_ne hne h]

theorem eraseId_sublist (fid : Nat) (l : List FrameInfo) :
    (eraseId fid l).Sublist l := by
  induction l with
  | nil => exact List.Sublist.refl _
  | cons f rest ih =>
    rw [eraseId]
    by_cases h : f.frameId = fid
    · rw [if_pos (by simpa using h)]
      exact (List.Sublist.refl rest).cons f
    · rw [if_neg (by simpa using h)]
      exact List.Sublist.cons₂ f ih

theorem idsOk_remove {s : Replacer} (hnd : IdsOk s) {fid : Nat}
    {s' : Replacer} (h : s.remove fid = some s') : IdsOk s' := by
  rcases remove_cases h with ⟨h1, rfl⟩ | ⟨h1, h2, rfl⟩ | ⟨h1, h2, rfl⟩
  · show ((eraseId fid s.tempPool ++ s.cachePool).map FrameInfo.frameId).Nodup
    exact hnd.sublist
      (((eraseId_sublist fid s.tempPool).append (List.Sublist.refl _)).map _)
  · show ((s.tempPool ++ eraseId fid s.cachePool).map FrameInfo.frameId).Nodup
    exact hnd.sublist (((List.Sublist.refl s.tempPool).append
      (eraseId_sublist fid s.cachePool)).map _)
  · exact hnd

theorem tracked_of_mem {s : Replacer} {e : FrameInfo}
    (h : e ∈ s.tempPool ++ s.cachePool) : s.tracked e.frameId = true := by
  unfold Replacer.tracked
  rcases List.mem_append.mp h with h | h
  · rw [inPool_iff_mem_map.mpr (List.mem_map.mpr ⟨e, h, rfl⟩), Bool.true_or]
  · rw [inPool_iff_mem_map.mpr (List.mem_map.mpr ⟨e, h, rfl⟩), Bool.or_true]

end LRUK





/-! ## Buffer pool manager theorems -/

namespace BPM

/-- **C5**: `FlushAllPgsImp` does not flush every resident page.  In a
two-frame pool where frame 0 is free and frame 1 holds dirty page 5, the
loop meets frame 0's `INVALID_PAGE_ID` first and `return`s: page 5 is never
written to the disk manager and its dirty flag survives, although the spec
demands the flush regardless of where free frames sit in the frame
array. -/
theorem bpm_flush_all_stops_early :
    (frameAt egFlushState 1).pageId = some 5
    ∧ (frameAt egFlushState 1).isDirty = true
    ∧ (flushAllPgs egFlushState).disk.blocks = []
    ∧ (frameAt (flushAllPgs egFlushState) 1).isDirty = true := by
  decide

theorem getD_set_self {l : List Page} {f : Nat} (h : f < l.length)
    (pg : Page) : (l.set f pg).getD f default = pg := by
  induction l generalizing f with
  | nil => exact absurd h (by simp)
  | cons a rest ih =>
    cases f with
    | zero => rfl
    | succ f => exact ih (by simpa using h)

theorem getD_set_ne {l : List Page} {f g : Nat} (h : ¬g = f) (pg : Page) :
    (l.set f pg).getD g default = l.getD g default := by
  induction l generalizing f g with
  | nil => rfl
  | cons a rest ih =>
    cases f with
    | zero =>
      cases g with
      | zero => exact absurd rfl h
      | succ g => rfl
    | succ f =>
      cases g with
      | zero => rfl
      | succ g => exact ih (by simpa using h)

theorem flushAllGo_length (l : List Page) (d : Disk) :
    (flushAllGo l d).1.length = l.length := by
  induction l generalizing d with
  | nil => rfl
  | cons pg rest ih =>
    rw [flushAllGo]
    rcases hp : pg.pageId with _ | pid
    · rfl
    · show ({ pg with isDirty := false }
          :: (flushAllGo rest (d.write pid pg.data)).1).length
        = (pg :: rest).length
      rw [List.length_cons, List.length_cons, ih]

theorem flushAllGo_meta (l : List Page) (d : Disk) (f : Nat) :
    ((flushAllGo l d).1.getD f default).pageId = (l.getD f default).pageId
    ∧ ((flushAllGo l d).1.getD f default).pinCount
        = (l.getD f default).pinCount := by
  induction l generalizing d f with
  | nil => exact ⟨rfl, rfl⟩
  | cons pg rest ih =>
    rw [flushAllGo]
    rcases hp : pg.pageId with _ | pid
    · exact ⟨rfl, rfl⟩
    · cases f with
      | zero => exact ⟨hp.symm, rfl⟩
      | succ f => exact ih (d.write pid pg.data) f

/-- Congruence: the invariant only reads the pool size, page metadata, free
list, replacer and table. -/
theorem inv_meta {s s' : BPMState} (hInv : Inv s)
    (hpool : s'.poolSize = s.poolSize)
    (hlen : s'.pages.length = s.pages.length)
    (hmeta : ∀ g, (frameAt s' g).pageId = (frameAt s g).pageId
      ∧ (frameAt s' g).pinCount = (frameAt s g).pinCount)
    (hfree : s'.freeList = s.freeList)
    (hrep : s'.replacer = s.replacer)
    (htbl : s'.pageTable = s.pageTable) : Inv s' := by
  obtain ⟨h1, h2, h3, h4, h5, h6, h7, h8, h9, h10, h11⟩ := hInv
  refine ⟨by rw [hlen, hpool]; exact h1, by rw [hfree]; exact h2, ?_, ?_,
    ?_, ?_, ?_, by rw [hrep]; exact h8, by rw [htbl]; exact h9,
    by rw [htbl]; exact h10, ?_⟩
  · intro f hf
    rw [hfree] at hf
    obtain ⟨ha, hb⟩ := h3 f hf
    exact ⟨by rw [hpool]; exact ha, by rw [(hmeta f).1]; exact hb⟩
  · intro f hf hnone
    rw [hpool] at hf
    rw [(hmeta f).1] at hnone
    rw [hfree]
    exact h4 f hf hnone
  · intro f hf hsome
    rw [hpool] at hf
    rw [(hmeta f).1] at hsome
    rw [hrep]
    exact h5 f hf hsome
  · intro e he
    rw [hrep] at he
    obtain ⟨ha, hb⟩ := h6 e he
    exact ⟨by rw [hpool]; exact ha, by rw [(hmeta e.frameId).1]; exact hb⟩
  · intro f hf hsome hpin
    rw [hpool] at hf
    rw [(hmeta f).1] at hsome
    rw [(hmeta f).2] at hpin
    rw [hrep]
    exact h7 f hf hsome hpin
  · intro j hj kv hkv
    rw [htbl] at hj hkv
    obtain ⟨ha, hb⟩ := h11 j hj kv hkv
    exact ⟨by rw [hpool]; exact ha, by rw [(hmeta kv.2).1]; exact hb⟩

theorem inv_flushAllPgs {s : BPMState} (hInv : Inv s) :
    Inv (flushAllPgs s) := by
  refine inv_meta hInv rfl (flushAllGo_length s.pages s.disk) ?_ rfl rfl rfl
  intro g
  exact flushAllGo_meta s.pages s.disk g

theorem inv_flushPg {s : BPMState} (hInv : Inv s) (pid : Option Nat) :
    Inv (flushPg s pid).2 := by
  rcases pid with _ | p
  · exact hInv
  · rcases hfind : EHT.find pageHash s.pageTable p with _ | f
    · have heq : (flushPg s (some p)).2 = s := by
        simp only [flushPg, hfind]
      rw [heq]
      exact hInv
    · have heq : (flushPg s (some p)).2 = { s with
          disk := s.disk.write p (frameAt s f).data,
          pages := s.pages.set f { frameAt s f with isDirty := false } } := by
        simp only [flushPg, hfind]
      rw [heq]
      have hmem := EHT.find_mem hfind
      have hjlt : EHT.indexOf pageHash s.pageTable.globalDepth p
          < s.pageTable.dir.length :=
        EHT.indexOf_lt_dirLength (hInv.2.2.2.2.2.2.2.2.1).1 p
      obtain ⟨hflt, -⟩ :=
        hInv.2.2.2.2.2.2.2.2.2.2 _ hjlt _ hmem
      have hfpg : f < s.pages.length := by
        rw [hInv.1]
        exact hflt
      refine inv_meta hInv rfl (by rw [List.length_set]) ?_ rfl rfl rfl
      intro g
      by_cases hg : g = f
      · subst hg
        show ((s.pages.set g { frameAt s g with isDirty := false }).getD g
            default).pageId = (frameAt s g).pageId
          ∧ ((s.pages.set g { frameAt s g with isDirty := false }).getD g
            default).pinCount = (frameAt s g).pinCount
        rw [getD_set_self hfpg]
        exact ⟨rfl, rfl⟩
      · show ((s.pages.set f { frameAt s f with isDirty := false }).getD g
            default).pageId = (frameAt s g).pageId
          ∧ ((s.pages.set f { frameAt s f with isDirty := false }).getD g
            default).pinCount = (frameAt s g).pinCount
        rw [getD_set_ne hg]
        exact ⟨rfl, rfl⟩


/-- Tracked frames are resident (derived form of the pool-membership
component). -/
theorem inv_tracked_resident {s : BPMState} (hInv : Inv s) {g : Nat}
    (h : s.replacer.tracked g = true) :
    g < s.poolSize ∧ (frameAt s g).pageId.isSome = true := by
  have h6 := hInv.2.2.2.2.2.1
  unfold LRUK.Replacer.tracked at h
  rcases Bool.or_eq_true_iff.mp h with hg | hg
  · rw [LRUK.inPool_iff_mem_map] at hg
    obtain ⟨e, he, hef⟩ := List.mem_map.mp hg
    exact hef ▸ h6 e (List.mem_append_left _ he)
  · rw [LRUK.inPool_iff_mem_map] at hg
    obtain ⟨e, he, hef⟩ := List.mem_map.mp hg
    exact hef ▸ h6 e (List.mem_append_right _ he)

/-- Under the invariant every frame is in exactly one of the three states:
free, resident-pinned, resident-unpinned (and then evictable). -/
theorem inv_frame_tristate {s : BPMState} (hInv : Inv s) {f : Nat}
    (hf : f < s.poolSize) :
    (f ∈ s.freeList ∧ (frameAt s f).pageId = none
      ∧ ¬(frameAt s f).pageId.isSome = true)
    ∨ ((frameAt s f).pageId.isSome = true ∧ 0 < (frameAt s f).pinCount
      ∧ ¬f ∈ s.freeList)
    ∨ ((frameAt s f).pageId.isSome = true ∧ (frameAt s f).pinCount = 0
      ∧ s.replacer.flagOf f = some true ∧ ¬f ∈ s.freeList) := by
  obtain ⟨h1, h2, h3, h4, h5, h6, h7, h8, h9, h10, h11⟩ := hInv
  rcases hp : (frameAt s f).pageId with _ | p
  · exact Or.inl ⟨h4 f hf hp, rfl, by simp⟩
  · have hsome : (frameAt s f).pageId.isSome = true := by
      rw [hp]
      rfl
    have hnfl : ¬f ∈ s.freeList := by
      intro hm
      have hb := (h3 f hm).2
      rw [hp] at hb
      exact absurd hb (by simp)
    by_cases hpin : (frameAt s f).pinCount = 0
    · exact Or.inr (Or.inr ⟨rfl, hpin, h7 f hf hsome hpin, hnfl⟩)
    · exact Or.inr (Or.inl ⟨rfl, Nat.pos_of_ne_zero hpin, hnfl⟩)

theorem inv_unpinPg {s : BPMState} (hInv : Inv s) (pid : Nat) (d : Bool) :
    Inv (unpinPg s pid d).2 := by
  rcases hfind : EHT.find pageHash s.pageTable pid with _ | f
  · have heq : (unpinPg s pid d).2 = s := by
      simp only [unpinPg, hfind]
    rw [heq]
    exact hInv
  · by_cases hpin : (frameAt s f).pinCount = 0
    · have heq : (unpinPg s pid d).2 = s := by
        simp only [unpinPg, hfind]
        rw [if_pos hpin]
      rw [heq]
      exact hInv
    · have heq : (unpinPg s pid d).2 = { s with
          pages := s.pages.set f { frameAt s f with
            pinCount := (frameAt s f).pinCount - 1,
            isDirty := (frameAt s f).isDirty || d },
          replacer := if (frameAt s f).pinCount - 1 = 0
            then s.replacer.setEvictable f true else s.replacer } := by
        simp only [unpinPg, hfind]
        rw [if_neg hpin]
      rw [heq]
      obtain ⟨h1, h2, h3, h4, h5, h6, h7, h8, h9, h10, h11⟩ := hInv
      have hjlt : EHT.indexOf pageHash s.pageTable.globalDepth pid
          < s.pageTable.dir.length :=
        EHT.indexOf_lt_dirLength h9.1 pid
      obtain ⟨hflt, hfpid⟩ := h11 _ hjlt _ (EHT.find_mem hfind)
      have hfpg : f < s.pages.length := by
        rw [h1]
        exact hflt
      have htrf : s.replacer.tracked f = true :=
        h5 f hflt (by rw [hfpid]; rfl)
      have htr : ∀ g, (if (frameAt s f).pinCount - 1 = 0
          then s.replacer.setEvictable f true
          else s.replacer).tracked g = s.replacer.tracked g := by
        intro g
        by_cases hz : (frameAt s f).pinCount - 1 = 0
        · rw [if_pos hz, LRUK.tracked_setEvictable]
        · rw [if_neg hz]
      refine ⟨by rw [List.length_set]; exact h1, h2, ?_, ?_, ?_, ?_, ?_,
        ?_, h9, h10, ?_⟩
      · intro g hg
        obtain ⟨ha, hb⟩ := h3 g hg
        have hgf : ¬g = f := by
          intro hgf
          rw [hgf, hfpid] at hb
          exact absurd hb (by simp)
        refine ⟨ha, ?_⟩
        simp only [frameAt]
        rw [getD_set_ne hgf]
        exact hb
      · intro g hg hnone
        simp only [frameAt] at hnone
        by_cases hgf : g = f
        · subst hgf
          rw [getD_set_self hfpg] at hnone
          have hnone' : (frameAt s g).pageId = none := hnone
          rw [hfpid] at hnone'
          exact absurd hnone' (by simp)
        · rw [getD_set_ne hgf] at hnone
          exact h4 g hg hnone
      · intro g hg hsome
        rw [htr g]
        simp only [frameAt] at hsome
        by_cases hgf : g = f
        · subst hgf
          exact htrf
        · rw [getD_set_ne hgf] at hsome
          exact h5 g hg hsome
      · intro e he
        have htre := LRUK.tracked_of_mem he
        rw [htr e.frameId] at htre
        obtain ⟨ha, hb⟩ := inv_tracked_resident
          ⟨h1, h2, h3, h4, h5, h6, h7, h8, h9, h10, h11⟩ htre
        refine ⟨ha, ?_⟩
        simp only [frameAt]
        by_cases hgf : e.frameId = f
        · rw [hgf, getD_set_self hfpg]
          show (frameAt s f).pageId.isSome = true
          rw [hfpid]
          rfl
        · rw [getD_set_ne hgf]
          exact hb
      · intro g hg hsome hzero
        simp only [frameAt] at hsome hzero
        by_cases hgf : g = f
        · subst hgf
          rw [getD_set_self hfpg] at hzero
          have hz : (frameAt s g).pinCount - 1 = 0 := hzero
          rw [if_pos hz]
          exact LRUK.flagOf_setEvictable_self htrf true
        · rw [getD_set_ne hgf] at hsome hzero
          have hflag := h7 g hg hsome hzero
          by_cases hz : (frameAt s f).pinCount - 1 = 0
          · rw [if_pos hz, LRUK.flagOf_setEvictable_ne hgf]
            exact hflag
          · rw [if_neg hz]
            exact hflag
      · by_cases hz : (frameAt s f).pinCount - 1 = 0
        · rw [if_pos hz]
          exact LRUK.idsOk_setEvictable h8 f true
        · rw [if_neg hz]
          exact h8
      · intro j hj kv hkv
        obtain ⟨ha, hb⟩ := h11 j hj kv hkv
        refine ⟨ha, ?_⟩
        simp only [frameAt]
        by_cases hgf : kv.2 = f
        · rw [hgf, getD_set_self hfpg]
          show (frameAt s f).pageId = some kv.1
          rw [← hgf]
          exact hb
        · rw [getD_set_ne hgf]
          exact hb


/-- What the shared victim-selection prologue of `NewPgImp`/`FetchPgImp`
guarantees: the victim frame is in range and off the free list, every other
piece of bookkeeping survives, and no surviving table entry points at the
victim frame. -/
theorem getVictim_spec {s : BPMState} (hInv : Inv s) {f : Nat}
    {s1 : BPMState} (h : getVictim s = some (f, s1)) :
    s1.poolSize = s.poolSize
    ∧ s1.pages = s.pages
    ∧ s1.nextPageId = s.nextPageId
    ∧ f < s.poolSize
    ∧ ¬f ∈ s1.freeList
    ∧ s1.freeList.Nodup
    ∧ (∀ g ∈ s1.freeList, g ∈ s.freeList)
    ∧ (∀ g, g < s.poolSize → ¬g = f → (frameAt s g).pageId = none →
        g ∈ s1.freeList)
    ∧ LRUK.IdsOk s1.replacer
    ∧ (∀ g, s1.replacer.tracked g = true → s.replacer.tracked g = true)
    ∧ (∀ g, ¬g = f → s1.replacer.flagOf g = s.replacer.flagOf g)
    ∧ (∀ g, ¬g = f → s1.replacer.tracked g = s.replacer.tracked g)
    ∧ EHT.Inv pageHash s1.pageTable
    ∧ s1.pageTable.bucketSize = s.pageTable.bucketSize
    ∧ (∀ j, j < s1.pageTable.dir.length →
        ∀ kv ∈ EHT.itemsAt s1.pageTable j,
          kv.2 < s.poolSize ∧ (frameAt s kv.2).pageId = some kv.1
            ∧ ¬kv.2 = f) := by
  obtain ⟨h1, h2, h3, h4, h5, h6, h7, h8, h9, h10, h11⟩ := hInv
  unfold getVictim at h
  rcases hfl : s.freeList with _ | ⟨f0, rest⟩
  · rw [hfl] at h
    rcases hev : s.replacer.evict with ⟨o, rep2⟩
    rw [hev] at h
    rcases o with _ | f2
    · exact absurd h (by simp)
    · obtain ⟨hq, hs1⟩ := Prod.mk.injEq .. ▸ Option.some.inj h
      have hq2 : f = f2 := hq.symm
      subst f2
      have hfst : (s.replacer.evict).1 = some f := by
        rw [hev]
      have hsnd : (s.replacer.evict).2 = rep2 := by
        rw [hev]
      have htrk : s.replacer.tracked f = true := LRUK.evict_some_tracked hfst
      obtain ⟨hflt, hfsome⟩ := inv_tracked_resident
        ⟨h1, h2, h3, h4, h5, h6, h7, h8, h9, h10, h11⟩ htrk
      rcases hop : (frameAt s f).pageId with _ | p
      · rw [hop] at hfsome
        exact absurd hfsome (by simp)
      · rw [← hs1]
        refine ⟨rfl, rfl, rfl, hflt, ?_, ?_, fun g hg => hg, ?_, ?_, ?_,
          ?_, ?_, ?_, ?_, ?_⟩
        · show ¬f ∈ ([] : List Nat)
          simp
        · show ([] : List Nat).Nodup
          exact List.nodup_nil
        · intro g hg hne hnone
          have hmem := h4 g hg hnone
          rw [hfl] at hmem
          exact absurd hmem (by simp)
        · show LRUK.IdsOk rep2
          rw [← hsnd]
          exact LRUK.idsOk_evict h8
        · intro g hg
          show s.replacer.tracked g = true
          rw [← hsnd] at hg
          exact LRUK.tracked_evict_sub g hg
        · intro g hne
          show rep2.flagOf g = s.replacer.flagOf g
          rw [← hsnd]
          exact LRUK.flagOf_evict_ne h8 hne hfst
        · intro g hne
          show rep2.tracked g = s.replacer.tracked g
          rw [← hsnd]
          exact LRUK.tracked_evict_ne h8 hne hfst
        · show EHT.Inv pageHash
            (EHT.remove pageHash s.pageTable ((frameAt s f).pageId.getD 0)).2
          exact EHT.inv_remove pageHash h9 _
        · show (EHT.remove pageHash s.pageTable
            ((frameAt s f).pageId.getD 0)).2.bucketSize
              = s.pageTable.bucketSize
          exact EHT.remove_bucketSize pageHash s.pageTable _
        · intro j hj kv hkv
          have hj' : j < s.pageTable.dir.length := by
            rw [show (EHT.remove pageHash s.pageTable
              ((frameAt s f).pageId.getD 0)).2.dir = s.pageTable.dir
              from EHT.remove_dir pageHash s.pageTable _] at hj
            exact hj
          have hkv' := EHT.mem_remove pageHash s.pageTable
            ((frameAt s f).pageId.getD 0) hkv
          obtain ⟨ha, hb⟩ := h11 j hj' kv hkv'
          have hk1 := EHT.not_mem_remove_self pageHash h9
            ((frameAt s f).pageId.getD 0) hj' hkv
          refine ⟨ha, hb, ?_⟩
          intro hgf
          rw [hgf, hop] at hb
          apply hk1
          rw [hop]
          exact Option.some.inj hb.symm
  · rw [hfl] at h
    obtain ⟨hq, hs1⟩ := Prod.mk.injEq .. ▸ Option.some.inj h
    have hq2 : f = f0 := hq.symm
    subst f0
    have hmem0 : f ∈ s.freeList := by
      rw [hfl]
      exact List.mem_cons_self _ _
    obtain ⟨hflt, hnone⟩ := h3 f hmem0
    have hndr : (f :: rest).Nodup := by
      rw [← hfl]
      exact h2
    rw [← hs1]
    refine ⟨rfl, rfl, rfl, hflt, ?_, ?_, ?_, ?_, h8, fun g hg => hg,
      fun g hne => rfl, fun g hne => rfl, h9, rfl, ?_⟩
    · show ¬f ∈ rest
      exact (List.nodup_cons.mp hndr).1
    · show rest.Nodup
      exact (List.nodup_cons.mp hndr).2
    · intro g hg
      exact List.mem_cons_of_mem _ hg
    · intro g hg hne hnone'
      have hmem := h4 g hg hnone'
      rw [hfl] at hmem
      rcases List.mem_cons.mp hmem with hm | hm
      · exact absurd hm hne
      · exact hm
    · intro j hj kv hkv
      obtain ⟨ha, hb⟩ := h11 j hj kv hkv
      refine ⟨ha, hb, ?_⟩
      intro hgf
      rw [hgf, hnone] at hb
      exact absurd hb (by simp)

/-- Installing a page into a victim frame (the shared epilogue of
`NewPgImp` and the miss path of `FetchPgImp`) preserves the invariant. -/
theorem inv_install {s : BPMState} (hInv : Inv s) {f : Nat} {s1 : BPMState}
    (hv : getVictim s = some (f, s1)) (pid npid : Nat) {pg : Page}
    (hpg1 : pg.pageId = some pid) (hpg2 : ¬pg.pinCount = 0)
    {fuel : Nat} {tbl' : EHT.Table Nat Nat}
    (hins : EHT.insertInternal pageHash fuel s1.pageTable pid f
      = some tbl') :
    Inv { s1 with pages := s1.pages.set f pg, replacer := (s1.replacer.recordAccess f).setEvictable f false, pageTable := tbl', nextPageId := npid } := by
  obtain ⟨hpool, hpages, -, hflt, hnfl, hnd1, hsub, hmem4, hids1, htrs,
    hfg, htg, hEInv1, hbsz1, hitems⟩ := getVictim_spec hInv hv
  have h1 := hInv.1
  have h3 := hInv.2.2.1
  have h5 := hInv.2.2.2.2.1
  have h7 := hInv.2.2.2.2.2.2.1
  have h10 := hInv.2.2.2.2.2.2.2.2.2.1
  have hfpg : f < s1.pages.length := by
    rw [hpages, h1]
    exact hflt
  have hAt1 : ∀ g, frameAt s1 g = frameAt s g := by
    intro g
    show s1.pages.getD g default = s.pages.getD g default
    rw [hpages]
  have hbsz1' : 1 ≤ s1.pageTable.bucketSize := by
    rw [hbsz1]
    exact h10
  have hpost := EHT.insertInternal_post pageHash fuel s1.pageTable tbl'
    pid f hbsz1' hEInv1 hins
  have htr2 : ∀ g, ((s1.replacer.recordAccess f).setEvictable f
      false).tracked g = true ↔ (s1.replacer.tracked g = true ∨ g = f) := by
    intro g
    rw [LRUK.tracked_setEvictable]
    exact LRUK.tracked_recordAccess hids1 f g
  refine ⟨?_, hnd1, ?_, ?_, ?_, ?_, ?_, ?_, hpost.1, ?_, ?_⟩
  · show (s1.pages.set f pg).length = s1.poolSize
    rw [List.length_set, hpages, hpool, h1]
  · intro g hg
    have hgs := hsub g hg
    obtain ⟨ha, hb⟩ := h3 g hgs
    have hgf : ¬g = f := by
      intro hgf
      rw [hgf] at hg
      exact hnfl hg
    refine ⟨?_, ?_⟩
    · show g < s1.poolSize
      rw [hpool]
      exact ha
    · simp only [frameAt]
      rw [getD_set_ne hgf]
      rw [show s1.pages.getD g default = frameAt s1 g from rfl, hAt1 g]
      exact hb
  · intro g hg hnone
    have hg' : g < s.poolSize := by
      rw [← hpool]
      exact hg
    simp only [frameAt] at hnone
    by_cases hgf : g = f
    · subst hgf
      rw [getD_set_self hfpg] at hnone
      rw [hpg1] at hnone
      exact absurd hnone (by simp)
    · rw [getD_set_ne hgf] at hnone
      rw [show s1.pages.getD g default = frameAt s1 g from rfl, hAt1 g]
        at hnone
      exact hmem4 g hg' hgf hnone
  · intro g hg hsome
    have hg' : g < s.poolSize := by
      rw [← hpool]
      exact hg
    rw [htr2 g]
    by_cases hgf : g = f
    · exact Or.inr hgf
    · refine Or.inl ?_
      simp only [frameAt] at hsome
      rw [getD_set_ne hgf,
        show s1.pages.getD g default = frameAt s1 g from rfl, hAt1 g]
        at hsome
      rw [htg g hgf]
      exact h5 g hg' hsome
  · intro e he
    have htre := LRUK.tracked_of_mem he
    rw [htr2 e.frameId] at htre
    by_cases hgf : e.frameId = f
    · refine ⟨?_, ?_⟩
      · show e.frameId < s1.poolSize
        rw [hpool, hgf]
        exact hflt
      · simp only [frameAt]
        rw [hgf, getD_set_self hfpg, hpg1]
        rfl
    · rcases htre with htre | htre
      · have htre' : s.replacer.tracked e.frameId = true := by
          rw [← htg e.frameId hgf]
          exact htre
        obtain ⟨ha, hb⟩ := inv_tracked_resident hInv htre'
        refine ⟨?_, ?_⟩
        · show e.frameId < s1.poolSize
          rw [hpool]
          exact ha
        · simp only [frameAt]
          rw [getD_set_ne hgf,
            show s1.pages.getD e.frameId default = frameAt s1 e.frameId
              from rfl, hAt1 e.frameId]
          exact hb
      · exact absurd htre hgf
  · intro g hg hsome hzero
    have hg' : g < s.poolSize := by
      rw [← hpool]
      exact hg
    by_cases hgf : g = f
    · subst hgf
      simp only [frameAt] at hzero
      rw [getD_set_self hfpg] at hzero
      exact absurd hzero hpg2
    · simp only [frameAt] at hsome hzero
      rw [getD_set_ne hgf,
        show s1.pages.getD g default = frameAt s1 g from rfl, hAt1 g]
        at hsome hzero
      have hflag := h7 g hg' hsome hzero
      rw [LRUK.flagOf_setEvictable_ne hgf,
        LRUK.flagOf_recordAccess hids1 f g,
        if_neg (fun hc => hgf hc.1), hfg g hgf]
      exact hflag
  · exact LRUK.idsOk_setEvictable (LRUK.idsOk_recordAccess hids1 f) f false
  · rw [EHT.insertInternal_bucketSize pageHash fuel s1.pageTable tbl'
      pid f hins]
    exact hbsz1'
  · intro j hj kv hkv
    rcases EHT.mem_insertInternal pageHash fuel s1.pageTable tbl' pid f
      hbsz1' hEInv1 hins j hj kv hkv with ⟨i, hi, hmi⟩ | heq
    · obtain ⟨ha, hb, hc⟩ := hitems i hi kv hmi
      refine ⟨?_, ?_⟩
      · show kv.2 < s1.poolSize
        rw [hpool]
        exact ha
      · simp only [frameAt]
        rw [getD_set_ne hc,
          show s1.pages.getD kv.2 default = frameAt s1 kv.2 from rfl,
          hAt1 kv.2]
        exact hb
    · subst heq
      refine ⟨?_, ?_⟩
      · show (pid, f).2 < s1.poolSize
        rw [hpool]
        exact hflt
      · simp only [frameAt]
        show ((s1.pages.set f pg).getD f default).pageId = some pid
        rw [getD_set_self hfpg]
        exact hpg1

theorem inv_newPg {fuel : Nat} {s : BPMState} (hInv : Inv s) {p : Nat}
    {s' : BPMState} (h : newPg fuel s = some (some (p, s'))) : Inv s' := by
  unfold newPg at h
  rcases hv : getVictim s with _ | ⟨f, s1⟩
  · rw [hv] at h
    exact absurd h (by simp)
  · simp only [hv] at h
    rcases hins : EHT.insertInternal pageHash fuel s1.pageTable
        s1.nextPageId f with _ | tbl'
    · simp only [hins] at h
      exact absurd h (by simp)
    · simp only [hins] at h
      obtain ⟨hp, hs'⟩ := Prod.mk.injEq .. ▸
        Option.some.inj (Option.some.inj h)
      rw [← hs']
      exact inv_install hInv hv s1.nextPageId (s1.nextPageId + 1) rfl
        Nat.one_ne_zero hins

theorem inv_fetchPg {fuel : Nat} {s : BPMState} (hInv : Inv s) (pid : Nat)
    {f : Nat} {s' : BPMState}
    (h : fetchPg fuel s pid = some (some (f, s'))) : Inv s' := by
  unfold fetchPg at h
  rcases hfind : EHT.find pageHash s.pageTable pid with _ | f0
  · simp only [hfind] at h
    rcases hv : getVictim s with _ | ⟨f1, s1⟩
    · simp only [hv] at h
      exact absurd h (by simp)
    · simp only [hv] at h
      rcases hins : EHT.insertInternal pageHash fuel s1.pageTable pid f1
          with _ | tbl'
      · simp only [hins] at h
        exact absurd h (by simp)
      · simp only [hins] at h
        obtain ⟨hf, hs'⟩ := Prod.mk.injEq .. ▸
          Option.some.inj (Option.some.inj h)
        rw [← hs']
        exact inv_install hInv hv pid s1.nextPageId rfl
          Nat.one_ne_zero hins
  · simp only [hfind] at h
    obtain ⟨hf, hs'⟩ := Prod.mk.injEq .. ▸
      Option.some.inj (Option.some.inj h)
    rw [← hs']
    obtain ⟨h1, h2, h3, h4, h5, h6, h7, h8, h9, h10, h11⟩ := hInv
    have hjlt : EHT.indexOf pageHash s.pageTable.globalDepth pid
        < s.pageTable.dir.length :=
      EHT.indexOf_lt_dirLength h9.1 pid
    obtain ⟨hflt, hfpid⟩ := h11 _ hjlt _ (EHT.find_mem hfind)
    have hfpg : f0 < s.pages.length := by
      rw [h1]
      exact hflt
    have htrf : s.replacer.tracked f0 = true :=
      h5 f0 hflt (by rw [hfpid]; rfl)
    have htr2 : ∀ g, ((s.replacer.recordAccess f0).setEvictable f0
        false).tracked g = true
        ↔ (s.replacer.tracked g = true ∨ g = f0) := by
      intro g
      rw [LRUK.tracked_setEvictable]
      exact LRUK.tracked_recordAccess h8 f0 g
    refine ⟨by rw [List.length_set]; exact h1, h2, ?_, ?_, ?_, ?_, ?_,
      ?_, h9, h10, ?_⟩
    · intro g hg
      obtain ⟨ha, hb⟩ := h3 g hg
      have hgf : ¬g = f0 := by
        intro hgf
        rw [hgf, hfpid] at hb
        exact absurd hb (by simp)
      refine ⟨ha, ?_⟩
      simp only [frameAt]
      rw [getD_set_ne hgf]
      exact hb
    · intro g hg hnone
      simp only [frameAt] at hnone
      by_cases hgf : g = f0
      · subst hgf
        rw [getD_set_self hfpg] at hnone
        have hnone' : (frameAt s g).pageId = none := hnone
        rw [hfpid] at hnone'
        exact absurd hnone' (by simp)
      · rw [getD_set_ne hgf] at hnone
        exact h4 g hg hnone
    · intro g hg hsome
      rw [htr2 g]
      by_cases hgf : g = f0
      · exact Or.inr hgf
      · simp only [frameAt] at hsome
        rw [getD_set_ne hgf] at hsome
        exact Or.inl (h5 g hg hsome)
    · intro e he
      have htre := LRUK.tracked_of_mem he
      rw [htr2 e.frameId] at htre
      by_cases hgf : e.frameId = f0
      · refine ⟨by rw [hgf]; exact hflt, ?_⟩
        simp only [frameAt]
        rw [hgf, getD_set_self hfpg]
        show (frameAt s f0).pageId.isSome = true
        rw [hfpid]
        rfl
      · rcases htre with htre | htre
        · obtain ⟨ha, hb⟩ := inv_tracked_resident
            ⟨h1, h2, h3, h4, h5, h6, h7, h8, h9, h10, h11⟩ htre
          refine ⟨ha, ?_⟩
          simp only [frameAt]
          rw [getD_set_ne hgf]
          exact hb
        · exact absurd htre hgf
    · intro g hg hsome hzero
      by_cases hgf : g = f0
      · subst hgf
        simp only [frameAt] at hzero
        rw [getD_set_self hfpg] at hzero
        exact absurd (show (frameAt s g).pinCount + 1 = 0 from hzero)
          (by simp)
      · simp only [frameAt] at hsome hzero
        rw [getD_set_ne hgf] at hsome hzero
        have hflag := h7 g hg hsome hzero
        rw [LRUK.flagOf_setEvictable_ne hgf,
          LRUK.flagOf_recordAccess h8 f0 g,
          if_neg (fun hc => hgf hc.1)]
        exact hflag
    · exact LRUK.idsOk_setEvictable (LRUK.idsOk_recordAccess h8 f0) f0 false
    · intro j hj kv hkv
      obtain ⟨ha, hb⟩ := h11 j hj kv hkv
      refine ⟨ha, ?_⟩
      simp only [frameAt]
      by_cases hgf : kv.2 = f0
      · rw [hgf, getD_set_self hfpg]
        show (frameAt s f0).pageId = some kv.1
        rw [← hgf]
        exact hb
      · rw [getD_set_ne hgf]
        exact hb

theorem inv_deletePg {s : BPMState} (hInv : Inv s) (pid : Nat) {r : Bool}
    {s' : BPMState} (h : deletePg s pid = some (r, s')) : Inv s' := by
  rcases hfind : EHT.find pageHash s.pageTable pid with _ | f
  · simp only [deletePg, hfind] at h
    obtain ⟨-, hs'⟩ := Prod.mk.injEq .. ▸ Option.some.inj h
    rw [← hs']
    exact hInv
  · by_cases hpin : 0 < (frameAt s f).pinCount
    · have heq : deletePg s pid = some (false, s) := by
        simp only [deletePg, hfind]
        rw [if_pos hpin]
      rw [heq] at h
      obtain ⟨-, hs'⟩ := Prod.mk.injEq .. ▸ Option.some.inj h
      rw [← hs']
      exact hInv
    · rcases hrem : s.replacer.remove f with _ | rep'
      · have heq : deletePg s pid = none := by
          simp only [deletePg, hfind]
          rw [if_neg hpin]
          simp only [hrem]
        rw [heq] at h
        exact absurd h (by simp)
      · have heq : deletePg s pid = some (true, { s with pageTable := (EHT.remove pageHash s.pageTable pid).2, replacer := rep', freeList := s.freeList ++ [f], pages := s.pages.set f (resetFrame (frameAt s f)) }) := by
          simp only [deletePg, hfind]
          rw [if_neg hpin]
          simp only [hrem]
        rw [heq] at h
        obtain ⟨-, hs'⟩ := Prod.mk.injEq .. ▸ Option.some.inj h
        rw [← hs']
        obtain ⟨h1, h2, h3, h4, h5, h6, h7, h8, h9, h10, h11⟩ := hInv
        have hjlt : EHT.indexOf pageHash s.pageTable.globalDepth pid
            < s.pageTable.dir.length :=
          EHT.indexOf_lt_dirLength h9.1 pid
        obtain ⟨hflt, hfpid⟩ := h11 _ hjlt _ (EHT.find_mem hfind)
        have hfpg : f < s.pages.length := by
          rw [h1]
          exact hflt
        have hnfl : ¬f ∈ s.freeList := by
          intro hm
          have hb := (h3 f hm).2
          rw [hfpid] at hb
          exact absurd hb (by simp)
        refine ⟨by rw [List.length_set]; exact h1, ?_, ?_, ?_, ?_, ?_, ?_,
          ?_, ?_, ?_, ?_⟩
        · show (s.freeList ++ [f]).Nodup
          rw [List.nodup_append]
          refine ⟨h2, List.nodup_singleton f, ?_⟩
          intro a ha hb
          rw [List.mem_singleton] at hb
          rw [hb] at ha
          exact hnfl ha
        · intro g hg
          rw [show ({ s with
              pageTable := (EHT.remove pageHash s.pageTable pid).2,
              replacer := rep', freeList := s.freeList ++ [f],
              pages := s.pages.set f (resetFrame (frameAt s f)) }
              : BPMState).freeList = s.freeList ++ [f] from rfl] at hg
          rcases List.mem_append.mp hg with hm | hm
          · obtain ⟨ha, hb⟩ := h3 g hm
            have hgf : ¬g = f := by
              intro hgf
              rw [hgf, hfpid] at hb
              exact absurd hb (by simp)
            refine ⟨ha, ?_⟩
            simp only [frameAt]
            rw [getD_set_ne hgf]
            exact hb
          · rw [List.mem_singleton] at hm
            subst hm
            refine ⟨hflt, ?_⟩
            simp only [frameAt]
            rw [getD_set_self hfpg]
            rfl
        · intro g hg hnone
          show g ∈ s.freeList ++ [f]
          by_cases hgf : g = f
          · rw [hgf]
            exact List.mem_append_right _ (List.mem_singleton.mpr rfl)
          · simp only [frameAt] at hnone
            rw [getD_set_ne hgf] at hnone
            exact List.mem_append_left _ (h4 g hg hnone)
        · intro g hg hsome
          by_cases hgf : g = f
          · subst hgf
            simp only [frameAt] at hsome
            rw [getD_set_self hfpg] at hsome
            exact absurd hsome (by simp [resetFrame])
          · simp only [frameAt] at hsome
            rw [getD_set_ne hgf] at hsome
            rw [LRUK.remove_tracked_ne hgf hrem]
            exact h5 g hg hsome
        · intro e he
          have htre := LRUK.tracked_of_mem he
          by_cases hgf : e.frameId = f
          · rw [hgf] at htre
            rw [LRUK.remove_tracked_self h8 hrem] at htre
            exact absurd htre (by simp)
          · rw [LRUK.remove_tracked_ne hgf hrem] at htre
            obtain ⟨ha, hb⟩ := inv_tracked_resident
              ⟨h1, h2, h3, h4, h5, h6, h7, h8, h9, h10, h11⟩ htre
            refine ⟨ha, ?_⟩
            simp only [frameAt]
            rw [getD_set_ne hgf]
            exact hb
        · intro g hg hsome hzero
          by_cases hgf : g = f
          · subst hgf
            simp only [frameAt] at hsome
            rw [getD_set_self hfpg] at hsome
            exact absurd hsome (by simp [resetFrame])
          · simp only [frameAt] at hsome hzero
            rw [getD_set_ne hgf] at hsome hzero
            rw [LRUK.remove_flagOf_ne hgf hrem]
            exact h7 g hg hsome hzero
        · exact LRUK.idsOk_remove h8 hrem
        · exact EHT.inv_remove pageHash h9 pid
        · rw [EHT.remove_bucketSize]
          exact h10
        · intro j hj kv hkv
          have hj' : j < s.pageTable.dir.length := by
            rw [show ((EHT.remove pageHash s.pageTable pid).2).dir
              = s.pageTable.dir from EHT.remove_dir pageHash s.pageTable pid]
              at hj
            exact hj
          have hkv' := EHT.mem_remove pageHash s.pageTable pid hkv
          obtain ⟨ha, hb⟩ := h11 j hj' kv hkv'
          have hk1 := EHT.not_mem_remove_self pageHash h9 pid hj' hkv
          have hgf : ¬kv.2 = f := by
            intro hgf
            rw [hgf, hfpid] at hb
            exact hk1 (Option.some.inj hb).symm
          refine ⟨ha, ?_⟩
          simp only [frameAt]
          rw [getD_set_ne hgf]
          exact hb

theorem deletePg_frees {s : BPMState} (hInv : Inv s) {pid f : Nat}
    (hfind : EHT.find pageHash s.pageTable pid = some f) {s' : BPMState}
    (h : deletePg s pid = some (true, s')) :
    f ∈ s'.freeList ∧ (frameAt s' f).pageId = none := by
  obtain ⟨h1, -, -, -, -, -, -, -, h9, -, h11⟩ := hInv
  have hjlt : EHT.indexOf pageHash s.pageTable.globalDepth pid
      < s.pageTable.dir.length :=
    EHT.indexOf_lt_dirLength h9.1 pid
  obtain ⟨hflt, hfpid⟩ := h11 _ hjlt _ (EHT.find_mem hfind)
  have hfpg : f < s.pages.length := by
    rw [h1]
    exact hflt
  by_cases hpin : 0 < (frameAt s f).pinCount
  · have heq : deletePg s pid = some (false, s) := by
      simp only [deletePg, hfind]
      rw [if_pos hpin]
    rw [heq] at h
    have hft := (Prod.mk.injEq .. ▸ Option.some.inj h).1
    exact absurd hft (by simp)
  · rcases hrem : s.replacer.remove f with _ | rep'
    · have heq : deletePg s pid = none := by
        simp only [deletePg, hfind]
        rw [if_neg hpin]
        simp only [hrem]
      rw [heq] at h
      exact absurd h (by simp)
    · have heq : deletePg s pid = some (true, { s with pageTable := (EHT.remove pageHash s.pageTable pid).2, replacer := rep', freeList := s.freeList ++ [f], pages := s.pages.set f (resetFrame (frameAt s f)) }) := by
        simp only [deletePg, hfind]
        rw [if_neg hpin]
        simp only [hrem]
      rw [heq] at h
      obtain ⟨-, hs'⟩ := Prod.mk.injEq .. ▸ Option.some.inj h
      rw [← hs']
      refine ⟨List.mem_append_right _ (List.mem_singleton.mpr rfl), ?_⟩
      simp only [frameAt]
      rw [getD_set_self hfpg]
      rfl

/-- **C6**: every buffer pool operation preserves the frame-state
invariant; under it each frame is in exactly one of the three states free
(on the free list with `INVALID_PAGE_ID`), resident-pinned
(`pin_count > 0`), or resident-unpinned (`pin_count = 0` and evictable);
and a successful `delete_page` leaves the freed frame on the free list with
`page_id = INVALID_PAGE_ID`. -/
theorem bpm_frame_state_invariant :
    (∀ s : BPMState, Inv s → ∀ f, f < s.poolSize →
      (f ∈ s.freeList ∧ (frameAt s f).pageId = none
        ∧ ¬(frameAt s f).pageId.isSome = true)
      ∨ ((frameAt s f).pageId.isSome = true ∧ 0 < (frameAt s f).pinCount
        ∧ ¬f ∈ s.freeList)
      ∨ ((frameAt s f).pageId.isSome = true ∧ (frameAt s f).pinCount = 0
        ∧ s.replacer.flagOf f = some true ∧ ¬f ∈ s.freeList))
    ∧ (∀ (fuel : Nat) (s : BPMState) (p : Nat) (s' : BPMState), Inv s →
        newPg fuel s = some (some (p, s')) → Inv s')
    ∧ (∀ (fuel : Nat) (s : BPMState) (pid f : Nat) (s' : BPMState),
        Inv s → fetchPg fuel s pid = some (some (f, s')) → Inv s')
    ∧ (∀ (s : BPMState) (pid : Nat) (d : Bool), Inv s →
        Inv (unpinPg s pid d).2)
    ∧ (∀ (s : BPMState) (pid : Option Nat), Inv s → Inv (flushPg s pid).2)
    ∧ (∀ s : BPMState, Inv s → Inv (flushAllPgs s))
    ∧ (∀ (s : BPMState) (pid : Nat) (r : Bool) (s' : BPMState), Inv s →
        deletePg s pid = some (r, s') → Inv s')
    ∧ (∀ (s : BPMState) (pid f : Nat) (s' : BPMState), Inv s →
        EHT.find pageHash s.pageTable pid = some f →
        deletePg s pid = some (true, s') →
        f ∈ s'.freeList ∧ (frameAt s' f).pageId = none) := by
  refine ⟨fun s hInv f hf => inv_frame_tristate hInv hf,
    fun fuel s p s' hInv h => inv_newPg hInv h,
    fun fuel s pid f s' hInv h => inv_fetchPg hInv pid h,
    fun s pid d hInv => inv_unpinPg hInv pid d,
    fun s pid hInv => inv_flushPg hInv pid,
    fun s hInv => inv_flushAllPgs hInv,
    fun s pid r s' hInv h => inv_deletePg hInv pid h,
    fun s pid f s' hInv hfind h => deletePg_frees hInv hfind h⟩

/-- Witness for C6: the freshly constructed pool satisfies the invariant,
and an unpin call from it is covered by the preservation theorem. -/
theorem bpm_frame_state_invariant_witness :
    Inv (BPMState.init 2 2 4)
    ∧ Inv (unpinPg (BPMState.init 2 2 4) 0 false).2 :=
  ⟨by decide, bpm_frame_state_invariant.2.2.2.1 (BPMState.init 2 2 4) 0
    false (by decide)⟩

end BPM

/-! ## B+ tree theorems -/

namespace BPT

/-- **C1**: the leaf chain is broken.  After inserting `10, 20, 30, 40`
with `leaf_max_size = 3` the tree does have two leaves under one internal
root and the split stitched `next_page_id_` (leaf 1 stores `2`), but
`GetNextPageId` is a stub returning `INVALID_PAGE_ID` for every leaf, so
the iterator never leaves the first leaf: after visiting `10` and `20` it
reports `IsEnd`, and in-order traversal does not yield `10, 20, 30, 40`. -/
theorem bpt_leaf_chain_broken :
    egS4.1.rootPageId = 3
    ∧ getPage egS4.2 3 = some (.internal { pageId := 3, parentPageId := -1, maxSize := 3, items := [(0, 1), (30, 2)] })
    ∧ getPage egS4.2 1 = some (.leaf { pageId := 1, parentPageId := 3, nextPageIdField := 2, maxSize := 3, items := [(10, 10), (20, 20)] })
    ∧ getPage egS4.2 2 = some (.leaf { pageId := 2, parentPageId := 3, nextPageIdField := -1, maxSize := 3, items := [(30, 30), (40, 40)] })
    ∧ (∀ l : LeafPage, l.getNextPageId = INVALID)
    ∧ (beginIter 20 egS4.1 egS4.2).map (fun p => p.1) = some ⟨1, 0⟩
    ∧ (beginIter 20 egS4.1 egS4.2).map (fun p => iterValue p.2 p.1)
        = some (10, 10)
    ∧ ((beginIter 20 egS4.1 egS4.2).bind (fun p => iterNext p.2 p.1)).map
        (fun p => (p.1, iterValue p.2 p.1, iterIsEnd p.2 p.1))
        = some (⟨1, 1⟩, (20, 20), true) := by
  refine ⟨by decide, by decide, by decide, by decide, fun l => rfl,
    by decide, by decide, by decide⟩

/-- **C2**: insert does not return true on the split path.  Inserting `40`
into the full leaf `[10, 20, 30]` (`leaf_max_size = 3`) splits and stores
the entry — `get_value 40` finds it afterwards — yet `Insert` returns
`false`; so "returns false iff the key is already present" fails.  For
contrast: a duplicate insert returns `false` and a non-split insert
returns `true`, as specified. -/
theorem bpt_insert_split_returns_false :
    (insert 20 egS3.1 egS3.2 40 40).map (fun r => r.1) = some false
    ∧ (getValue 20 egS4.1 egS4.2 40).map Prod.fst = some (some 40)
    ∧ (insert 20 egS3.1 egS3.2 20 99).map (fun r => r.1) = some false
    ∧ ((insertAll 20 [(10, 10), (20, 20)] (egTree, initStore)).bind
        (fun p => insert 20 p.1 p.2 30 30)).map (fun r => r.1)
        = some true := by
  decide

/-- **C3**: operations leak pins.  In the two-level tree `egS4` every net
pin is zero, but `get_value 10` returns with the internal root (page 3)
still pinned — `FindLeaf` pins the whole path and `GetValue` unpins only
the leaf — and `remove 40` also returns with the root still pinned. -/
theorem bpt_operations_leak_pins :
    egS4.2.pins = [(2, 0), (1, 0), (3, 0), (0, 0)]
    ∧ (getValue 20 egS4.1 egS4.2 10).map (fun r => netPin r.2 3) = some 1
    ∧ (getValue 20 egS4.1 egS4.2 10).map (fun r => netPin r.2 1) = some 0
    ∧ (removeOp 20 egS4.1 egS4.2 40).map (fun r => netPin r.2 3)
        = some 1 := by
  decide

/-- **C4**: no root collapse after a merge.  In `egS4` the internal root
(page 3) has exactly two children, each at `min_size = 2`.  Deleting `40`
underflows leaf 2 and triggers the merge into leaf 1, but afterwards
`root_page_id` is unchanged, page 3 is still the root — an internal node
with a single child — the merged child's parent pointer still names page 3,
and the header page still records root 3: the merged child never becomes
the new root. -/
theorem bpt_merge_no_root_collapse :
    minSizeOf 3 = 2
    ∧ (getPage egS4.2 3).map TreePage.size = some 2
    ∧ (getPage egS4.2 1).map TreePage.size = some 2
    ∧ (getPage egS4.2 2).map TreePage.size = some 2
    ∧ (removeOp 20 egS4.1 egS4.2 40).map (fun r => r.1.rootPageId) = some 3
    ∧ (removeOp 20 egS4.1 egS4.2 40).map (fun r => getPage r.2 3)
        = some (some (.internal { pageId := 3, parentPageId := -1, maxSize := 3, items := [(0, 1)] }))
    ∧ (removeOp 20 egS4.1 egS4.2 40).map (fun r => getPage r.2 1)
        = some (some (.leaf { pageId := 1, parentPageId := 3, nextPageIdField := -1, maxSize := 3, items := [(10, 10), (20, 20), (30, 30)] }))
    ∧ (removeOp 20 egS4.1 egS4.2 40).map (fun r => getPage r.2 0)
        = some (some (.header [("idx", 3)])) := by
  decide

end BPT
